import Mathlib

/-! Verification of the regex-to-minimal-DFA pipeline
    (regex validation / postfix conversion, Thompson NFA construction,
    subset construction, Hopcroft minimization, string simulation).

    Conventions of the embedding:
    * Python state-name strings `q{n}`, `D{n}`, `M{n}`, `'DEAD'` are
      represented by the injectively tagged type `StName`.
    * Python transition keys (single characters and the reserved string
      `'eps'`) are represented by the type `Sym`.
    * Python dictionaries are represented by association lists in
      insertion order; Python sets and frozensets by `Finset`.
    * Python's module-level `itertools.count()` counters are represented
      by an explicitly threaded `Nat` so that cross-invocation behaviour
      of the process-wide counter can be stated.
    * Fallible operations (exceptions) return `Except` / `Option`.
    * Unbounded `while` loops take a fuel parameter and return `none`
      when the fuel is exhausted. -/

deriving instance DecidableEq for Except

namespace TOA

/-- State identifiers: `q n` stands for the NFA state string `"q{n}"`,
`d n` for the DFA state string `"D{n}"`, `m n` for the minimized state
string `"M{n}"` and `dead` for the synthetic `'DEAD'` state. -/
inductive StName where
  | q (n : Nat)
  | d (n : Nat)
  | m (n : Nat)
  | dead
deriving DecidableEq

/-- Transition labels: a single character, or the reserved epsilon label
(the Python string `'eps'`, distinct from every single-character label). -/
inductive Sym where
  | ch (c : Char)
  | eps
deriving DecidableEq

/-- Injective encoding of state names into `Nat`, used only to give
`StName` a linear order (needed to choose a canonical element of a
`Finset StName`, modelling Python's arbitrary `next(iter(s))`). -/
def StName.enc : StName → Nat
  | .q n => 4 * n
  | .d n => 4 * n + 1
  | .m n => 4 * n + 2
  | .dead => 3

theorem StName.enc_injective : Function.Injective StName.enc := by
  intro a b h
  cases a <;> cases b <;> simp only [StName.enc] at h <;>
    first
      | rfl
      | omega
      | exact congrArg StName.q (by omega)
      | exact congrArg StName.d (by omega)
      | exact congrArg StName.m (by omega)

instance : LinearOrder StName :=
  LinearOrder.lift' StName.enc StName.enc_injective

/-- Insert an element into a sorted list, keeping it sorted (structural
recursion, so that it evaluates inside the kernel). -/
def insSorted {α : Type} [LinearOrder α] (a : α) : List α → List α
  | [] => [a]
  | b :: t => if a ≤ b then a :: b :: t else b :: insSorted a t

/-- Insertion sort (structural recursion). -/
def insertionSortL {α : Type} [LinearOrder α] : List α → List α
  | [] => []
  | a :: t => insSorted a (insertionSortL t)

/-- Python `sorted(s)` for a set: the ascending list of the elements of a
`Finset`, computed by a kernel-reducible insertion sort. -/
def sortFinset {α : Type} [LinearOrder α] (s : Finset α) : List α :=
  Quot.liftOn s.val insertionSortL (by
    have hperm : ∀ (a : α) (l : List α), List.Perm (insSorted a l) (a :: l) := by
      intro a l
      induction l with
      | nil => simp [insSorted]
      | cons b t ih =>
        by_cases hab : a ≤ b
        · simp [insSorted, hab]
        · simp only [insSorted, if_neg hab]
          exact (ih.cons b).trans (List.Perm.swap a b t)
    have hpermS : ∀ l : List α, List.Perm (insertionSortL l) l := by
      intro l
      induction l with
      | nil => simp [insertionSortL]
      | cons a t ih => exact (hperm a (insertionSortL t)).trans (ih.cons a)
    have hsortIns : ∀ (a : α) (l : List α),
        l.Sorted (· ≤ ·) → (insSorted a l).Sorted (· ≤ ·) := by
      intro a l
      induction l with
      | nil => intro _; simp [insSorted]
      | cons b t ih =>
        intro hl
        rw [List.sorted_cons] at hl
        by_cases hab : a ≤ b
        · rw [insSorted, if_pos hab, List.sorted_cons]
          refine ⟨?_, by rw [List.sorted_cons]; exact hl⟩
          intro x hx
          rcases List.mem_cons.mp hx with h | h
          · exact h ▸ hab
          · exact le_trans hab (hl.1 x h)
        · rw [insSorted, if_neg hab, List.sorted_cons]
          refine ⟨?_, ih hl.2⟩
          intro x hx
          have hx2 : x ∈ a :: t := (hperm a t).mem_iff.mp hx
          rcases List.mem_cons.mp hx2 with h | h
          · exact h ▸ le_of_not_le hab
          · exact hl.1 x h
    have hsortS : ∀ l : List α, (insertionSortL l).Sorted (· ≤ ·) := by
      intro l
      induction l with
      | nil => simp [insertionSortL]
      | cons a t ih => exact hsortIns a (insertionSortL t) ih
    intro l1 l2 h12
    exact List.eq_of_perm_of_sorted
      (((hpermS l1).trans h12).trans (hpermS l2).symm) (hsortS l1) (hsortS l2))

/-- Dictionary lookup on an association list (Python `dict` access). -/
def alookup {α β : Type} [DecidableEq α] (k : α) : List (α × β) → Option β
  | [] => none
  | p :: t => if p.1 = k then some p.2 else alookup k t

/-- Python `dict.setdefault(k, v)`: insert `(k, v)` at the end when the
key is absent, otherwise leave the dictionary unchanged. -/
def asetd {α β : Type} [DecidableEq α] (k : α) (v : β) (l : List (α × β)) : List (α × β) :=
  if (alookup k l).isSome then l else l ++ [(k, v)]

/-- Update the value stored at an existing key in place. -/
def amod {α β : Type} [DecidableEq α] (k : α) (f : β → β) : List (α × β) → List (α × β)
  | [] => []
  | p :: t => if p.1 = k then (p.1, f p.2) :: t else p :: amod k f t

/-- Python dictionary merge `{**a, **b}`: keys of `a` in order with values
overridden by `b` where present, followed by the keys of `b` not in `a`. -/
def dictMerge {α β : Type} [DecidableEq α] (a b : List (α × β)) : List (α × β) :=
  (a.map fun p =>
    match alookup p.1 b with
    | some w => (p.1, w)
    | none => p) ++ b.filter fun p => (alookup p.1 a).isNone

/-! ### regex_parser.py -/

/-- The error cases raised by `validate_regex` / `to_postfix`: the five
documented `SyntaxError` categories (each carrying the offending index or
character), the `TypeError` Python raises when the final membership test
`prev in '+.'` is evaluated with `prev` still `None`, and the two
defensive unmatched-parenthesis errors of the shunting-yard pass. -/
inductive ParseErr where
  | unmatchedClose (i : Nat)
  | invalidPlus (i : Nat)
  | invalidStar (i : Nat)
  | invalidRepetition (i : Nat)
  | unknownSymbol (i : Nat)
  | missingClose (i : Nat)
  | trailingOperator (c : Char)
  | typeError
  | unmatchedParenParsing
  | unmatchedParenExpr
deriving DecidableEq

/-- One iteration of the validation scan of `validate_regex`: character
`c` at index `i`, with the open-parenthesis stack and the previous
non-space character. -/
def validateStep (i : Nat) (c : Char) (stack : List Nat) (prev : Option Char) :
    Except ParseErr (List Nat × Option Char) :=
  if c = ' ' then .ok (stack, prev)
  else if c = '(' then .ok (i :: stack, some c)
  else if c = ')' then
    match stack with
    | [] => .error (.unmatchedClose i)
    | _ :: rest => .ok (rest, some c)
  else if c = '+' then
    if prev = none ∨ prev = some '+' ∨ prev = some '.' ∨ prev = some '(' then
      .error (.invalidPlus i)
    else .ok (stack, some c)
  else if c = '*' then
    if prev = none ∨ prev = some '+' ∨ prev = some '.' ∨ prev = some '(' then
      .error (.invalidStar i)
    else if prev = some '*' then .error (.invalidRepetition (i - 1))
    else .ok (stack, some c)
  else if c.isAlphanum then .ok (stack, some c)
  else .error (.unknownSymbol i)

/-- The validation scan over the remaining characters. -/
def validateLoop : List Char → Nat → List Nat → Option Char →
    Except ParseErr (List Nat × Option Char)
  | [], _, stack, prev => .ok (stack, prev)
  | c :: cs, i, stack, prev =>
    match validateStep i c stack prev with
    | .error e => .error e
    | .ok (st2, p2) => validateLoop cs (i + 1) st2 p2

/-- `validate_regex`: scan the regex, then report an unclosed parenthesis
(at the most recently opened position, Python `stack[-1]`), then evaluate
`prev in '+.'` — which is a `TypeError` when `prev` is still `None`, and a
trailing-operator error when `prev` is `'+'` or `'.'`. -/
def validate_regex (regex : List Char) : Except ParseErr Unit :=
  match validateLoop regex 0 [] none with
  | .error e => .error e
  | .ok (stack, prev) =>
    match stack with
    | pos :: _ => .error (.missingClose pos)
    | [] =>
      match prev with
      | none => .error .typeError
      | some p => if p = '+' ∨ p = '.' then .error (.trailingOperator p) else .ok ()

/-- One step of `add_concat`: emit `'.'` between an adjacent pair where
the left is alphanumeric, `'*'` or `')'` and the right is alphanumeric or
`'('`; spaces are skipped without updating `prev`. -/
def addConcatStep (acc : List Char × Option Char) (c : Char) : List Char × Option Char :=
  if c = ' ' then acc
  else
    match acc.2 with
    | some p =>
      if (p.isAlphanum ∨ p = '*' ∨ p = ')') ∧ (c.isAlphanum ∨ c = '(') then
        (acc.1 ++ ['.', c], some c)
      else (acc.1 ++ [c], some c)
    | none => (acc.1 ++ [c], some c)

/-- `add_concat`: insert the explicit concatenation operator. -/
def add_concat (regex : List Char) : List Char :=
  (regex.foldl addConcatStep ([], none)).1

/-- Operator precedence (`*` > `.` > `+`; everything else 0, matching
`precedence.get(c, 0)`). -/
def precedence (c : Char) : Nat :=
  if c = '*' then 3 else if c = '.' then 2 else if c = '+' then 1 else 0

/-- Pop stacked operators of precedence at least that of `token` onto
the output, stopping at `'('` (the shunting-yard while-loop). -/
def popGE (token : Char) : List Char → List Char → List Char × List Char
  | out, [] => (out, [])
  | out, t :: rest =>
    if t ≠ '(' ∧ precedence token ≤ precedence t then popGE token (out ++ [t]) rest
    else (out, t :: rest)

/-- Pop operators onto the output until an opening parenthesis, which is
discarded; `none` when the stack runs out (unmatched parenthesis). -/
def popToParen : List Char → List Char → Option (List Char × List Char)
  | _, [] => none
  | out, t :: rest => if t = '(' then some (out, rest) else popToParen (out ++ [t]) rest

/-- The shunting-yard traversal of `to_postfix` over the
concatenation-expanded regex. -/
def postfixLoop : List Char → List Char → List Char →
    Except ParseErr (List Char × List Char)
  | [], out, stack => .ok (out, stack)
  | c :: cs, out, stack =>
    if c.isAlphanum then postfixLoop cs (out ++ [c]) stack
    else if c = '(' then postfixLoop cs out (c :: stack)
    else if c = ')' then
      match popToParen out stack with
      | none => .error .unmatchedParenParsing
      | some (out2, rest) => postfixLoop cs out2 rest
    else
      let pr := popGE c out stack
      postfixLoop cs pr.1 (c :: pr.2)

/-- Drain the operator stack at the end of `to_postfix`; a leftover
parenthesis is an error. -/
def drainStack : List Char → List Char → Except ParseErr (List Char)
  | out, [] => .ok out
  | out, t :: rest =>
    if t = '(' ∨ t = ')' then .error .unmatchedParenExpr
    else drainStack (out ++ [t]) rest

/-- `to_postfix`: validate, insert explicit concatenation, then convert
to postfix by the shunting-yard algorithm. -/
def to_postfix (regex : List Char) : Except ParseErr (List Char) :=
  match validate_regex regex with
  | .error e => .error e
  | .ok _ =>
    match postfixLoop (add_concat regex) [] [] with
    | .error e => .error e
    | .ok (out, stack) => drainStack out stack

/-! ### thompson_nfa.py -/

/-- The per-state transition dictionary: symbol to ordered destinations. -/
abbrev TransMap := List (Sym × List StName)

/-- The NFA state dictionary: state to its transition dictionary. -/
abbrev StateMap := List (StName × TransMap)

/-- The NFA of `thompson_nfa.py`: one start state, one accept state, and
the state dictionary. -/
structure NFA where
  start : StName
  accept : StName
  states : StateMap
deriving DecidableEq

/-- `setdefault(symbol, []).append(dst)` on one transition row. -/
def addToRow (symbol : Sym) (dst : StName) (tm : TransMap) : TransMap :=
  if (alookup symbol tm).isSome then amod symbol (fun l => l ++ [dst]) tm
  else tm ++ [(symbol, [dst])]

/-- `NFA.add_transition` on the state dictionary: `setdefault` both
endpoints, then `setdefault(symbol, []).append(dst)` at the source. -/
def addTransitionMap (src : StName) (symbol : Sym) (dst : StName) (sm : StateMap) : StateMap :=
  amod src (addToRow symbol dst) (asetd dst [] (asetd src [] sm))

/-- `NFA.add_transition`. -/
def NFA.add_transition (n : NFA) (src : StName) (symbol : Sym) (dst : StName) : NFA :=
  { n with states := addTransitionMap src symbol dst n.states }

/-- Errors of `build_from_postfix`: popping or indexing an empty operand
stack (Python `IndexError`) and the explicit unknown-token `ValueError`. -/
inductive BuildErr where
  | indexError
  | unknownToken (c : Char)
deriving DecidableEq

/-- One iteration of the token loop of `build_from_postfix` on stack
`st` (head is the top of the Python stack) with state counter `cnt`. -/
def buildStep1 (st : List NFA) (cnt : Nat) (token : Char) : Except BuildErr (List NFA × Nat) :=
  if token.isAlphanum then
    let s := StName.q cnt
    let t := StName.q (cnt + 1)
    let base : NFA := { start := s, accept := t, states := [(s, []), (t, [])] }
    .ok ((base.add_transition s (.ch token) t) :: st, cnt + 2)
  else if token = '*' then
    match st with
    | [] => .error .indexError
    | n1 :: rest =>
      let s := StName.q cnt
      let t := StName.q (cnt + 1)
      let st0 := asetd t [] (asetd s [] n1.states)
      let na : NFA := { start := s, accept := t, states := st0 }
      let nb := na.add_transition s .eps n1.start
      let nc := nb.add_transition s .eps t
      let nd := nc.add_transition n1.accept .eps n1.start
      let ne := nd.add_transition n1.accept .eps t
      .ok (ne :: rest, cnt + 2)
  else if token = '.' then
    match st with
    | n2 :: n1 :: rest =>
      let na : NFA :=
        { start := n1.start, accept := n2.accept, states := dictMerge n1.states n2.states }
      let nb := na.add_transition n1.accept .eps n2.start
      .ok (nb :: rest, cnt)
    | _ => .error .indexError
  else if token = '+' then
    match st with
    | n2 :: n1 :: rest =>
      let s := StName.q cnt
      let t := StName.q (cnt + 1)
      let st0 := asetd t [] (asetd s [] (dictMerge n1.states n2.states))
      let na : NFA := { start := s, accept := t, states := st0 }
      let nb := na.add_transition s .eps n1.start
      let nc := nb.add_transition s .eps n2.start
      let nd := nc.add_transition n1.accept .eps t
      let ne := nd.add_transition n2.accept .eps t
      .ok (ne :: rest, cnt + 2)
    | _ => .error .indexError
  else .error (.unknownToken token)

/-- The token loop of `build_from_postfix`. -/
def buildTokens : List Char → List NFA → Nat → Except BuildErr (List NFA × Nat)
  | [], st, cnt => .ok (st, cnt)
  | t :: ts, st, cnt =>
    match buildStep1 st cnt t with
    | .error e => .error e
    | .ok (st2, c2) => buildTokens ts st2 c2

/-- `build_from_postfix`: run the token loop from an empty stack and
return `stack[0]` — the bottom, first-pushed fragment (an `IndexError`
when the stack is empty).  The state counter (Python's module-level
`_counter`) is threaded explicitly. -/
def build_from_postfix (pf : List Char) (cnt : Nat) : Except BuildErr (NFA × Nat) :=
  match buildTokens pf [] cnt with
  | .error e => .error e
  | .ok (st, c2) =>
    match st.getLast? with
    | none => .error .indexError
    | some n => .ok (n, c2)

/-! ### subset_dfa.py -/

/-- `nfa.states.get(s, {}).get(symbol, [])`: the ordered destinations of
`s` on `symbol`. -/
def symDests (nfa : NFA) (s : StName) (symbol : Sym) : List StName :=
  ((alookup s nfa.states).bind (alookup symbol)).getD []

/-- The inner loop of one `epsilon_closure` iteration: for each
destination, add it to the closure and push it when unvisited. -/
def closStepFold (cl : Finset StName) (stk : List StName) (ds : List StName) :
    Finset StName × List StName :=
  ds.foldl
    (fun (p : Finset StName × List StName) nxt =>
      if nxt ∈ p.1 then p else (insert nxt p.1, nxt :: p.2))
    (cl, stk)

/-- The worklist loop of `epsilon_closure`: pop a state, add and push its
unvisited epsilon-destinations.  One fuel unit per iteration; `none` when
the fuel runs out (the Python loop always terminates, so any fuel at
least the number of states ever pushed suffices). -/
def closureLoop (nfa : NFA) : Nat → List StName → Finset StName → Option (Finset StName)
  | _, [], cl => some cl
  | 0, _ :: _, _ => none
  | fuel + 1, s :: stk, cl =>
    let step := closStepFold cl stk (symDests nfa s Sym.eps)
    closureLoop nfa fuel step.2 step.1

/-- `epsilon_closure`: the set of states reachable from `s0` along
epsilon edges (the initial worklist order is immaterial to the resulting
set; we seed it with the sorted elements). -/
def epsilon_closure (nfa : NFA) (fuel : Nat) (s0 : Finset StName) : Option (Finset StName) :=
  closureLoop nfa fuel (sortFinset s0) s0

/-- `move`: the union of the `symbol`-labelled destinations over the set. -/
def move (nfa : NFA) (S : Finset StName) (symbol : Sym) : Finset StName :=
  S.biUnion (fun s => (symDests nfa s symbol).toFinset)

/-- The alphabet of an NFA: every non-epsilon symbol occurring in its
transition dictionary. -/
def nfaAlphabet (nfa : NFA) : Finset Char :=
  (nfa.states.map (fun p =>
    p.2.map (fun qq =>
      match qq.1 with
      | .ch c => [c]
      | .eps => []))).flatten.flatten.toFinset

/-- The DFA of `subset_dfa.py`: start state, state-to-NFA-set dictionary,
transition dictionary, final set, and alphabet. -/
structure DFA where
  start : StName
  states : List (StName × Finset StName)
  transitions : List (StName × List (Char × StName))
  final_states : Finset StName
  alphabet : Finset Char
deriving DecidableEq

/-- The mutable data of the subset-construction loop: the
closure-to-name dictionary, the three output dictionaries/sets, the
worklist and the fresh-name counter (Python's module-level `_dcounter`). -/
structure SubsetState where
  mapping : List (Finset StName × StName)
  dstates : List (StName × Finset StName)
  dtrans : List (StName × List (Char × StName))
  dfinal : Finset StName
  queue : List (Finset StName)
  counter : Nat

/-- One alphabet symbol of the inner loop of `nfa_to_dfa`: compute
`move` then `epsilon_closure`; skip when `move` is empty; allocate and
enqueue a fresh DFA state when the closure is new; record the transition
in the current row. -/
def subsetSym (nfa : NFA) (T : Finset StName) (fuel : Nat)
    (st : SubsetState) (row : List (Char × StName)) (a : Char) :
    Option (SubsetState × List (Char × StName)) :=
  let moved := move nfa T (.ch a)
  if moved = ∅ then some (st, row)
  else
    match epsilon_closure nfa fuel moved with
    | none => none
    | some U =>
      match alookup U st.mapping with
      | some name => some (st, row ++ [(a, name)])
      | none =>
        let name := StName.d st.counter
        some ({ st with
                  mapping := st.mapping ++ [(U, name)]
                  dstates := st.dstates ++ [(name, U)]
                  queue := st.queue ++ [U]
                  counter := st.counter + 1 },
              row ++ [(a, name)])

/-- The inner loop of `nfa_to_dfa` over the sorted alphabet. -/
def subsetSyms (nfa : NFA) (T : Finset StName) (fuel : Nat) :
    List Char → SubsetState → List (Char × StName) →
    Option (SubsetState × List (Char × StName))
  | [], st, row => some (st, row)
  | a :: as, st, row =>
    match subsetSym nfa T fuel st row a with
    | none => none
    | some (st2, row2) => subsetSyms nfa T fuel as st2 row2

/-- The worklist loop of `nfa_to_dfa`: dequeue a closure `T`, mark its
DFA state final when it contains the NFA accept state, process every
alphabet symbol, and append the collected transition row. -/
def subsetLoop (nfa : NFA) (alpha : List Char) (fuel : Nat) :
    Nat → SubsetState → Option SubsetState
  | 0, _ => none
  | lf + 1, st =>
    match st.queue with
    | [] => some st
    | T :: rest =>
      match alookup T st.mapping with
      | none => none
      | some Td =>
        let df2 := if nfa.accept ∈ T then insert Td st.dfinal else st.dfinal
        match subsetSyms nfa T fuel alpha { st with queue := rest, dfinal := df2 } [] with
        | none => none
        | some (st2, row) =>
          subsetLoop nfa alpha fuel lf { st2 with dtrans := st2.dtrans ++ [(Td, row)] }

/-- `nfa_to_dfa`: subset construction by breadth-first worklist, the
alphabet iterated in sorted order.  The fresh-name counter (Python's
module-level `_dcounter`) is threaded explicitly; `none` models fuel
exhaustion only. -/
def nfa_to_dfa (nfa : NFA) (fuel : Nat) (dcnt : Nat) : Option (DFA × Nat) :=
  let alphaF := nfaAlphabet nfa
  let alpha := sortFinset alphaF
  match epsilon_closure nfa fuel {nfa.start} with
  | none => none
  | some sc =>
    let name0 := StName.d dcnt
    let st0 : SubsetState :=
      { mapping := [(sc, name0)], dstates := [(name0, sc)], dtrans := [],
        dfinal := ∅, queue := [sc], counter := dcnt + 1 }
    match subsetLoop nfa alpha fuel fuel st0 with
    | none => none
    | some st =>
      some ({ start := name0, states := st.dstates, transitions := st.dtrans,
              final_states := st.dfinal, alphabet := alphaF }, st.counter)

/-! ### minimizer.py -/

/-- The minimal DFA of `minimizer.py`: same shape as `DFA`, with each
state's set holding the original DFA states of its block. -/
structure MinDFA where
  start : StName
  states : List (StName × Finset StName)
  transitions : List (StName × List (Char × StName))
  final_states : Finset StName
  alphabet : Finset Char
deriving DecidableEq

/-- `dfa.transitions.get(s, {}).get(a)`: the possibly missing transition
of the input DFA. -/
def baseTrans (dfa : DFA) (s : StName) (a : Char) : Option StName :=
  (alookup s dfa.transitions).bind (alookup a)

/-- The key set of the DFA state dictionary. -/
def dfaStateSet (dfa : DFA) : Finset StName :=
  (dfa.states.map (·.1)).toFinset

/-- Whether some state misses some transition over the alphabet, so the
synthetic dead state is added. -/
def deadNeeded (dfa : DFA) (alpha : List Char) : Bool :=
  (dfa.states.map (·.1)).any (fun s => alpha.any (fun a => (baseTrans dfa s a).isNone))

/-- The totalized transition function of the minimizer: the dead state
(when added) loops to itself on every symbol and receives every missing
transition. -/
def totalTrans (dfa : DFA) (dn : Bool) (s : StName) (a : Char) : StName :=
  if dn ∧ s = StName.dead then StName.dead
  else (baseTrans dfa s a).getD StName.dead

/-- Remove the first occurrence of an element (Python `deque.remove`). -/
def eraseFirst {α : Type} [DecidableEq α] (a : α) : List α → List α
  | [] => []
  | x :: xs => if x = a then xs else x :: eraseFirst a xs

/-- The inner block loop of the refinement step: split every block `Y`
into `Y ∩ X` and `Y \ X` when both parts are nonempty, maintaining the
worklist by the replace-if-queued / enqueue-smaller-half rule (Python
appends at the end of the deque and removes by first occurrence). -/
def refineBlocks (X : Finset StName) :
    List (Finset StName) → List (Finset StName) →
    List (Finset StName) × List (Finset StName)
  | [], w => ([], w)
  | y :: ys, w =>
    let inter := y ∩ X
    let diff := y \ X
    if inter ≠ ∅ ∧ diff ≠ ∅ then
      let w2 :=
        if y ∈ w then (eraseFirst y w) ++ [inter, diff]
        else if inter.card ≤ diff.card then w ++ [inter] else w ++ [diff]
      let r := refineBlocks X ys w2
      (inter :: diff :: r.1, r.2)
    else
      let r := refineBlocks X ys w
      (y :: r.1, r.2)

/-- One symbol of the refinement step for the popped splitter `A`:
compute the preimage set `X` and split every block, recording a trace
snapshot when the partition actually changed. -/
def refineSym (states : Finset StName) (tt : StName → Char → StName) (A : Finset StName)
    (c : Char) (P W : List (Finset StName))
    (steps : List (String × List (Finset StName))) :
    List (Finset StName) × List (Finset StName) × List (String × List (Finset StName)) :=
  let X := states.filter (fun qq => tt qq c ∈ A)
  let r := refineBlocks X P W
  if r.1 ≠ P then
    (r.1, r.2, steps ++ [("Refine on symbol \x27" ++ c.toString ++ "\x27", r.1)])
  else (P, r.2, steps)

/-- The symbol loop of the refinement step. -/
def refineSyms (states : Finset StName) (tt : StName → Char → StName) (A : Finset StName) :
    List Char → List (Finset StName) → List (Finset StName) →
    List (String × List (Finset StName)) →
    List (Finset StName) × List (Finset StName) × List (String × List (Finset StName))
  | [], P, W, steps => (P, W, steps)
  | c :: cs, P, W, steps =>
    let r := refineSym states tt A c P W steps
    refineSyms states tt A cs r.1 r.2.1 r.2.2

/-- The worklist loop of `hopcroft_minimize`; one fuel unit per popped
splitter, `none` on fuel exhaustion. -/
def hopLoop (states : Finset StName) (tt : StName → Char → StName) (alpha : List Char) :
    Nat → List (Finset StName) → List (Finset StName) →
    List (String × List (Finset StName)) →
    Option (List (Finset StName) × List (String × List (Finset StName)))
  | 0, _, _, _ => none
  | fuel + 1, P, W, steps =>
    match W with
    | [] => some (P, steps)
    | A :: Wrest =>
      let r := refineSyms states tt A alpha P Wrest steps
      hopLoop states tt alpha fuel r.1 r.2.1 r.2.2

/-- The index of the block containing `s`.  The blocks of every partition
reached by the algorithm are pairwise disjoint, so the first matching
block is the only matching block (Python fills `rep` by iterating all
blocks, which agrees on disjoint blocks). -/
def blockIdx (P : List (Finset StName)) (s : StName) : Option Nat :=
  match P with
  | [] => none
  | b :: rest => if s ∈ b then some 0 else (blockIdx rest s).map (· + 1)

/-- The block-membership map `rep`: the minimized name `M{i}` of the
block holding `s` (`none` models Python's `KeyError` when `s` lies in no
block). -/
def repOf (P : List (Finset StName)) (s : StName) : Option StName :=
  (blockIdx P s).map StName.m

/-- A canonical element of a block, modelling Python's arbitrary
`next(iter(members))` (which representative is chosen does not matter for
any property stated here). -/
def pickRep (b : Finset StName) : Option StName :=
  (sortFinset b).head?

/-- The minimized transition row of one block from its representative. -/
def minRow (rep : StName → Option StName) (tt : StName → Char → StName) (r : StName) :
    List Char → Option (List (Char × StName))
  | [] => some []
  | a :: as =>
    match rep (tt r a) with
    | none => none
    | some mt =>
      match minRow rep tt r as with
      | none => none
      | some rest => some ((a, mt) :: rest)

/-- The minimized transition dictionary, block by block. -/
def minTransBuild (rep : StName → Option StName) (tt : StName → Char → StName)
    (alpha : List Char) :
    List (StName × Finset StName) → Option (List (StName × List (Char × StName)))
  | [] => some []
  | (name, members) :: rest =>
    match pickRep members with
    | none => none
    | some r =>
      match minRow rep tt r alpha with
      | none => none
      | some row =>
        match minTransBuild rep tt alpha rest with
        | none => none
        | some rs => some ((name, row) :: rs)

/-- Map a fallible function over a list, failing when any element fails. -/
def mapOption {α β : Type} (f : α → Option β) : List α → Option (List β)
  | [] => some []
  | a :: t =>
    match f a with
    | none => none
    | some b =>
      match mapOption f t with
      | none => none
      | some r => some (b :: r)

/-- `{rep[s] for s in dfa.final_states}` (`none` on a missing key). -/
def minFinals (rep : StName → Option StName) (fs : Finset StName) : Option (Finset StName) :=
  match mapOption rep (sortFinset fs) with
  | none => none
  | some l => some l.toFinset

/-- `hopcroft_minimize`: totalize the transition function with a dead
state when needed, refine the final/non-final partition to a fixed point,
and build the minimized DFA and the refinement trace. -/
def hopcroft_minimize (dfa : DFA) (fuel : Nat) :
    Option (MinDFA × List (String × List (Finset StName))) :=
  let alpha := sortFinset dfa.alphabet
  let states0 := dfaStateSet dfa
  let dn := deadNeeded dfa alpha
  let statesAll := if dn then insert StName.dead states0 else states0
  let tt := totalTrans dfa dn
  let P0 := [dfa.final_states, statesAll \ dfa.final_states].filter (fun b => decide (b ≠ ∅))
  let steps0 := [("Initial partition", P0)]
  match hopLoop statesAll tt alpha fuel P0 P0 steps0 with
  | none => none
  | some (P, steps) =>
    let rep := repOf P
    let mname := P.enum.map (fun p => (StName.m p.1, p.2))
    match minTransBuild rep tt alpha mname with
    | none => none
    | some mtrans =>
      match rep dfa.start with
      | none => none
      | some mstart =>
        match minFinals rep dfa.final_states with
        | none => none
        | some mfin =>
          some ({ start := mstart, states := mname, transitions := mtrans,
                  final_states := mfin, alphabet := dfa.alphabet }, steps)

/-! ### main.py, step 5 (string simulation) -/

/-- One simulation trace entry: current state, consumed character, next
state or the reject marker (`none` renders as `"REJECT"`). -/
abbrev SimEntry := StName × Char × Option StName

/-- The character loop of the simulation, plus the final-state check once
the whole string is consumed. -/
def simLoop (mdfa : MinDFA) (cur : StName) : List Char → List SimEntry × String
  | [] => ([], if cur ∈ mdfa.final_states then "Accepted" else "Rejected")
  | c :: cs =>
    match (alookup cur mdfa.transitions).bind (alookup c) with
    | none => ([(cur, c, none)], "Rejected")
    | some nxt =>
      let r := simLoop mdfa nxt cs
      ((cur, c, some nxt) :: r.1, r.2)

/-- The string simulation of `main.run`: an empty input is reported as
`Rejected (empty input)` without consulting the automaton; otherwise the
character loop runs from the start state. -/
def simulate (mdfa : MinDFA) (input : List Char) : List SimEntry × String :=
  match input with
  | [] => ([], "Rejected (empty input)")
  | _ :: _ => simLoop mdfa mdfa.start input

/-- The whole pipeline of `main.run`, from the regex string and the test
string to the simulation verdict (`none` on a parse/construction failure
or fuel exhaustion). -/
def runPipeline (regex : List Char) (input : List Char) (fuel : Nat) : Option String :=
  match to_postfix regex with
  | .error _ => none
  | .ok pf =>
    match build_from_postfix pf 0 with
    | .error _ => none
    | .ok (nfa, _) =>
      match nfa_to_dfa nfa fuel 0 with
      | none => none
      | some (dfa, _) =>
        match hopcroft_minimize dfa fuel with
        | none => none
        | some (mdfa, _) => some (simulate mdfa input).2

/-! ### Derived notions used to state the claims -/

/-- The key list of a state dictionary. -/
def keysOf {β : Type} (sm : List (StName × β)) : List StName :=
  sm.map (·.1)

/-- The number of states of an NFA (the size of its state dictionary). -/
def numStates (n : NFA) : Nat :=
  n.states.length

/-- The number of epsilon edges recorded in one transition row. -/
def epsLen (tm : TransMap) : Nat :=
  ((alookup Sym.eps tm).getD []).length

/-- The number of epsilon edges of a state dictionary. -/
def epsSum (sm : StateMap) : Nat :=
  (sm.map (fun p => epsLen p.2)).sum

/-- The number of epsilon edges of an NFA: the summed lengths of the
epsilon destination lists. -/
def epsEdgeCount (n : NFA) : Nat :=
  epsSum n.states

/-- The composite transition function of the minimal DFA: follow the
whole string, `none` as soon as a transition is missing. -/
def deltaStar (mdfa : MinDFA) : StName → List Char → Option StName
  | cur, [] => some cur
  | cur, c :: cs =>
    match (alookup cur mdfa.transitions).bind (alookup c) with
    | none => none
    | some nxt => deltaStar mdfa nxt cs

/-- A list of blocks partitions the universe `u`: blocks are pairwise
disjoint and their union is exactly `u`. -/
def isPartitionOf (P : List (Finset StName)) (u : Finset StName) : Prop :=
  List.Pairwise (fun b1 b2 => Disjoint b1 b2) P ∧ P.foldr (· ∪ ·) ∅ = u

/-- The totalized state set of the minimizer: the input DFA's states
plus the synthetic dead state when one was added. -/
def totalStateSet (dfa : DFA) : Finset StName :=
  if deadNeeded dfa (sortFinset dfa.alphabet) then insert StName.dead (dfaStateSet dfa)
  else dfaStateSet dfa

/-- Epsilon-closure reachability: the states reachable from the set `S`
along epsilon edges (the mathematical specification the worklist
`epsilon_closure` computes). -/
inductive EpsReach (nfa : NFA) (S : Finset StName) : StName → Prop where
  | base {x : StName} : x ∈ S → EpsReach nfa S x
  | step {x y : StName} : EpsReach nfa S x → y ∈ symDests nfa x Sym.eps →
      EpsReach nfa S y

/-- NFA run semantics by epsilon-closure reachability: the states the
NFA can be in after consuming a word, starting from the epsilon closure
of the start state, alternating one labelled edge and epsilon closure. -/
inductive NfaReach (nfa : NFA) : List Char → StName → Prop where
  | nil {x : StName} : EpsReach nfa {nfa.start} x → NfaReach nfa [] x
  | snoc {w : List Char} {c : Char} {x d y : StName} :
      NfaReach nfa w x → d ∈ symDests nfa x (Sym.ch c) →
      EpsReach nfa {d} y → NfaReach nfa (w ++ [c]) y

/-- NFA acceptance via epsilon-closure reachability. -/
def nfaAccepts (nfa : NFA) (s : List Char) : Prop :=
  NfaReach nfa s nfa.accept

/-- The composite transition function of the DFA (deterministic
simulation, `none` as soon as a transition is missing). -/
def dfaDeltaStar (dfa : DFA) : StName → List Char → Option StName
  | cur, [] => some cur
  | cur, c :: cs =>
    match (alookup cur dfa.transitions).bind (alookup c) with
    | none => none
    | some nxt => dfaDeltaStar dfa nxt cs

/-- DFA acceptance by deterministic simulation. -/
def dfaAccepts (dfa : DFA) (s : List Char) : Bool :=
  match dfaDeltaStar dfa dfa.start s with
  | some qq => decide (qq ∈ dfa.final_states)
  | none => false

/-- Minimal-DFA acceptance by deterministic simulation. -/
def minAccepts (mdfa : MinDFA) (s : List Char) : Bool :=
  match deltaStar mdfa mdfa.start s with
  | some qq => decide (qq ∈ mdfa.final_states)
  | none => false

/-- Iterate a total transition function over a word. -/
def ttStar (tt : StName → Char → StName) : StName → List Char → StName
  | cur, [] => cur
  | cur, c :: cs => ttStar tt (tt cur c) cs

/-- Some worklist element separates the two states (one is inside, the
other outside).  This is the pending-splitter obligation of Hopcroft's
refinement loop. -/
def Sep (W : List (Finset StName)) (u v : StName) : Prop :=
  ∃ S ∈ W, (u ∈ S ∧ v ∉ S) ∨ (v ∈ S ∧ u ∉ S)

/-- The Hopcroft worklist invariant: any two states in one block whose
transitions on some alphabet symbol fall into different blocks are
separated by some pending worklist element. -/
def HopInv (tt : StName → Char → StName) (alpha : List Char)
    (P W : List (Finset StName)) : Prop :=
  ∀ a ∈ alpha, ∀ Y ∈ P, ∀ p1 ∈ Y, ∀ p2 ∈ Y,
    blockIdx P (tt p1 a) ≠ blockIdx P (tt p2 a) → Sep W (tt p1 a) (tt p2 a)

/-- Stability of a partition: transitions from states of one block land
in one block, for every alphabet symbol. -/
def StableP (tt : StName → Char → StName) (alpha : List Char)
    (P : List (Finset StName)) : Prop :=
  ∀ a ∈ alpha, ∀ Y ∈ P, ∀ p1 ∈ Y, ∀ p2 ∈ Y,
    blockIdx P (tt p1 a) = blockIdx P (tt p2 a)

/-- The refinement invariant in the middle of processing one popped
splitter `A`: a pair of same-block states sent to different blocks is
separated by the worklist already, or a pending symbol of the current pop
distinguishes the pair through the popped splitter `A`. -/
def MidPop (tt : StName → Char → StName) (alpha : List Char) (A : Finset StName)
    (pending : List Char) (P W : List (Finset StName)) : Prop :=
  ∀ a ∈ alpha, ∀ Y ∈ P, ∀ p1 ∈ Y, ∀ p2 ∈ Y,
    blockIdx P (tt p1 a) ≠ blockIdx P (tt p2 a) →
      Sep W (tt p1 a) (tt p2 a) ∨
      (a ∈ pending ∧ ((tt p1 a ∈ A ∧ tt p2 a ∉ A) ∨ (tt p2 a ∈ A ∧ tt p1 a ∉ A)))

/-- The invariant of the subset-construction worklist loop.  The output
state dictionary mirrors the closure-to-name dictionary; closures (the
dictionary keys) are pairwise distinct, names are pairwise distinct fresh
`D`-names below the counter; the queue lists pending closures without
duplicates; every discovered entry either is still queued (finality not
yet recorded) or has its finality recorded exactly. -/
structure SubInv (nfa : NFA) (st : SubsetState) : Prop where
  hflip : st.dstates = st.mapping.map (fun p => (p.2, p.1))
  hkeys : (st.mapping.map (·.1)).Nodup
  hvals : (st.mapping.map (·.2)).Nodup
  hbound : ∀ name ∈ st.mapping.map (·.2), ∃ k, k < st.counter ∧ name = StName.d k
  hqnodup : st.queue.Nodup
  hqsub : ∀ U ∈ st.queue, U ∈ st.mapping.map (·.1)
  hfin : ∀ p ∈ st.mapping,
    (p.1 ∈ st.queue ∧ p.2 ∉ st.dfinal) ∨
    (p.1 ∉ st.queue ∧ (p.2 ∈ st.dfinal ↔ nfa.accept ∈ p.1))
  hfsub : ∀ x ∈ st.dfinal, x ∈ st.mapping.map (·.2)

/-- Specification of one completed transition row of the subset
construction: every recorded target is the state of the exact epsilon
closure of the move along that symbol, and every alphabet symbol with a
nonempty move is recorded. -/
def RowInv (nfa : NFA) (alpha : List Char) (mapping : List (Finset StName × StName))
    (T : Finset StName) (row : List (Char × StName)) : Prop :=
  (∀ (a : Char) (n2 : StName), alookup a row = some n2 →
    a ∈ alpha ∧ ∃ U, (U, n2) ∈ mapping ∧
      (∀ x, x ∈ U ↔ EpsReach nfa (move nfa T (Sym.ch a)) x)) ∧
  (∀ a ∈ alpha, move nfa T (Sym.ch a) ≠ ∅ → (alookup a row).isSome = true)

/-- The transition-tracking strengthening of `SubInv`: row keys are
unique; every recorded row belongs to a dequeued entry; every dequeued
entry has a recorded row satisfying `RowInv`. -/
structure SubInvT (nfa : NFA) (alpha : List Char) (st : SubsetState) : Prop where
  base : SubInv nfa st
  hdkeys : (st.dtrans.map (·.1)).Nodup
  hdproc : ∀ x ∈ st.dtrans.map (·.1), ∃ p ∈ st.mapping, p.2 = x ∧ p.1 ∉ st.queue
  hrows : ∀ p ∈ st.mapping, p.1 ∉ st.queue →
    ∃ row, (p.2, row) ∈ st.dtrans ∧ RowInv nfa alpha st.mapping p.1 row

/-- `SubInvT` during the processing of the dequeued closure `T`, whose
row is still being collected. -/
structure MidInv (nfa : NFA) (alpha : List Char) (T : Finset StName)
    (st : SubsetState) : Prop where
  base : SubInv nfa st
  hdkeys : (st.dtrans.map (·.1)).Nodup
  hdproc : ∀ x ∈ st.dtrans.map (·.1),
    ∃ p ∈ st.mapping, p.2 = x ∧ p.1 ∉ st.queue ∧ p.1 ≠ T
  hrows : ∀ p ∈ st.mapping, p.1 ∉ st.queue → p.1 ≠ T →
    ∃ row, (p.2, row) ∈ st.dtrans ∧ RowInv nfa alpha st.mapping p.1 row

/-- The well-formedness facts about a DFA produced by `nfa_to_dfa`
needed by the minimization proofs. -/
structure DfaWF (dfa : DFA) : Prop where
  keysNodup : (dfa.transitions.map (·.1)).Nodup
  finSub : dfa.final_states ⊆ dfaStateSet dfa
  noDeadState : StName.dead ∉ dfaStateSet dfa
  noDeadKey : alookup StName.dead dfa.transitions = none
  rowAlpha : ∀ pr ∈ dfa.transitions, ∀ (a : Char) (n2 : StName),
    alookup a pr.2 = some n2 → a ∈ dfa.alphabet
  targets : ∀ pr ∈ dfa.transitions, ∀ (a : Char) (n2 : StName),
    alookup a pr.2 = some n2 → n2 ∈ dfaStateSet dfa
  startMem : dfa.start ∈ dfaStateSet dfa

/-- The Thompson NFA of the regex `a*`, the concrete instance used for
the language-preservation theorem. -/
def nfaStarA : NFA :=
  { start := .q 2, accept := .q 3,
    states := [(.q 0, [(.ch 'a', [.q 1])]),
               (.q 1, [(.eps, [.q 0, .q 3])]),
               (.q 2, [(.eps, [.q 0, .q 3])]),
               (.q 3, [])] }

/-- The subset-construction DFA of `nfaStarA` (its start state is `D0`,
with two states `D0 = {q0, q2, q3}` and `D1 = {q0, q1, q3}`, both final,
and transitions `D0 --a--> D1 --a--> D1`). -/
def dfaStarA : DFA :=
  match nfa_to_dfa nfaStarA 50 0 with
  | some (d, _) => d
  | none =>
    { start := .d 0, states := [], transitions := [], final_states := ∅, alphabet := ∅ }

/-- The minimized DFA of `dfaStarA` (a single final state `M0` with an
`a`-self-loop). -/
def minStarA : MinDFA :=
  match hopcroft_minimize dfaStarA 50 with
  | some (m, _) => m
  | none =>
    { start := .m 0, states := [], transitions := [], final_states := ∅, alphabet := ∅ }

/-- The refinement trace of minimizing `dfaStarA`. -/
def traceStarA : List (String × List (Finset StName)) :=
  match hopcroft_minimize dfaStarA 50 with
  | some (_, tr) => tr
  | none => []

/-! ## Theorems -/

theorem alookup_mem {α β : Type} [DecidableEq α] {k : α} {v : β} {l : List (α × β)}
    (h : alookup k l = some v) : (k, v) ∈ l := by
  induction l with
  | nil => exact absurd h (by simp [alookup])
  | cons p t ih =>
    by_cases hp : p.1 = k
    · rw [alookup, if_pos hp] at h
      have hv : v = p.2 := by injection h with h2; exact h2.symm
      rw [hv, ← hp]
      exact List.mem_cons_self p t
    · rw [alookup, if_neg hp] at h
      exact List.mem_cons_of_mem p (ih h)

/-- The verdict of the simulation loop when the whole string is
consumed is decided by membership of the reached state in the final set. -/
theorem simLoop_verdict_of_deltaStar_some (mdfa : MinDFA) :
    ∀ (s : List Char) (cur qq : StName), deltaStar mdfa cur s = some qq →
      (simLoop mdfa cur s).2 = (if qq ∈ mdfa.final_states then "Accepted" else "Rejected") := by
  intro s
  induction s with
  | nil =>
    intro cur qq h
    simp only [deltaStar, Option.some.injEq] at h
    subst h
    simp [simLoop]
  | cons c cs ih =>
    intro cur qq h
    simp only [deltaStar] at h
    cases hl : (alookup cur mdfa.transitions).bind (alookup c) with
    | none => rw [hl] at h; exact absurd h (by simp)
    | some nxt =>
      rw [hl] at h
      simp only [simLoop, hl]
      exact ih nxt qq h

/-- When the simulation loop hits a missing transition, the verdict is
`Rejected` and the last trace entry carries the reject marker. -/
theorem simLoop_reject_of_deltaStar_none (mdfa : MinDFA) :
    ∀ (s : List Char) (cur : StName), deltaStar mdfa cur s = none →
      (simLoop mdfa cur s).2 = "Rejected" ∧
      ∃ (pre : List SimEntry) (e : SimEntry),
        (simLoop mdfa cur s).1 = pre ++ [e] ∧ e.2.2 = none := by
  intro s
  induction s with
  | nil => intro cur h; exact absurd h (by simp [deltaStar])
  | cons c cs ih =>
    intro cur h
    simp only [deltaStar] at h
    cases hl : (alookup cur mdfa.transitions).bind (alookup c) with
    | none =>
      refine ⟨by simp [simLoop, hl], [], (cur, c, none), by simp [simLoop, hl], rfl⟩
    | some nxt =>
      rw [hl] at h
      obtain ⟨h1, pre, e, h2, h3⟩ := ih nxt h
      exact ⟨by simp [simLoop, hl, h1], (cur, c, some nxt) :: pre, e,
        by simp [simLoop, hl, h2], h3⟩

/-- C4: simulation verdicts.  For every minimal DFA:
(1) the empty input yields the verdict `Rejected (empty input)` with no
trace, unconditionally — in particular even when the start state is
final;
(2) for nonempty input, if the deterministic walk consumes the whole
string ending at state `qq`, the verdict is `Accepted` iff `qq` is in the
minimal DFA's final set;
(3) for nonempty input, if the walk hits a state with no transition on
the next character, the verdict is `Rejected` and the trace ends with a
reject entry. -/
theorem c4_simulation_verdicts :
    (∀ mdfa : MinDFA, simulate mdfa [] = ([], "Rejected (empty input)")) ∧
    (∀ (mdfa : MinDFA) (s : List Char) (qq : StName), s ≠ [] →
        deltaStar mdfa mdfa.start s = some qq →
        ((simulate mdfa s).2 = "Accepted" ↔ qq ∈ mdfa.final_states)) ∧
    (∀ (mdfa : MinDFA) (s : List Char), s ≠ [] →
        deltaStar mdfa mdfa.start s = none →
        (simulate mdfa s).2 = "Rejected" ∧
        ∃ (pre : List SimEntry) (e : SimEntry),
          (simulate mdfa s).1 = pre ++ [e] ∧ e.2.2 = none) := by
  refine ⟨fun mdfa => rfl, ?_, ?_⟩
  · intro mdfa s qq hne h
    have hsim : simulate mdfa s = simLoop mdfa mdfa.start s := by
      cases s with
      | nil => exact absurd rfl hne
      | cons c cs => rfl
    rw [hsim, simLoop_verdict_of_deltaStar_some mdfa s mdfa.start qq h]
    by_cases hq : qq ∈ mdfa.final_states
    · simp [hq]
    · simp [hq]
  · intro mdfa s hne h
    have hsim : simulate mdfa s = simLoop mdfa mdfa.start s := by
      cases s with
      | nil => exact absurd rfl hne
      | cons c cs => rfl
    rw [hsim]
    exact simLoop_reject_of_deltaStar_none mdfa s mdfa.start h

/-- A tiny concrete minimal DFA over `{'a'}`: one final state `M0`
looping on `'a'`, plus a non-final state `M1` with no transitions. -/
def exampleMin : MinDFA :=
  { start := .m 0
    states := [(.m 0, {StName.d 0}), (.m 1, {StName.d 1})]
    transitions := [(.m 0, [('a', .m 0)])]
    final_states := {.m 0}
    alphabet := {'a'} }

/-- Witness for C4 at a concrete minimal DFA whose start state is final:
the empty string is still rejected as empty input, `"a"` is accepted
since the walk ends in the final state, and `"b"` hits a missing
transition and is rejected with a reject trace entry. -/
theorem c4_simulation_verdicts_witness :
    (simulate exampleMin [] = ([], "Rejected (empty input)")) ∧
    ((simulate exampleMin ['a']).2 = "Accepted" ↔ StName.m 0 ∈ exampleMin.final_states) ∧
    ((simulate exampleMin ['b']).2 = "Rejected" ∧
      ∃ (pre : List SimEntry) (e : SimEntry),
        (simulate exampleMin ['b']).1 = pre ++ [e] ∧ e.2.2 = none) :=
  ⟨c4_simulation_verdicts.1 exampleMin,
   c4_simulation_verdicts.2.1 exampleMin ['a'] (.m 0) (by decide) (by decide),
   c4_simulation_verdicts.2.2 exampleMin ['b'] (by decide) (by decide)⟩

/-- C10: applying `validate_regex` (and hence `to_postfix`) to the empty
regex or to a regex of only spaces leaves `prev` at `None`, so the final
membership test `prev in '+.'` raises a `TypeError` — not a success and
not one of the five documented syntax-error categories. -/
theorem c10_empty_regex_type_error :
    validate_regex [] = .error .typeError ∧
    validate_regex ("   ".toList) = .error .typeError ∧
    to_postfix [] = .error .typeError ∧
    to_postfix ("   ".toList) = .error .typeError := by
  refine ⟨rfl, by decide, rfl, by decide⟩

/-- C8: operator-placement validation.  A `'+'` scanned when the
previous non-space character is nothing, `'+'`, `'.'` or `'('` aborts the
scan with the invalid-plus error at the current index; similarly for
`'*'` with the invalid-star error; a `'*'` scanned right after `'*'`
aborts with the invalid-repetition error at the prior index; a scan error
is exactly what `validate_regex` reports; and `"a++b"` errors with
invalid use of `'+'` at index 2. -/
theorem c8_operator_placement :
    (∀ (cs : List Char) (i : Nat) (stack : List Nat) (prev : Option Char),
        prev = none ∨ prev = some '+' ∨ prev = some '.' ∨ prev = some '(' →
        validateLoop ('+' :: cs) i stack prev = .error (.invalidPlus i)) ∧
    (∀ (cs : List Char) (i : Nat) (stack : List Nat) (prev : Option Char),
        prev = none ∨ prev = some '+' ∨ prev = some '.' ∨ prev = some '(' →
        validateLoop ('*' :: cs) i stack prev = .error (.invalidStar i)) ∧
    (∀ (cs : List Char) (i : Nat) (stack : List Nat),
        validateLoop ('*' :: cs) i stack (some '*') = .error (.invalidRepetition (i - 1))) ∧
    (∀ (regex : List Char) (e : ParseErr),
        validateLoop regex 0 [] none = .error e → validate_regex regex = .error e) ∧
    validate_regex ("a++b".toList) = .error (.invalidPlus 2) := by
  refine ⟨?_, ?_, ?_, ?_, by decide⟩
  · intro cs i stack prev h
    rcases h with h | h | h | h <;> subst h <;> simp [validateLoop, validateStep]
  · intro cs i stack prev h
    rcases h with h | h | h | h <;> subst h <;> simp [validateLoop, validateStep]
  · intro cs i stack
    simp [validateLoop, validateStep]
  · intro regex e h
    simp [validate_regex, h]

/-- Witness for C8: the universally quantified parts applied at the
concrete scan state reached inside `"a++b"` (index 2, previous character
`'+'`), at a star after `'('`, and at a star after a star. -/
theorem c8_operator_placement_witness :
    validateLoop ('+' :: ['b']) 2 [] (some '+') = .error (.invalidPlus 2) ∧
    validateLoop ['*'] 1 [0] (some '(') = .error (.invalidStar 1) ∧
    validateLoop ['*'] 3 [] (some '*') = .error (.invalidRepetition 2) ∧
    validate_regex ("a)".toList) = .error (.unmatchedClose 1) :=
  ⟨c8_operator_placement.1 ['b'] 2 [] (some '+') (Or.inr (Or.inl rfl)),
   c8_operator_placement.2.1 ['*'] 1 [0] (some '(') (Or.inr (Or.inr (Or.inr rfl))),
   c8_operator_placement.2.2.1 ['*'] 3 [],
   c8_operator_placement.2.2.2.1 ("a)".toList) (.unmatchedClose 1) (by decide)⟩

/-- C3: state-id allocation is NOT scoped per invocation.  The Python
module-level counter persists across calls, so a second invocation of
`build_from_postfix` on the same postfix continues from the counter value
the first invocation left behind: the first run labels its states
`q0, q1`, the immediately following run labels them `q2, q3`, and the two
NFAs are not identically labeled. -/
theorem c3_global_counter_two_runs :
    ∃ (n1 n2 : NFA) (c1 c2 : Nat),
      build_from_postfix ['a'] 0 = .ok (n1, c1) ∧
      build_from_postfix ['a'] c1 = .ok (n2, c2) ∧
      keysOf n1.states = [.q 0, .q 1] ∧
      keysOf n2.states = [.q 2, .q 3] ∧
      n1 ≠ n2 :=
  ⟨_, _, _, _, rfl, rfl, rfl, rfl, by decide⟩

/-- C9: malformed-postfix behaviour of `build_from_postfix`.
(1) Whenever the token loop finishes with two or more fragments on the
operand stack, the function silently returns the bottom (first-pushed)
fragment — the last element of the stack list, whose head is the top —
with no error.
(2) On `"ab"` it returns exactly the `'a'` fragment, discarding the
`'b'` fragment.
(3) The empty token stream fails with an `IndexError` (from `stack[0]`),
and an operator with insufficient operands fails with an `IndexError`
from popping. -/
theorem c9_malformed_stack_behaviour :
    (∀ (ts : List Char) (c0 : Nat) (st : List NFA) (c2 : Nat),
        buildTokens ts [] c0 = .ok (st, c2) → 2 ≤ st.length →
        ∃ n, build_from_postfix ts c0 = .ok (n, c2) ∧ st.getLast? = some n) ∧
    build_from_postfix ("ab".toList) 0 =
      .ok ({ start := .q 0, accept := .q 1,
             states := [(.q 0, [(.ch 'a', [.q 1])]), (.q 1, [])] }, 4) ∧
    (∀ c0, build_from_postfix [] c0 = .error .indexError) ∧
    build_from_postfix ['.'] 0 = .error .indexError ∧
    build_from_postfix (['a', '.']) 0 = .error .indexError ∧
    build_from_postfix ['*'] 0 = .error .indexError := by
  refine ⟨?_, by decide, fun c0 => rfl, by decide, by decide, by decide⟩
  intro ts c0 st c2 h hlen
  cases hgl : st.getLast? with
  | none =>
    rw [List.getLast?_eq_none_iff] at hgl
    subst hgl
    exact absurd hlen (by decide)
  | some n =>
    refine ⟨n, ?_, rfl⟩
    simp [ build_from_postfix, h, hgl]

/-- Witness for C9's universally quantified part: on the token stream
`"ab"` the loop ends with two fragments and the function returns the
first-pushed one. -/
theorem c9_malformed_stack_behaviour_witness :
    ∃ n, build_from_postfix ("ab".toList) 0 = .ok (n, 4) ∧
      [{ start := StName.q 2, accept := StName.q 3,
         states := [(StName.q 2, [(Sym.ch 'b', [StName.q 3])]), (StName.q 3, [])] },
       { start := StName.q 0, accept := StName.q 1,
         states := [(StName.q 0, [(Sym.ch 'a', [StName.q 1])]), (StName.q 1, [])] }].getLast?
        = some n :=
  c9_malformed_stack_behaviour.1 ("ab".toList) 0 _ 4 (by decide) (by decide)

set_option maxRecDepth 1000000 in
/-- C5: end-to-end example.  On the regex
`"ggh + m(pg + gg + ggg)*m + hg"` the full pipeline (postfix conversion,
Thompson NFA, subset DFA, Hopcroft minimization, simulation) yields the
verdict `Accepted` for `"ggh"`, `"mpgm"` and `"mm"` (zero repetitions of
the starred group), `Rejected` for `"mpm"`, and
`Rejected (empty input)` for the empty string. -/
theorem c5_end_to_end_example :
    runPipeline ("ggh + m(pg + gg + ggg)*m + hg".toList) ("ggh".toList) 1000
      = some "Accepted" ∧
    runPipeline ("ggh + m(pg + gg + ggg)*m + hg".toList) ("mpgm".toList) 1000
      = some "Accepted" ∧
    runPipeline ("ggh + m(pg + gg + ggg)*m + hg".toList) ("mm".toList) 1000
      = some "Accepted" ∧
    runPipeline ("ggh + m(pg + gg + ggg)*m + hg".toList) ("mpm".toList) 1000
      = some "Rejected" ∧
    runPipeline ("ggh + m(pg + gg + ggg)*m + hg".toList) [] 1000
      = some "Rejected (empty input)" := by
  refine ⟨by decide, by decide, by decide, by decide, by decide⟩

/-! ### Association-list lemmas for the Thompson fragment counts -/

theorem alookup_isSome_iff {α β : Type} [DecidableEq α] (k : α) (l : List (α × β)) :
    (alookup k l).isSome ↔ k ∈ l.map (·.1) := by
  induction l with
  | nil => simp [alookup]
  | cons p t ih =>
    by_cases h : p.1 = k
    · simp [alookup, h]
    · simp only [alookup, if_neg h, List.map_cons, List.mem_cons, ih]
      exact ⟨fun hm => Or.inr hm, fun hm => hm.elim (fun he => absurd he.symm h) id⟩

theorem alookup_eq_none_iff {α β : Type} [DecidableEq α] (k : α) (l : List (α × β)) :
    alookup k l = none ↔ k ∉ l.map (·.1) := by
  rw [← alookup_isSome_iff]
  cases alookup k l <;> simp

theorem asetd_of_mem {α β : Type} [DecidableEq α] (k : α) (v : β) (l : List (α × β))
    (h : k ∈ l.map (·.1)) : asetd k v l = l := by
  simp [asetd, (alookup_isSome_iff k l).mpr h]

theorem asetd_of_not_mem {α β : Type} [DecidableEq α] (k : α) (v : β) (l : List (α × β))
    (h : k ∉ l.map (·.1)) : asetd k v l = l ++ [(k, v)] := by
  have h2 : ¬ ((alookup k l).isSome = true) := fun hs => h ((alookup_isSome_iff k l).mp hs)
  simp [asetd, h2]

theorem amod_keys {α β : Type} [DecidableEq α] (k : α) (f : β → β) (l : List (α × β)) :
    (amod k f l).map (·.1) = l.map (·.1) := by
  induction l with
  | nil => rfl
  | cons p t ih => by_cases h : p.1 = k <;> simp [amod, h, ih]

theorem amod_length {α β : Type} [DecidableEq α] (k : α) (f : β → β) (l : List (α × β)) :
    (amod k f l).length = l.length := by
  induction l with
  | nil => rfl
  | cons p t ih => by_cases h : p.1 = k <;> simp [amod, h, ih]

theorem alookup_amod_self {α β : Type} [DecidableEq α] (k : α) (f : β → β) (l : List (α × β)) :
    alookup k (amod k f l) = (alookup k l).map f := by
  induction l with
  | nil => rfl
  | cons p t ih => by_cases h : p.1 = k <;> simp [amod, alookup, h, ih]

theorem alookup_amod_ne {α β : Type} [DecidableEq α] (k k2 : α) (f : β → β) (l : List (α × β))
    (hne : k2 ≠ k) : alookup k2 (amod k f l) = alookup k2 l := by
  induction l with
  | nil => rfl
  | cons p t ih =>
    by_cases h : p.1 = k
    · have h2 : ¬ (p.1 = k2) := by rw [h]; exact fun he => hne he.symm
      have h4 : ¬ (k = k2) := fun he => hne he.symm
      simp [amod, alookup, h, h2, h4]
    · by_cases h3 : p.1 = k2 <;> simp [amod, alookup, h, h3, ih, hne]

theorem alookup_append {α β : Type} [DecidableEq α] (k : α) (a b : List (α × β)) :
    alookup k (a ++ b) = ((alookup k a).rec (alookup k b) (fun v => some v)) := by
  induction a with
  | nil => rfl
  | cons p t ih => by_cases h : p.1 = k <;> simp [alookup, h, ih]

theorem epsLen_addToRow_eps (dst : StName) (tm : TransMap) :
    epsLen (addToRow Sym.eps dst tm) = epsLen tm + 1 := by
  cases he : alookup Sym.eps tm with
  | none =>
    have h1 : addToRow Sym.eps dst tm = tm ++ [(Sym.eps, [dst])] := by
      unfold addToRow
      rw [he]
      rfl
    rw [epsLen, epsLen, h1, alookup_append, he]
    rfl
  | some v =>
    have h1 : addToRow Sym.eps dst tm = amod Sym.eps (fun l => l ++ [dst]) tm := by
      unfold addToRow
      rw [he]
      rfl
    rw [epsLen, epsLen, h1, alookup_amod_self, he]
    simp

theorem epsSum_amod_add_one (src : StName) (f : TransMap → TransMap) (sm : StateMap)
    (hf : ∀ tm, epsLen (f tm) = epsLen tm + 1) (h : src ∈ keysOf sm) :
    epsSum (amod src f sm) = epsSum sm + 1 := by
  induction sm with
  | nil => exact absurd h (by simp [keysOf])
  | cons p t ih =>
    by_cases hp : p.1 = src
    · simp only [amod, if_pos hp, epsSum, List.map_cons, List.sum_cons, hf p.2]
      simp [epsSum] at *
      omega
    · have h2 : src ∈ keysOf t := by
        simp only [keysOf, List.map_cons, List.mem_cons] at h
        exact h.elim (fun he => absurd he.symm hp) id
      simp only [amod, if_neg hp, epsSum, List.map_cons, List.sum_cons]
      have := ih h2
      simp only [epsSum] at this
      omega

theorem epsSum_append (a b : StateMap) : epsSum (a ++ b) = epsSum a + epsSum b := by
  simp [epsSum]

theorem epsLen_nil : epsLen ([] : TransMap) = 0 := rfl

theorem dictMerge_disjoint {α β : Type} [DecidableEq α] (a b : List (α × β))
    (h : ∀ k ∈ a.map (·.1), k ∉ b.map (·.1)) : dictMerge a b = a ++ b := by
  unfold dictMerge
  have h1 : a.map (fun p =>
      match alookup p.1 b with
      | some w => (p.1, w)
      | none => p) = a.map id := by
    apply List.map_congr_left
    intro p hp
    have hn : alookup p.1 b = none := by
      cases hb : alookup p.1 b with
      | none => rfl
      | some w =>
        exact absurd ((alookup_isSome_iff p.1 b).mp (by simp [hb]))
          (h p.1 (List.mem_map_of_mem _ hp))
    simp [hn]
  have h2 : b.filter (fun p => (alookup p.1 a).isNone) = b := by
    apply List.filter_eq_self.mpr
    intro p hp
    have hmem : p.1 ∈ b.map (·.1) := List.mem_map_of_mem _ hp
    have hnot : p.1 ∉ a.map (·.1) := fun ha => h p.1 ha hmem
    have hn : alookup p.1 a = none := by
      cases hb : alookup p.1 a with
      | none => rfl
      | some w => exact absurd ((alookup_isSome_iff p.1 a).mp (by simp [hb])) hnot
    simp [hn]
  rw [h1, h2, List.map_id]

/-- The three facts needed about one epsilon `add_transition` whose
endpoints are already present: the key list, the state count and the
epsilon-edge count, the latter increasing by exactly one. -/
theorem addTransitionMap_eps_facts (src dst : StName) (sm : StateMap)
    (hs : src ∈ keysOf sm) (hd : dst ∈ keysOf sm) :
    keysOf (addTransitionMap src Sym.eps dst sm) = keysOf sm ∧
    (addTransitionMap src Sym.eps dst sm).length = sm.length ∧
    epsSum (addTransitionMap src Sym.eps dst sm) = epsSum sm + 1 := by
  unfold addTransitionMap
  rw [asetd_of_mem _ _ _ hs, asetd_of_mem _ _ _ hd]
  exact ⟨amod_keys src _ sm, amod_length src _ sm,
    epsSum_amod_add_one src _ sm (epsLen_addToRow_eps dst) hs⟩

theorem keysOf_append {β : Type} (a b : List (StName × β)) :
    keysOf (a ++ b) = keysOf a ++ keysOf b := by
  simp [keysOf]

/-- `addTransitionMap_eps_facts` with the key list abstracted, to chain
several epsilon `add_transition` calls. -/
theorem eps_add_facts (src dst : StName) (sm : StateMap) (K : List StName)
    (hk : keysOf sm = K) (hs : src ∈ K) (hd : dst ∈ K) :
    keysOf (addTransitionMap src Sym.eps dst sm) = K ∧
    (addTransitionMap src Sym.eps dst sm).length = sm.length ∧
    epsSum (addTransitionMap src Sym.eps dst sm) = epsSum sm + 1 := by
  have h1 := addTransitionMap_eps_facts src dst sm (hk.symm ▸ hs) (hk.symm ▸ hd)
  exact ⟨h1.1.trans hk, h1.2.1, h1.2.2⟩

/-- C6: the Thompson combinator shapes.  Every NFA the builder produces
has one designated start state and one designated accept state (the
`NFA` record carries exactly one of each by construction); and on the
operand stack (top first, counter `cnt` supplying the fresh ids, with the
freshness and well-formedness conditions that hold for every fragment the
builder creates):
(1) a star step pops one fragment and pushes a fragment with exactly 2
more states and exactly 4 more epsilon edges;
(2) a union step pops two fragments and pushes a fragment with exactly 2
more states and exactly 4 more epsilon edges than the two together;
(3) a concatenation step pops two fragments and pushes a fragment with
exactly the same states and exactly 1 more epsilon edge. -/
theorem c6_thompson_fragment_shape :
    (∀ (n1 : NFA) (rest : List NFA) (cnt : Nat),
        n1.start ∈ keysOf n1.states → n1.accept ∈ keysOf n1.states →
        StName.q cnt ∉ keysOf n1.states → StName.q (cnt + 1) ∉ keysOf n1.states →
        ∃ n : NFA, buildStep1 (n1 :: rest) cnt '*' = .ok (n :: rest, cnt + 2) ∧
          n.start = .q cnt ∧ n.accept = .q (cnt + 1) ∧
          numStates n = numStates n1 + 2 ∧
          epsEdgeCount n = epsEdgeCount n1 + 4) ∧
    (∀ (n1 n2 : NFA) (rest : List NFA) (cnt : Nat),
        (∀ k ∈ keysOf n1.states, k ∉ keysOf n2.states) →
        n1.start ∈ keysOf n1.states → n1.accept ∈ keysOf n1.states →
        n2.start ∈ keysOf n2.states → n2.accept ∈ keysOf n2.states →
        StName.q cnt ∉ keysOf n1.states → StName.q cnt ∉ keysOf n2.states →
        StName.q (cnt + 1) ∉ keysOf n1.states → StName.q (cnt + 1) ∉ keysOf n2.states →
        ∃ n : NFA, buildStep1 (n2 :: n1 :: rest) cnt '+' = .ok (n :: rest, cnt + 2) ∧
          n.start = .q cnt ∧ n.accept = .q (cnt + 1) ∧
          numStates n = numStates n1 + numStates n2 + 2 ∧
          epsEdgeCount n = epsEdgeCount n1 + epsEdgeCount n2 + 4) ∧
    (∀ (n1 n2 : NFA) (rest : List NFA) (cnt : Nat),
        (∀ k ∈ keysOf n1.states, k ∉ keysOf n2.states) →
        n1.accept ∈ keysOf n1.states → n2.start ∈ keysOf n2.states →
        ∃ n : NFA, buildStep1 (n2 :: n1 :: rest) cnt '.' = .ok (n :: rest, cnt) ∧
          n.start = n1.start ∧ n.accept = n2.accept ∧
          numStates n = numStates n1 + numStates n2 ∧
          epsEdgeCount n = epsEdgeCount n1 + epsEdgeCount n2 + 1) := by
  refine ⟨?_, ?_, ?_⟩
  · -- star
    intro n1 rest cnt hstart haccept hfs hft
    have hne : StName.q cnt ≠ StName.q (cnt + 1) := by
      simp only [ne_eq, StName.q.injEq]
      omega
    have hmem2 : StName.q (cnt + 1) ∉ keysOf (n1.states ++ [(StName.q cnt, [])]) := by
      rw [keysOf_append]
      intro hmm
      rcases List.mem_append.mp hmm with h | h
      · exact hft h
      · simp only [keysOf, List.map_cons, List.map_nil, List.mem_cons,
          List.not_mem_nil, or_false] at h
        exact hne h.symm
    have hst0 : asetd (StName.q (cnt + 1)) ([] : TransMap)
          (asetd (StName.q cnt) ([] : TransMap) n1.states)
        = (n1.states ++ [(StName.q cnt, [])]) ++ [(StName.q (cnt + 1), [])] := by
      rw [asetd_of_not_mem _ _ _ hfs, asetd_of_not_mem _ _ _ hmem2]
    have hK0 : keysOf (asetd (StName.q (cnt + 1)) ([] : TransMap)
          (asetd (StName.q cnt) ([] : TransMap) n1.states))
        = keysOf n1.states ++ [StName.q cnt, StName.q (cnt + 1)] := by
      rw [hst0, keysOf_append, keysOf_append]
      simp [keysOf]
    have hL0 : (asetd (StName.q (cnt + 1)) ([] : TransMap)
          (asetd (StName.q cnt) ([] : TransMap) n1.states)).length
        = n1.states.length + 2 := by
      rw [hst0]
      simp
    have hE0 : epsSum (asetd (StName.q (cnt + 1)) ([] : TransMap)
          (asetd (StName.q cnt) ([] : TransMap) n1.states))
        = epsSum n1.states := by
      rw [hst0, epsSum_append, epsSum_append]
      simp [epsSum, epsLen, alookup]
    have hKs : StName.q cnt ∈ keysOf n1.states ++ [StName.q cnt, StName.q (cnt + 1)] := by
      simp
    have hKt : StName.q (cnt + 1) ∈ keysOf n1.states ++ [StName.q cnt, StName.q (cnt + 1)] := by
      simp
    have hKstart : n1.start ∈ keysOf n1.states ++ [StName.q cnt, StName.q (cnt + 1)] :=
      List.mem_append_left _ hstart
    have hKaccept : n1.accept ∈ keysOf n1.states ++ [StName.q cnt, StName.q (cnt + 1)] :=
      List.mem_append_left _ haccept
    have f1 := eps_add_facts (StName.q cnt) n1.start _ _ hK0 hKs hKstart
    have f2 := eps_add_facts (StName.q cnt) (StName.q (cnt + 1)) _ _ f1.1 hKs hKt
    have f3 := eps_add_facts n1.accept n1.start _ _ f2.1 hKaccept hKstart
    have f4 := eps_add_facts n1.accept (StName.q (cnt + 1)) _ _ f3.1 hKaccept hKt
    refine ⟨_, rfl, rfl, rfl, ?_, ?_⟩
    · simp only [numStates, NFA.add_transition]
      rw [f4.2.1, f3.2.1, f2.2.1, f1.2.1, hL0]
    · simp only [epsEdgeCount, NFA.add_transition]
      rw [f4.2.2, f3.2.2, f2.2.2, f1.2.2, hE0]
  · -- union
    intro n1 n2 rest cnt hdisj h1s h1a h2s h2a hf1 hf2 hg1 hg2
    have hne : StName.q cnt ≠ StName.q (cnt + 1) := by
      simp only [ne_eq, StName.q.injEq]
      omega
    have hmerge : dictMerge n1.states n2.states = n1.states ++ n2.states :=
      dictMerge_disjoint _ _ hdisj
    have hfs : StName.q cnt ∉ keysOf (dictMerge n1.states n2.states) := by
      rw [hmerge, keysOf_append]
      intro hmm
      rcases List.mem_append.mp hmm with h | h
      · exact hf1 h
      · exact hf2 h
    have hmem2 : StName.q (cnt + 1) ∉
        keysOf (dictMerge n1.states n2.states ++ [(StName.q cnt, [])]) := by
      rw [keysOf_append, hmerge, keysOf_append]
      intro hmm
      rcases List.mem_append.mp hmm with h | h
      · rcases List.mem_append.mp h with h2 | h2
        · exact hg1 h2
        · exact hg2 h2
      · simp only [keysOf, List.map_cons, List.map_nil, List.mem_cons,
          List.not_mem_nil, or_false] at h
        exact hne h.symm
    have hst0 : asetd (StName.q (cnt + 1)) ([] : TransMap)
          (asetd (StName.q cnt) ([] : TransMap) (dictMerge n1.states n2.states))
        = ((n1.states ++ n2.states) ++ [(StName.q cnt, [])]) ++ [(StName.q (cnt + 1), [])] := by
      rw [asetd_of_not_mem _ _ _ hfs, asetd_of_not_mem _ _ _ hmem2, hmerge]
    have hK0 : keysOf (asetd (StName.q (cnt + 1)) ([] : TransMap)
          (asetd (StName.q cnt) ([] : TransMap) (dictMerge n1.states n2.states)))
        = (keysOf n1.states ++ keysOf n2.states) ++ [StName.q cnt, StName.q (cnt + 1)] := by
      rw [hst0, keysOf_append, keysOf_append, keysOf_append]
      simp [keysOf]
    have hL0 : (asetd (StName.q (cnt + 1)) ([] : TransMap)
          (asetd (StName.q cnt) ([] : TransMap) (dictMerge n1.states n2.states))).length
        = n1.states.length + n2.states.length + 2 := by
      rw [hst0]
      simp
      omega
    have hE0 : epsSum (asetd (StName.q (cnt + 1)) ([] : TransMap)
          (asetd (StName.q cnt) ([] : TransMap) (dictMerge n1.states n2.states)))
        = epsSum n1.states + epsSum n2.states := by
      rw [hst0, epsSum_append, epsSum_append, epsSum_append]
      simp [epsSum, epsLen, alookup]
    have hKs : StName.q cnt ∈
        (keysOf n1.states ++ keysOf n2.states) ++ [StName.q cnt, StName.q (cnt + 1)] := by
      simp
    have hKt : StName.q (cnt + 1) ∈
        (keysOf n1.states ++ keysOf n2.states) ++ [StName.q cnt, StName.q (cnt + 1)] := by
      simp
    have hK1s : n1.start ∈
        (keysOf n1.states ++ keysOf n2.states) ++ [StName.q cnt, StName.q (cnt + 1)] :=
      List.mem_append_left _ (List.mem_append_left _ h1s)
    have hK1a : n1.accept ∈
        (keysOf n1.states ++ keysOf n2.states) ++ [StName.q cnt, StName.q (cnt + 1)] :=
      List.mem_append_left _ (List.mem_append_left _ h1a)
    have hK2s : n2.start ∈
        (keysOf n1.states ++ keysOf n2.states) ++ [StName.q cnt, StName.q (cnt + 1)] :=
      List.mem_append_left _ (List.mem_append_right _ h2s)
    have hK2a : n2.accept ∈
        (keysOf n1.states ++ keysOf n2.states) ++ [StName.q cnt, StName.q (cnt + 1)] :=
      List.mem_append_left _ (List.mem_append_right _ h2a)
    have f1 := eps_add_facts (StName.q cnt) n1.start _ _ hK0 hKs hK1s
    have f2 := eps_add_facts (StName.q cnt) n2.start _ _ f1.1 hKs hK2s
    have f3 := eps_add_facts n1.accept (StName.q (cnt + 1)) _ _ f2.1 hK1a hKt
    have f4 := eps_add_facts n2.accept (StName.q (cnt + 1)) _ _ f3.1 hK2a hKt
    refine ⟨_, rfl, rfl, rfl, ?_, ?_⟩
    · simp only [numStates, NFA.add_transition]
      rw [f4.2.1, f3.2.1, f2.2.1, f1.2.1, hL0]
    · simp only [epsEdgeCount, NFA.add_transition]
      rw [f4.2.2, f3.2.2, f2.2.2, f1.2.2, hE0]
  · -- concatenation
    intro n1 n2 rest cnt hdisj h1a h2s
    have hmerge : dictMerge n1.states n2.states = n1.states ++ n2.states :=
      dictMerge_disjoint _ _ hdisj
    have hK0 : keysOf (dictMerge n1.states n2.states)
        = keysOf n1.states ++ keysOf n2.states := by
      rw [hmerge, keysOf_append]
    have hK1a : n1.accept ∈ keysOf n1.states ++ keysOf n2.states :=
      List.mem_append_left _ h1a
    have hK2s : n2.start ∈ keysOf n1.states ++ keysOf n2.states :=
      List.mem_append_right _ h2s
    have f1 := eps_add_facts n1.accept n2.start _ _ hK0 hK1a hK2s
    refine ⟨_, rfl, rfl, rfl, ?_, ?_⟩
    · simp only [numStates, NFA.add_transition]
      rw [f1.2.1, hmerge]
      simp
    · simp only [epsEdgeCount, NFA.add_transition]
      rw [f1.2.2, hmerge, epsSum_append]

/-- Witness for C6, applying each combinator at concrete fragments: the
star at the `'a'` fragment with fresh counter 2, the union and the
concatenation at the `'a'` and `'b'` fragments with fresh counter 4. -/
theorem c6_thompson_fragment_shape_witness :
    (∃ n : NFA,
      buildStep1 [{ start := .q 0, accept := .q 1,
                    states := [(.q 0, [(.ch 'a', [.q 1])]), (.q 1, [])] }] 2 '*'
        = .ok ([n], 4) ∧
      n.start = .q 2 ∧ n.accept = .q 3 ∧ numStates n = 4 ∧ epsEdgeCount n = 4) ∧
    (∃ n : NFA,
      buildStep1 [{ start := .q 2, accept := .q 3,
                    states := [(.q 2, [(.ch 'b', [.q 3])]), (.q 3, [])] },
                  { start := .q 0, accept := .q 1,
                    states := [(.q 0, [(.ch 'a', [.q 1])]), (.q 1, [])] }] 4 '+'
        = .ok ([n], 6) ∧
      n.start = .q 4 ∧ n.accept = .q 5 ∧ numStates n = 6 ∧ epsEdgeCount n = 4) ∧
    (∃ n : NFA,
      buildStep1 [{ start := .q 2, accept := .q 3,
                    states := [(.q 2, [(.ch 'b', [.q 3])]), (.q 3, [])] },
                  { start := .q 0, accept := .q 1,
                    states := [(.q 0, [(.ch 'a', [.q 1])]), (.q 1, [])] }] 4 '.'
        = .ok ([n], 4) ∧
      n.start = .q 0 ∧ n.accept = .q 3 ∧ numStates n = 4 ∧ epsEdgeCount n = 1) := by
  refine ⟨?_, ?_, ?_⟩
  · obtain ⟨n, h⟩ := c6_thompson_fragment_shape.1
      { start := .q 0, accept := .q 1,
        states := [(.q 0, [(.ch 'a', [.q 1])]), (.q 1, [])] } [] 2
      (by decide) (by decide) (by decide) (by decide)
    exact ⟨n, h.1, h.2.1, h.2.2.1, by rw [h.2.2.2.1]; rfl, by rw [h.2.2.2.2]; rfl⟩
  · obtain ⟨n, h⟩ := c6_thompson_fragment_shape.2.1
      { start := .q 0, accept := .q 1,
        states := [(.q 0, [(.ch 'a', [.q 1])]), (.q 1, [])] }
      { start := .q 2, accept := .q 3,
        states := [(.q 2, [(.ch 'b', [.q 3])]), (.q 3, [])] } [] 4
      (by decide) (by decide) (by decide) (by decide) (by decide)
      (by decide) (by decide) (by decide) (by decide)
    exact ⟨n, h.1, h.2.1, h.2.2.1, by rw [h.2.2.2.1]; rfl, by rw [h.2.2.2.2]; rfl⟩
  · obtain ⟨n, h⟩ := c6_thompson_fragment_shape.2.2
      { start := .q 0, accept := .q 1,
        states := [(.q 0, [(.ch 'a', [.q 1])]), (.q 1, [])] }
      { start := .q 2, accept := .q 3,
        states := [(.q 2, [(.ch 'b', [.q 3])]), (.q 3, [])] } [] 4
      (by decide) (by decide) (by decide)
    exact ⟨n, h.1, h.2.1, h.2.2.1, by rw [h.2.2.2.1]; rfl, by rw [h.2.2.2.2]; rfl⟩

/-! ### Subset-construction invariants (C7) -/

theorem subInv_dtrans (nfa : NFA) (st : SubsetState)
    (dt : List (StName × List (Char × StName))) (h : SubInv nfa st) :
    SubInv nfa { st with dtrans := dt } :=
  ⟨h.hflip, h.hkeys, h.hvals, h.hbound, h.hqnodup, h.hqsub, h.hfin, h.hfsub⟩

theorem subsetSym_inv (nfa : NFA) (T : Finset StName) (fuel : Nat) (st : SubsetState)
    (row : List (Char × StName)) (a : Char) (st2 : SubsetState) (row2 : List (Char × StName))
    (hinv : SubInv nfa st) (h : subsetSym nfa T fuel st row a = some (st2, row2)) :
    SubInv nfa st2 := by
  simp only [subsetSym] at h
  split at h
  · simp only [Option.some.injEq, Prod.mk.injEq] at h
    exact h.1 ▸ hinv
  · split at h
    · exact absurd h (by simp)
    · rename_i U hec
      split at h
      · rename_i name hal
        simp only [Option.some.injEq, Prod.mk.injEq] at h
        exact h.1 ▸ hinv
      · rename_i hal
        simp only [Option.some.injEq, Prod.mk.injEq] at h
        obtain ⟨h2, _⟩ := h
        subst h2
        have hUnot : U ∉ st.mapping.map (·.1) := (alookup_eq_none_iff U st.mapping).mp hal
        have hdnot : StName.d st.counter ∉ st.mapping.map (·.2) := by
          intro hc
          obtain ⟨k, hk, he⟩ := hinv.hbound _ hc
          rw [StName.d.injEq] at he
          omega
        refine ⟨?_, ?_, ?_, ?_, ?_, ?_, ?_, ?_⟩
        · simp [hinv.hflip]
        · simp only [List.map_append, List.map_cons, List.map_nil]
          rw [List.nodup_append]
          refine ⟨hinv.hkeys, List.nodup_singleton U, ?_⟩
          intro x hx hx2
          rw [List.mem_singleton] at hx2
          subst hx2
          exact hUnot hx
        · simp only [List.map_append, List.map_cons, List.map_nil]
          rw [List.nodup_append]
          refine ⟨hinv.hvals, List.nodup_singleton _, ?_⟩
          intro x hx hx2
          rw [List.mem_singleton] at hx2
          subst hx2
          exact hdnot hx
        · intro name hname
          simp only [List.map_append, List.map_cons, List.map_nil] at hname
          rcases List.mem_append.mp hname with hh | hh
          · obtain ⟨k, hk, he⟩ := hinv.hbound _ hh
            exact ⟨k, by show k < st.counter + 1; omega, he⟩
          · rw [List.mem_singleton] at hh
            exact ⟨st.counter, by show st.counter < st.counter + 1; omega, hh⟩
        · rw [List.nodup_append]
          refine ⟨hinv.hqnodup, List.nodup_singleton U, ?_⟩
          intro x hx hx2
          rw [List.mem_singleton] at hx2
          subst hx2
          exact hUnot (hinv.hqsub x hx)
        · intro V hV
          simp only [List.map_append, List.map_cons, List.map_nil]
          rcases List.mem_append.mp hV with hh | hh
          · exact List.mem_append_left _ (hinv.hqsub V hh)
          · rw [List.mem_singleton] at hh
            subst hh
            exact List.mem_append_right _ (by simp)
        · intro p hp
          rcases List.mem_append.mp hp with hh | hh
          · rcases hinv.hfin p hh with ⟨hq2, hf⟩ | ⟨hq2, hf⟩
            · exact Or.inl ⟨List.mem_append_left _ hq2, hf⟩
            · refine Or.inr ⟨?_, hf⟩
              intro hc
              rcases List.mem_append.mp hc with hcc | hcc
              · exact hq2 hcc
              · rw [List.mem_singleton] at hcc
                exact hUnot (hcc ▸ List.mem_map_of_mem _ hh)
          · rw [List.mem_singleton] at hh
            subst hh
            refine Or.inl ⟨List.mem_append_right _ (by simp), ?_⟩
            intro hc
            exact hdnot (hinv.hfsub _ hc)
        · intro x hx
          simp only [List.map_append, List.map_cons, List.map_nil]
          exact List.mem_append_left _ (hinv.hfsub x hx)

theorem subsetSyms_inv (nfa : NFA) (T : Finset StName) (fuel : Nat) :
    ∀ (alpha : List Char) (st : SubsetState) (row : List (Char × StName))
      (st2 : SubsetState) (row2 : List (Char × StName)),
      SubInv nfa st → subsetSyms nfa T fuel alpha st row = some (st2, row2) →
      SubInv nfa st2
  | [], st, row, st2, row2, hinv, h => by
    simp only [subsetSyms, Option.some.injEq, Prod.mk.injEq] at h
    exact h.1 ▸ hinv
  | a :: as, st, row, st2, row2, hinv, h => by
    simp only [subsetSyms] at h
    cases hs : subsetSym nfa T fuel st row a with
    | none => rw [hs] at h; exact absurd h (by simp)
    | some pr =>
      rw [hs] at h
      cases pr with
      | mk st3 row3 =>
        exact subsetSyms_inv nfa T fuel as st3 row3 st2 row2
          (subsetSym_inv nfa T fuel st row a st3 row3 hinv hs) h

theorem subInv_pop (nfa : NFA) (st : SubsetState) (T : Finset StName)
    (rest : List (Finset StName)) (Td : StName)
    (hinv : SubInv nfa st) (hq : st.queue = T :: rest) (hTd : alookup T st.mapping = some Td) :
    SubInv nfa { st with
      queue := rest
      dfinal := if nfa.accept ∈ T then insert Td st.dfinal else st.dfinal } := by
  have hTmem : (T, Td) ∈ st.mapping := alookup_mem hTd
  have hTrest : T ∉ rest := by
    have h1 := hinv.hqnodup
    rw [hq] at h1
    exact (List.nodup_cons.mp h1).1
  have hmemIff : ∀ x : StName, x ≠ Td →
      (x ∈ (if nfa.accept ∈ T then insert Td st.dfinal else st.dfinal) ↔ x ∈ st.dfinal) := by
    intro x hx
    by_cases hacc : nfa.accept ∈ T
    · rw [if_pos hacc, Finset.mem_insert]
      exact ⟨fun hh => hh.elim (fun he => absurd he hx) id, fun hh => Or.inr hh⟩
    · rw [if_neg hacc]
  refine ⟨hinv.hflip, hinv.hkeys, hinv.hvals, hinv.hbound, ?_, ?_, ?_, ?_⟩
  · have h1 := hinv.hqnodup
    rw [hq] at h1
    exact (List.nodup_cons.mp h1).2
  · intro U hU
    exact hinv.hqsub U (by rw [hq]; exact List.mem_cons_of_mem T hU)
  · intro p hp
    by_cases hpT : p.1 = T
    · have hpTd : p.2 = Td := by
        have h2 : p = (T, Td) :=
          List.inj_on_of_nodup_map hinv.hkeys hp hTmem (by rw [hpT])
        rw [h2]
      have hTdnot : Td ∉ st.dfinal := by
        rcases hinv.hfin p hp with ⟨_, hf⟩ | ⟨hq2, _⟩
        · rw [← hpTd]; exact hf
        · exact absurd (by rw [hq, hpT]; exact List.mem_cons_self T rest) hq2
      refine Or.inr ⟨by rw [hpT]; exact hTrest, ?_⟩
      by_cases hacc : nfa.accept ∈ T
      · rw [if_pos hacc, hpTd, hpT]
        simp [hacc]
      · rw [if_neg hacc, hpTd, hpT]
        simp [hacc, hTdnot]
    · have hpTd : p.2 ≠ Td := by
        intro hc
        have h2 : p = (T, Td) :=
          List.inj_on_of_nodup_map hinv.hvals hp hTmem (by rw [hc])
        exact hpT (by rw [h2])
      rcases hinv.hfin p hp with ⟨hq2, hf⟩ | ⟨hq2, hf⟩
      · refine Or.inl ⟨?_, ?_⟩
        · rw [hq] at hq2
          rcases List.mem_cons.mp hq2 with he | he
          · exact absurd he hpT
          · exact he
        · intro hc
          exact hf ((hmemIff p.2 hpTd).mp hc)
      · refine Or.inr ⟨fun hc => hq2 (by rw [hq]; exact List.mem_cons_of_mem T hc), ?_⟩
        rw [hmemIff p.2 hpTd]
        exact hf
  · intro x hx
    by_cases hacc : nfa.accept ∈ T
    · rw [if_pos hacc] at hx
      rcases Finset.mem_insert.mp hx with he | he
      · exact he ▸ List.mem_map_of_mem _ hTmem
      · exact hinv.hfsub x he
    · rw [if_neg hacc] at hx
      exact hinv.hfsub x hx

theorem subsetLoop_inv (nfa : NFA) (alpha : List Char) (fuel : Nat) :
    ∀ (lf : Nat) (st stf : SubsetState),
      SubInv nfa st → subsetLoop nfa alpha fuel lf st = some stf →
      SubInv nfa stf ∧ stf.queue = []
  | 0, st, stf, _, h => absurd h (by simp [subsetLoop])
  | lf + 1, st, stf, hinv, h => by
    simp only [subsetLoop] at h
    split at h
    · rename_i hq
      simp only [Option.some.injEq] at h
      exact ⟨h ▸ hinv, h ▸ hq⟩
    · rename_i T rest hq
      split at h
      · exact absurd h (by simp)
      · rename_i Td hTd
        split at h
        · exact absurd h (by simp)
        · rename_i st3 row3 hss
          have hinv2 := subInv_pop nfa st T rest Td hinv hq hTd
          have hinv3 := subsetSyms_inv nfa T fuel alpha _ [] st3 row3 hinv2 hss
          exact subsetLoop_inv nfa alpha fuel lf _ stf
            (subInv_dtrans nfa st3 _ hinv3) h

/-- C7: subset-construction invariants.  Whenever `nfa_to_dfa` returns a
DFA, its state names are pairwise distinct, any two distinct DFA states
have distinct underlying NFA-sets, and a DFA state is in the final set
iff its NFA-set contains the NFA's accept state. -/
theorem c7_subset_invariants (nfa : NFA) (fuel dcnt : Nat) (dfa : DFA) (cnt2 : Nat)
    (h : nfa_to_dfa nfa fuel dcnt = some (dfa, cnt2)) :
    (dfa.states.map (·.1)).Nodup ∧
    (dfa.states.map (·.2)).Nodup ∧
    ∀ p ∈ dfa.states, (p.1 ∈ dfa.final_states ↔ nfa.accept ∈ p.2) := by
  simp only [nfa_to_dfa] at h
  split at h
  · exact absurd h (by simp)
  · rename_i sc hec
    split at h
    · exact absurd h (by simp)
    · rename_i stf hsl
      simp only [Option.some.injEq, Prod.mk.injEq] at h
      obtain ⟨hdfa, _⟩ := h
      have hinv0 : SubInv nfa
          { mapping := [(sc, StName.d dcnt)], dstates := [(StName.d dcnt, sc)], dtrans := [],
            dfinal := ∅, queue := [sc], counter := dcnt + 1 } := by
        refine ⟨rfl, List.nodup_singleton _, List.nodup_singleton _, ?_,
          List.nodup_singleton _, ?_, ?_, ?_⟩
        · intro name hname
          simp only [List.map_cons, List.map_nil, List.mem_singleton] at hname
          exact ⟨dcnt, by show dcnt < dcnt + 1; omega, hname⟩
        · intro U hU
          simp only [List.mem_singleton] at hU
          simp [hU]
        · intro p hp
          simp only [List.mem_singleton] at hp
          subst hp
          exact Or.inl ⟨by simp, by simp⟩
        · intro x hx
          exact absurd hx (by simp)
      obtain ⟨hinvf, hqf⟩ := subsetLoop_inv nfa _ fuel fuel _ stf hinv0 hsl
      subst hdfa
      refine ⟨?_, ?_, ?_⟩
      · show (stf.dstates.map (·.1)).Nodup
        rw [hinvf.hflip, List.map_map]
        exact hinvf.hvals
      · show (stf.dstates.map (·.2)).Nodup
        rw [hinvf.hflip, List.map_map]
        exact hinvf.hkeys
      · intro p hp
        show p.1 ∈ stf.dfinal ↔ nfa.accept ∈ p.2
        have hp2 : p ∈ stf.dstates := hp
        rw [hinvf.hflip] at hp2
        obtain ⟨v, hv, he⟩ := List.mem_map.mp hp2
        rcases hinvf.hfin v hv with ⟨hq2, _⟩ | ⟨_, hf⟩
        · rw [hqf] at hq2
          exact absurd hq2 (List.not_mem_nil _)
        · rw [← he]
          exact hf

/-- Witness for C7 at the single-symbol NFA for `'a'`: the resulting
two-state DFA has distinct names, distinct NFA-sets, and exactly the
state containing `q1` is final. -/
theorem c7_subset_invariants_witness :
    (([(StName.d 0, ({StName.q 0} : Finset StName)), (StName.d 1, {StName.q 1})].map
        (Prod.fst)).Nodup ∧
     ([(StName.d 0, ({StName.q 0} : Finset StName)), (StName.d 1, {StName.q 1})].map
        (Prod.snd)).Nodup ∧
     ∀ p ∈ [(StName.d 0, ({StName.q 0} : Finset StName)), (StName.d 1, {StName.q 1})],
       (p.1 ∈ ({StName.d 1} : Finset StName) ↔ StName.q 1 ∈ p.2)) := by
  have h := c7_subset_invariants
    { start := .q 0, accept := .q 1,
      states := [(.q 0, [(.ch 'a', [.q 1])]), (.q 1, [])] } 100 0
    { start := .d 0,
      states := [(.d 0, {.q 0}), (.d 1, {.q 1})],
      transitions := [(.d 0, [('a', .d 1)]), (.d 1, [])],
      final_states := {.d 1},
      alphabet := {'a'} } 2 (by decide)
  exact h

/-! ### Hopcroft partition invariants (C2) -/

theorem mem_insSorted {α : Type} [LinearOrder α] (a x : α) :
    ∀ l : List α, x ∈ insSorted a l ↔ x = a ∨ x ∈ l
  | [] => by simp [insSorted]
  | b :: t => by
    by_cases hab : a ≤ b
    · simp [insSorted, hab]
    · simp only [insSorted, if_neg hab, List.mem_cons, mem_insSorted a x t]
      tauto

theorem mem_insertionSortL {α : Type} [LinearOrder α] (x : α) :
    ∀ l : List α, x ∈ insertionSortL l ↔ x ∈ l
  | [] => by simp [insertionSortL]
  | a :: t => by
    simp [insertionSortL, mem_insSorted, mem_insertionSortL x t]

theorem mem_sortFinset {α : Type} [LinearOrder α] (s : Finset α) (x : α) :
    x ∈ sortFinset s ↔ x ∈ s := by
  obtain ⟨l, hl⟩ := Quotient.exists_rep s.val
  have h1 : sortFinset s = insertionSortL l := by
    unfold sortFinset
    rw [← hl]
    rfl
  rw [h1, mem_insertionSortL, Finset.mem_def, ← hl]
  exact Multiset.mem_coe.symm

theorem mapOption_mem {α β : Type} (f : α → Option β) :
    ∀ (l : List α) (r : List β), mapOption f l = some r →
      ∀ x, x ∈ r ↔ ∃ a ∈ l, f a = some x
  | [], r, h => by
    simp only [mapOption, Option.some.injEq] at h
    subst h
    simp
  | a :: t, r, h => by
    simp only [mapOption] at h
    split at h
    · exact absurd h (by simp)
    · rename_i b hb
      split at h
      · exact absurd h (by simp)
      · rename_i r2 hr2
        simp only [Option.some.injEq] at h
        subst h
        intro x
        rw [List.mem_cons, mapOption_mem f t r2 hr2 x]
        constructor
        · rintro (he | ⟨a2, ha2, hf⟩)
          · exact ⟨a, List.mem_cons_self a t, he ▸ hb⟩
          · exact ⟨a2, List.mem_cons_of_mem a ha2, hf⟩
        · rintro ⟨a2, ha2, hf⟩
          rcases List.mem_cons.mp ha2 with he | he
          · subst he
            rw [hb] at hf
            exact Or.inl (by injection hf with h3; exact h3.symm)
          · exact Or.inr ⟨a2, he, hf⟩

theorem blockIdx_some_get (s : StName) :
    ∀ (P : List (Finset StName)) (i : Nat), blockIdx P s = some i →
      ∃ b, P[i]? = some b ∧ s ∈ b
  | [], i, h => absurd h (by simp [blockIdx])
  | b :: rest, i, h => by
    rw [blockIdx] at h
    by_cases hs : s ∈ b
    · rw [if_pos hs] at h
      injection h with h2
      subst h2
      exact ⟨b, by simp, hs⟩
    · rw [if_neg hs] at h
      cases hj : blockIdx rest s with
      | none => rw [hj] at h; exact absurd h (by simp)
      | some j =>
        rw [hj] at h
        simp only [Option.map_some'] at h
        injection h with h2
        subst h2
        obtain ⟨b2, hb2, hsb⟩ := blockIdx_some_get s rest j hj
        exact ⟨b2, by simpa using hb2, hsb⟩

theorem blockIdx_of_mem_get (s : StName) :
    ∀ (P : List (Finset StName)) (i : Nat) (b : Finset StName),
      List.Pairwise (fun x y => Disjoint x y) P →
      P[i]? = some b → s ∈ b → blockIdx P s = some i
  | [], i, b, _, hget, _ => absurd hget (by simp)
  | b0 :: rest, i, b, hpw, hget, hs => by
    rw [List.pairwise_cons] at hpw
    cases i with
    | zero =>
      simp only [List.getElem?_cons_zero, Option.some.injEq] at hget
      subst hget
      rw [blockIdx, if_pos hs]
    | succ j =>
      simp only [List.getElem?_cons_succ] at hget
      have hmem : b ∈ rest := by
        have := List.getElem?_eq_some_iff.mp hget
        obtain ⟨hlt, hEq⟩ := this
        exact hEq ▸ List.getElem_mem hlt
      have hs0 : s ∉ b0 := fun hc =>
        Finset.disjoint_left.mp (hpw.1 b hmem) hc hs
      rw [blockIdx, if_neg hs0, blockIdx_of_mem_get s rest j b hpw.2 hget hs]
      rfl

theorem refineBlocks_subset (X : Finset StName) :
    ∀ (P W : List (Finset StName)) (b : Finset StName),
      b ∈ (refineBlocks X P W).1 → ∃ y ∈ P, b ⊆ y
  | [], W, b, h => absurd h (by simp [refineBlocks])
  | y :: ys, W, b, h => by
    simp only [refineBlocks] at h
    by_cases hc : (y ∩ X ≠ ∅ ∧ y \ X ≠ ∅)
    · rw [if_pos hc] at h
      rcases List.mem_cons.mp h with he | h2
      · exact ⟨y, List.mem_cons_self _ _, he ▸ Finset.inter_subset_left⟩
      · rcases List.mem_cons.mp h2 with he | h3
        · exact ⟨y, List.mem_cons_self _ _, he ▸ Finset.sdiff_subset⟩
        · obtain ⟨y2, hy2, hsub⟩ := refineBlocks_subset X ys _ b h3
          exact ⟨y2, List.mem_cons_of_mem _ hy2, hsub⟩
    · rw [if_neg hc] at h
      rcases List.mem_cons.mp h with he | h3
      · exact ⟨y, List.mem_cons_self _ _, he ▸ subset_rfl⟩
      · obtain ⟨y2, hy2, hsub⟩ := refineBlocks_subset X ys _ b h3
        exact ⟨y2, List.mem_cons_of_mem _ hy2, hsub⟩

theorem refineBlocks_pairwise (X : Finset StName) :
    ∀ (P W : List (Finset StName)), List.Pairwise (fun a b => Disjoint a b) P →
      List.Pairwise (fun a b => Disjoint a b) (refineBlocks X P W).1
  | [], W, _ => by simp [refineBlocks]
  | y :: ys, W, hp => by
    rw [List.pairwise_cons] at hp
    obtain ⟨hy, hys⟩ := hp
    simp only [refineBlocks]
    by_cases hc : (y ∩ X ≠ ∅ ∧ y \ X ≠ ∅)
    · rw [if_pos hc]
      have hid : Disjoint (y ∩ X) (y \ X) :=
        Finset.disjoint_left.mpr
          (fun {a} ha hb => absurd (Finset.mem_inter.mp ha).2 (Finset.mem_sdiff.mp hb).2)
      refine List.pairwise_cons.mpr ⟨?_, List.pairwise_cons.mpr
        ⟨?_, refineBlocks_pairwise X ys _ hys⟩⟩
      · intro b hb
        rcases List.mem_cons.mp hb with he | h3
        · exact he ▸ hid
        · obtain ⟨y2, hy2, hsub⟩ := refineBlocks_subset X ys _ b h3
          exact Finset.disjoint_of_subset_left Finset.inter_subset_left
            (Finset.disjoint_of_subset_right hsub (hy y2 hy2))
      · intro b hb
        obtain ⟨y2, hy2, hsub⟩ := refineBlocks_subset X ys _ b hb
        exact Finset.disjoint_of_subset_left Finset.sdiff_subset
          (Finset.disjoint_of_subset_right hsub (hy y2 hy2))
    · rw [if_neg hc]
      refine List.pairwise_cons.mpr ⟨?_, refineBlocks_pairwise X ys _ hys⟩
      intro b hb
      obtain ⟨y2, hy2, hsub⟩ := refineBlocks_subset X ys _ b hb
      exact Finset.disjoint_of_subset_right hsub (hy y2 hy2)

theorem finset_inter_union_sdiff (s t : Finset StName) : s ∩ t ∪ s \ t = s := by
  ext a
  simp only [Finset.mem_union, Finset.mem_inter, Finset.mem_sdiff]
  tauto

theorem refineBlocks_union (X : Finset StName) :
    ∀ (P W : List (Finset StName)),
      (refineBlocks X P W).1.foldr (· ∪ ·) ∅ = P.foldr (· ∪ ·) ∅
  | [], W => by simp [refineBlocks]
  | y :: ys, W => by
    simp only [refineBlocks]
    by_cases hc : (y ∩ X ≠ ∅ ∧ y \ X ≠ ∅)
    · rw [if_pos hc]
      show (y ∩ X) ∪ ((y \ X) ∪ (refineBlocks X ys _).1.foldr (· ∪ ·) ∅)
          = y ∪ ys.foldr (· ∪ ·) ∅
      rw [refineBlocks_union X ys _, ← Finset.union_assoc, finset_inter_union_sdiff]
    · rw [if_neg hc]
      show y ∪ (refineBlocks X ys W).1.foldr (· ∪ ·) ∅ = y ∪ ys.foldr (· ∪ ·) ∅
      rw [refineBlocks_union X ys W]

theorem refineSym_inv (states : Finset StName) (tt : StName → Char → StName)
    (A : Finset StName) (c : Char) (P W : List (Finset StName))
    (steps : List (String × List (Finset StName))) (u : Finset StName)
    (hP : isPartitionOf P u) (hsteps : ∀ sn ∈ steps, isPartitionOf sn.2 u) :
    isPartitionOf (refineSym states tt A c P W steps).1 u ∧
    (∀ sn ∈ (refineSym states tt A c P W steps).2.2, isPartitionOf sn.2 u) := by
  have hpart : isPartitionOf
      (refineBlocks (states.filter (fun qq => tt qq c ∈ A)) P W).1 u :=
    ⟨refineBlocks_pairwise _ P W hP.1, (refineBlocks_union _ P W).trans hP.2⟩
  simp only [refineSym]
  split
  · refine ⟨hpart, ?_⟩
    intro sn hsn
    rcases List.mem_append.mp hsn with hh | hh
    · exact hsteps sn hh
    · rw [List.mem_singleton] at hh
      subst hh
      exact hpart
  · exact ⟨hP, hsteps⟩

theorem refineSyms_inv (states : Finset StName) (tt : StName → Char → StName)
    (A : Finset StName) (u : Finset StName) :
    ∀ (alpha : List Char) (P W : List (Finset StName))
      (steps : List (String × List (Finset StName))),
      isPartitionOf P u → (∀ sn ∈ steps, isPartitionOf sn.2 u) →
      isPartitionOf (refineSyms states tt A alpha P W steps).1 u ∧
      (∀ sn ∈ (refineSyms states tt A alpha P W steps).2.2, isPartitionOf sn.2 u)
  | [], P, W, steps, hP, hsteps => ⟨hP, hsteps⟩
  | ch :: cs, P, W, steps, hP, hsteps => by
    simp only [refineSyms]
    obtain ⟨h1, h2⟩ := refineSym_inv states tt A ch P W steps u hP hsteps
    exact refineSyms_inv states tt A u cs _ _ _ h1 h2

theorem hopLoop_inv (states : Finset StName) (tt : StName → Char → StName)
    (alpha : List Char) (u : Finset StName) :
    ∀ (fuel : Nat) (P W : List (Finset StName))
      (steps : List (String × List (Finset StName)))
      (Pf : List (Finset StName)) (stepsf : List (String × List (Finset StName))),
      isPartitionOf P u → (∀ sn ∈ steps, isPartitionOf sn.2 u) →
      hopLoop states tt alpha fuel P W steps = some (Pf, stepsf) →
      isPartitionOf Pf u ∧ (∀ sn ∈ stepsf, isPartitionOf sn.2 u)
  | 0, P, W, steps, Pf, stepsf, _, _, h => absurd h (by simp [hopLoop])
  | fuel + 1, P, W, steps, Pf, stepsf, hP, hsteps, h => by
    simp only [hopLoop] at h
    split at h
    · simp only [Option.some.injEq, Prod.mk.injEq] at h
      exact ⟨h.1 ▸ hP, h.2 ▸ hsteps⟩
    · rename_i A Wrest
      obtain ⟨h1, h2⟩ := refineSyms_inv states tt A u alpha P Wrest steps hP hsteps
      exact hopLoop_inv states tt alpha u fuel _ _ _ Pf stepsf h1 h2 h

theorem foldr_union_filter_ne_empty :
    ∀ P : List (Finset StName),
      (P.filter (fun b => decide (b ≠ ∅))).foldr (· ∪ ·) ∅ = P.foldr (· ∪ ·) ∅
  | [] => rfl
  | b :: t => by
    by_cases hb : b = ∅
    · rw [List.filter_cons, if_neg (by simp [hb]), foldr_union_filter_ne_empty t,
        List.foldr_cons, hb, Finset.empty_union]
    · rw [List.filter_cons, if_pos (by simp [hb]), List.foldr_cons, List.foldr_cons,
        foldr_union_filter_ne_empty t]

theorem initial_partition (u f : Finset StName) (hf : f ⊆ u) :
    isPartitionOf ([f, u \ f].filter (fun b => decide (b ≠ ∅))) u := by
  constructor
  · refine List.Pairwise.filter _ ?_
    refine List.pairwise_cons.mpr ⟨?_, ?_⟩
    · intro b hb
      rw [List.mem_singleton] at hb
      subst hb
      exact Finset.disjoint_sdiff
    · simp
  · rw [foldr_union_filter_ne_empty]
    show f ∪ ((u \ f) ∪ ∅) = u
    rw [Finset.union_empty, Finset.union_sdiff_of_subset hf]

/-- C2: partition invariant of the minimizer.  Whenever
`hopcroft_minimize` succeeds (for a DFA whose final set lies inside its
state set), the blocks attached to the minimal DFA's states are pairwise
disjoint and their union is exactly the full (totalized) DFA state set;
every partition snapshot recorded in the refinement trace has the same
property; and the minimal DFA's final-state set is exactly the image of
the DFA's final-state set under the block-membership map. -/
theorem c2_partition_invariant (dfa : DFA) (fuel : Nat) (m : MinDFA)
    (steps : List (String × List (Finset StName)))
    (h : hopcroft_minimize dfa fuel = some (m, steps))
    (hwf : dfa.final_states ⊆ dfaStateSet dfa) :
    isPartitionOf (m.states.map (·.2)) (totalStateSet dfa) ∧
    (∀ sn ∈ steps, isPartitionOf sn.2 (totalStateSet dfa)) ∧
    (∀ x, x ∈ m.final_states ↔
      ∃ s ∈ dfa.final_states, ∃ p ∈ m.states, s ∈ p.2 ∧ p.1 = x) := by
  simp only [hopcroft_minimize] at h
  split at h
  · exact absurd h (by simp)
  · rename_i P stepsP hloop
    split at h
    · exact absurd h (by simp)
    · rename_i mtrans hmt
      split at h
      · exact absurd h (by simp)
      · rename_i mstart hstart
        split at h
        · exact absurd h (by simp)
        · rename_i mfin hfin
          simp only [Option.some.injEq, Prod.mk.injEq] at h
          obtain ⟨hm, hstepsEq⟩ := h
          subst hstepsEq
          have hfsub : dfa.final_states ⊆ totalStateSet dfa := by
            unfold totalStateSet
            split
            · exact hwf.trans (Finset.subset_insert _ _)
            · exact hwf
          have hP0 := initial_partition (totalStateSet dfa) dfa.final_states hfsub
          have hinit : ∀ sn ∈
              ([("Initial partition",
                 [dfa.final_states,
                  totalStateSet dfa \ dfa.final_states].filter
                    (fun b => decide (b ≠ ∅)))] :
                List (String × List (Finset StName))),
              isPartitionOf sn.2 (totalStateSet dfa) := by
            intro sn hsn
            rw [List.mem_singleton] at hsn
            subst hsn
            exact hP0
          obtain ⟨hPf, hstepsf⟩ := hopLoop_inv _ _ _ (totalStateSet dfa) fuel _ _ _ P _
            hP0 hinit hloop
          have hdisj := hPf.1
          refine ⟨?_, hstepsf, ?_⟩
          · have hms : ((P.enum.map (fun p => (StName.m p.1, p.2))).map (fun x => x.2)) = P := by
              rw [List.map_map]
              exact List.enum_map_snd P
            rw [← hm]
            show isPartitionOf
              ((P.enum.map (fun p => (StName.m p.1, p.2))).map (fun x => x.2))
              (totalStateSet dfa)
            rw [hms]
            exact hPf
          · intro x
            rw [← hm]
            show x ∈ mfin ↔ ∃ s ∈ dfa.final_states,
              ∃ p ∈ P.enum.map (fun p => (StName.m p.1, p.2)), s ∈ p.2 ∧ p.1 = x
            simp only [minFinals] at hfin
            split at hfin
            · exact absurd hfin (by simp)
            · rename_i l hmap
              simp only [Option.some.injEq] at hfin
              subst hfin
              rw [List.mem_toFinset, mapOption_mem _ _ _ hmap x]
              constructor
              · rintro ⟨a, ha, hrep⟩
                rw [mem_sortFinset] at ha
                simp only [repOf, Option.map_eq_some'] at hrep
                obtain ⟨i, hidx, hxi⟩ := hrep
                obtain ⟨b, hget, hab⟩ := blockIdx_some_get a P i hidx
                refine ⟨a, ha, (StName.m i, b), ?_, hab, hxi⟩
                refine List.mem_map.mpr ⟨(i, b), ?_, rfl⟩
                exact List.mk_mem_enum_iff_getElem?.mpr hget
              · rintro ⟨s, hs, p, hp, hsp, hpx⟩
                obtain ⟨q, hq, hqp⟩ := List.mem_map.mp hp
                have hget : P[q.1]? = some q.2 := List.mk_mem_enum_iff_getElem?.mp (by
                  cases q with
                  | mk qi qb => exact hq)
                refine ⟨s, (mem_sortFinset _ _).mpr hs, ?_⟩
                have hbi : blockIdx P s = some q.1 :=
                  blockIdx_of_mem_get s P q.1 q.2 hdisj hget (by
                    rw [← hqp] at hsp
                    exact hsp)
                simp only [repOf, hbi, Option.map_some']
                rw [← hpx, ← hqp]

/-- Witness for C2 at a one-state total DFA looping on `'a'` with its
single state final: minimization keeps one block `{D0}`, which partitions
the state set, and the final set is the image `{M0}`. -/
theorem c2_partition_invariant_witness :
    isPartitionOf
      (([(StName.m 0, ({StName.d 0} : Finset StName))] : List (StName × Finset StName)).map
        (fun x => x.2))
      (totalStateSet
        { start := .d 0, states := [(.d 0, {.q 0})],
          transitions := [(.d 0, [('a', .d 0)])],
          final_states := {.d 0}, alphabet := {'a'} }) ∧
    (∀ sn ∈ ([("Initial partition", [({StName.d 0} : Finset StName)])] :
        List (String × List (Finset StName))),
      isPartitionOf sn.2 (totalStateSet
        { start := .d 0, states := [(.d 0, {.q 0})],
          transitions := [(.d 0, [('a', .d 0)])],
          final_states := {.d 0}, alphabet := {'a'} })) ∧
    (∀ x, x ∈ ({StName.m 0} : Finset StName) ↔
      ∃ s ∈ ({StName.d 0} : Finset StName),
        ∃ p ∈ ([(StName.m 0, ({StName.d 0} : Finset StName))] :
            List (StName × Finset StName)), s ∈ p.2 ∧ p.1 = x) :=
  c2_partition_invariant
    { start := .d 0, states := [(.d 0, {.q 0})],
      transitions := [(.d 0, [('a', .d 0)])],
      final_states := {.d 0}, alphabet := {'a'} } 100
    { start := .m 0, states := [(.m 0, {.d 0})],
      transitions := [(.m 0, [('a', .m 0)])],
      final_states := {.m 0}, alphabet := {'a'} }
    [("Initial partition", [{StName.d 0}])]
    (by decide) (by decide)

/-! ### Epsilon-closure correctness (towards C1) -/

theorem insSorted_perm {α : Type} [LinearOrder α] (a : α) :
    ∀ l : List α, List.Perm (insSorted a l) (a :: l)
  | [] => by simp [insSorted]
  | b :: t => by
    by_cases hab : a ≤ b
    · simp [insSorted, hab]
    · simp only [insSorted, if_neg hab]
      exact ((insSorted_perm a t).cons b).trans (List.Perm.swap a b t)

theorem insertionSortL_perm {α : Type} [LinearOrder α] :
    ∀ l : List α, List.Perm (insertionSortL l) l
  | [] => by simp [insertionSortL]
  | a :: t =>
    (insSorted_perm a (insertionSortL t)).trans ((insertionSortL_perm t).cons a)

theorem sortFinset_nodup {α : Type} [LinearOrder α] (s : Finset α) :
    (sortFinset s).Nodup := by
  obtain ⟨l, hl⟩ := Quotient.exists_rep s.val
  have h1 : sortFinset s = insertionSortL l := by
    unfold sortFinset
    rw [← hl]
    rfl
  have h2 : Multiset.Nodup (s.val) := s.nodup
  rw [← hl] at h2
  rw [h1]
  exact ((insertionSortL_perm l).nodup_iff).mpr h2

theorem alookup_of_mem_nodup {α β : Type} [DecidableEq α] {k : α} {v : β} {l : List (α × β)}
    (h : (k, v) ∈ l) (hn : (l.map (·.1)).Nodup) : alookup k l = some v := by
  induction l with
  | nil => exact absurd h (by simp)
  | cons p t ih =>
    rw [List.map_cons, List.nodup_cons] at hn
    rcases List.mem_cons.mp h with he | he
    · rw [← he]
      simp [alookup]
    · have hne : ¬ (p.1 = k) := by
        intro hc
        exact hn.1 (by rw [hc]; exact List.mem_map_of_mem _ he)
      rw [alookup, if_neg hne]
      exact ih he hn.2

theorem mem_foldr_union (x : StName) :
    ∀ P : List (Finset StName), x ∈ P.foldr (· ∪ ·) ∅ ↔ ∃ b ∈ P, x ∈ b
  | [] => by simp
  | b :: t => by
    simp only [List.foldr_cons, Finset.mem_union, mem_foldr_union x t, List.mem_cons]
    constructor
    · rintro (h | ⟨b2, hb2, hx⟩)
      · exact ⟨b, Or.inl rfl, h⟩
      · exact ⟨b2, Or.inr hb2, hx⟩
    · rintro ⟨b2, hb2 | hb2, hx⟩
      · exact Or.inl (hb2 ▸ hx)
      · exact Or.inr ⟨b2, hb2, hx⟩

theorem blockIdx_none_iff (s : StName) :
    ∀ P : List (Finset StName), blockIdx P s = none ↔ ∀ b ∈ P, s ∉ b
  | [] => by simp [blockIdx]
  | b :: t => by
    rw [blockIdx]
    by_cases hs : s ∈ b
    · simp [hs]
    · simp [hs, Option.map_eq_none', blockIdx_none_iff s t]

theorem epsReach_mono {nfa : NFA} {S T : Finset StName} (hst : S ⊆ T) {x : StName}
    (h : EpsReach nfa S x) : EpsReach nfa T x := by
  induction h with
  | base hx => exact EpsReach.base (hst hx)
  | step _ hy ih => exact EpsReach.step ih hy

theorem closStepFold_cl_sub :
    ∀ (ds : List StName) (cl : Finset StName) (stk : List StName),
      ∀ x ∈ cl, x ∈ (closStepFold cl stk ds).1
  | [], cl, stk, x, hx => hx
  | d :: ds, cl, stk, x, hx => by
    rw [closStepFold, List.foldl_cons]
    by_cases hd : d ∈ cl
    · rw [if_pos hd]
      exact closStepFold_cl_sub ds cl stk x hx
    · rw [if_neg hd]
      exact closStepFold_cl_sub ds (insert d cl) (d :: stk) x (Finset.mem_insert_of_mem hx)

theorem closStepFold_ds_sub :
    ∀ (ds : List StName) (cl : Finset StName) (stk : List StName),
      ∀ y ∈ ds, y ∈ (closStepFold cl stk ds).1
  | [], _, _, y, hy => absurd hy (by simp)
  | d :: ds, cl, stk, y, hy => by
    rw [closStepFold, List.foldl_cons]
    rcases List.mem_cons.mp hy with he | he
    · subst he
      by_cases hd : y ∈ cl
      · rw [if_pos hd]
        exact closStepFold_cl_sub ds cl stk y hd
      · rw [if_neg hd]
        exact closStepFold_cl_sub ds (insert y cl) (y :: stk) y (Finset.mem_insert_self y cl)
    · by_cases hd : d ∈ cl
      · rw [if_pos hd]
        exact closStepFold_ds_sub ds cl stk y he
      · rw [if_neg hd]
        exact closStepFold_ds_sub ds (insert d cl) (d :: stk) y he

theorem closStepFold_cl_cases :
    ∀ (ds : List StName) (cl : Finset StName) (stk : List StName),
      ∀ x ∈ (closStepFold cl stk ds).1, x ∈ cl ∨ x ∈ ds
  | [], cl, stk, x, hx => Or.inl hx
  | d :: ds, cl, stk, x, hx => by
    rw [closStepFold, List.foldl_cons] at hx
    by_cases hd : d ∈ cl
    · rw [if_pos hd] at hx
      rcases closStepFold_cl_cases ds cl stk x hx with h | h
      · exact Or.inl h
      · exact Or.inr (List.mem_cons_of_mem d h)
    · rw [if_neg hd] at hx
      rcases closStepFold_cl_cases ds (insert d cl) (d :: stk) x hx with h | h
      · rcases Finset.mem_insert.mp h with he | he
        · exact Or.inr (he ▸ List.mem_cons_self d ds)
        · exact Or.inl he
      · exact Or.inr (List.mem_cons_of_mem d h)

theorem closStepFold_stk_sub_cl :
    ∀ (ds : List StName) (cl : Finset StName) (stk : List StName),
      (∀ x ∈ stk, x ∈ cl) →
      ∀ x ∈ (closStepFold cl stk ds).2, x ∈ (closStepFold cl stk ds).1
  | [], cl, stk, hsub, x, hx => hsub x hx
  | d :: ds, cl, stk, hsub, x, hx => by
    rw [closStepFold, List.foldl_cons] at hx ⊢
    by_cases hd : d ∈ cl
    · rw [if_pos hd] at hx ⊢
      exact closStepFold_stk_sub_cl ds cl stk hsub x hx
    · rw [if_neg hd] at hx ⊢
      refine closStepFold_stk_sub_cl ds (insert d cl) (d :: stk) ?_ x hx
      intro z hz
      rcases List.mem_cons.mp hz with he | he
      · exact he ▸ Finset.mem_insert_self d cl
      · exact Finset.mem_insert_of_mem (hsub z he)

theorem closStepFold_stk_nodup :
    ∀ (ds : List StName) (cl : Finset StName) (stk : List StName),
      (∀ x ∈ stk, x ∈ cl) → stk.Nodup → (closStepFold cl stk ds).2.Nodup
  | [], _, _, _, hnd => hnd
  | d :: ds, cl, stk, hsub, hnd => by
    rw [closStepFold, List.foldl_cons]
    by_cases hd : d ∈ cl
    · rw [if_pos hd]
      exact closStepFold_stk_nodup ds cl stk hsub hnd
    · rw [if_neg hd]
      refine closStepFold_stk_nodup ds (insert d cl) (d :: stk) ?_ ?_
      · intro z hz
        rcases List.mem_cons.mp hz with he | he
        · exact he ▸ Finset.mem_insert_self d cl
        · exact Finset.mem_insert_of_mem (hsub z he)
      · exact List.nodup_cons.mpr ⟨fun hc => hd (hsub d hc), hnd⟩

theorem closStepFold_stk_mono :
    ∀ (ds : List StName) (cl : Finset StName) (stk : List StName),
      ∀ x ∈ stk, x ∈ (closStepFold cl stk ds).2
  | [], _, _, _, hx => hx
  | d :: ds, cl, stk, x, hx => by
    rw [closStepFold, List.foldl_cons]
    by_cases hd : d ∈ cl
    · rw [if_pos hd]
      exact closStepFold_stk_mono ds cl stk x hx
    · rw [if_neg hd]
      exact closStepFold_stk_mono ds (insert d cl) (d :: stk) x (List.mem_cons_of_mem d hx)

theorem closStepFold_old_not_pushed :
    ∀ (ds : List StName) (cl : Finset StName) (stk : List StName),
      ∀ x ∈ cl, x ∉ stk → x ∉ (closStepFold cl stk ds).2
  | [], _, _, _, _, hnx => hnx
  | d :: ds, cl, stk, x, hx, hnx => by
    rw [closStepFold, List.foldl_cons]
    by_cases hd : d ∈ cl
    · rw [if_pos hd]
      exact closStepFold_old_not_pushed ds cl stk x hx hnx
    · rw [if_neg hd]
      refine closStepFold_old_not_pushed ds (insert d cl) (d :: stk) x
        (Finset.mem_insert_of_mem hx) ?_
      intro hc
      rcases List.mem_cons.mp hc with he | he
      · exact hd (he ▸ hx)
      · exact hnx he

theorem closStepFold_new_pushed :
    ∀ (ds : List StName) (cl : Finset StName) (stk : List StName),
      ∀ x ∈ ds, x ∉ cl → x ∈ (closStepFold cl stk ds).2
  | [], _, _, x, hx, _ => absurd hx (by simp)
  | d :: ds, cl, stk, x, hx, hnx => by
    rw [closStepFold, List.foldl_cons]
    rcases List.mem_cons.mp hx with he | he
    · subst he
      rw [if_neg hnx]
      exact closStepFold_stk_mono ds (insert x cl) (x :: stk) x (List.mem_cons_self x stk)
    · by_cases hd : d ∈ cl
      · rw [if_pos hd]
        exact closStepFold_new_pushed ds cl stk x he hnx
      · rw [if_neg hd]
        by_cases hxd : x = d
        · subst hxd
          exact closStepFold_stk_mono ds (insert x cl) (x :: stk) x (List.mem_cons_self x stk)
        · refine closStepFold_new_pushed ds (insert d cl) (d :: stk) x he ?_
          intro hc
          rcases Finset.mem_insert.mp hc with h2 | h2
          · exact hxd h2
          · exact hnx h2

theorem closureLoop_spec (nfa : NFA) (S : Finset StName) :
    ∀ (fuel : Nat) (stk : List StName) (cl out : Finset StName),
      S ⊆ cl → (∀ x ∈ cl, EpsReach nfa S x) →
      (∀ x ∈ stk, x ∈ cl) → stk.Nodup →
      (∀ x ∈ cl, x ∉ stk → ∀ y ∈ symDests nfa x Sym.eps, y ∈ cl) →
      closureLoop nfa fuel stk cl = some out →
      ∀ x, x ∈ out ↔ EpsReach nfa S x
  | fuel, [], cl, out, hS, hsound, _, _, hclosed, h => by
    have hout : cl = out := by
      cases fuel with
      | zero =>
        rw [closureLoop] at h
        injection h
      | succ f =>
        rw [closureLoop] at h
        injection h
    subst hout
    intro x
    constructor
    · exact hsound x
    · intro hr
      induction hr with
      | base hx => exact hS hx
      | step _ hy ih => exact hclosed _ ih (List.not_mem_nil _) _ hy
  | 0, s :: stk, cl, out, _, _, _, _, _, h => by
    rw [closureLoop] at h
    exact absurd h (by simp)
  | fuel + 1, s :: stk, cl, out, hS, hsound, hstk, hnd, hclosed, h => by
    rw [closureLoop] at h
    have hscl : s ∈ cl := hstk s (List.mem_cons_self s stk)
    have hstk2 : ∀ x ∈ stk, x ∈ cl := fun x hx => hstk x (List.mem_cons_of_mem s hx)
    have hnd2 : stk.Nodup := (List.nodup_cons.mp hnd).2
    refine closureLoop_spec nfa S fuel _ _ out ?_ ?_ ?_ ?_ ?_ h
    · exact fun x hx => closStepFold_cl_sub _ cl stk x (hS hx)
    · intro x hx
      rcases closStepFold_cl_cases _ cl stk x hx with h2 | h2
      · exact hsound x h2
      · exact EpsReach.step (hsound s hscl) h2
    · exact closStepFold_stk_sub_cl _ cl stk hstk2
    · exact closStepFold_stk_nodup _ cl stk hstk2 hnd2
    · intro x hx hnx y hy
      rcases closStepFold_cl_cases _ cl stk x hx with h2 | h2
      · by_cases hxs : x = s
        · subst hxs
          exact closStepFold_ds_sub _ cl stk y hy
        · have hxstk : x ∉ stk := by
            intro hc
            exact hnx (closStepFold_stk_mono _ cl stk x hc)
          have hxfull : x ∉ s :: stk := by
            intro hc
            rcases List.mem_cons.mp hc with he | he
            · exact hxs he
            · exact hxstk he
          exact closStepFold_cl_sub _ cl stk y (hclosed x h2 hxfull y hy)
      · by_cases hxcl : x ∈ cl
        · by_cases hxs : x = s
          · subst hxs
            exact closStepFold_ds_sub _ cl stk y hy
          · have hxstk : x ∉ stk := fun hc => hnx (closStepFold_stk_mono _ cl stk x hc)
            have hxfull : x ∉ s :: stk := by
              intro hc
              rcases List.mem_cons.mp hc with he | he
              · exact hxs he
              · exact hxstk he
            exact closStepFold_cl_sub _ cl stk y (hclosed x hxcl hxfull y hy)
        · exact absurd (closStepFold_new_pushed _ cl stk x h2 hxcl) hnx

theorem epsilon_closure_spec (nfa : NFA) (fuel : Nat) (S out : Finset StName)
    (h : epsilon_closure nfa fuel S = some out) :
    ∀ x, x ∈ out ↔ EpsReach nfa S x := by
  refine closureLoop_spec nfa S fuel (sortFinset S) S out subset_rfl
    (fun x hx => EpsReach.base hx) (fun x hx => (mem_sortFinset S x).mp hx)
    (sortFinset_nodup S) ?_ h
  intro x hx hnx
  exact absurd ((mem_sortFinset S x).mpr hx) hnx

/-! ### NFA run semantics (towards C1) -/

theorem nfaReach_eps_extend {nfa : NFA} {w : List Char} {x y : StName}
    (h : NfaReach nfa w x) (hy : y ∈ symDests nfa x Sym.eps) : NfaReach nfa w y := by
  cases h with
  | nil hx => exact NfaReach.nil (EpsReach.step hx hy)
  | snoc hw hd he => exact NfaReach.snoc hw hd (EpsReach.step he hy)

theorem nfaReach_prefix {nfa : NFA} {v : List Char} {x : StName}
    (h : NfaReach nfa v x) : ∀ u w : List Char, v = u ++ w → ∃ y, NfaReach nfa u y := by
  induction h with
  | nil hx =>
    intro u w huw
    rcases List.append_eq_nil.mp huw.symm with ⟨hu, _⟩
    subst hu
    exact ⟨_, NfaReach.nil hx⟩
  | @snoc w0 c x0 d y0 hw hd he ih =>
    intro u w huw
    cases w with
    | nil =>
      rw [List.append_nil] at huw
      subst huw
      exact ⟨y0, NfaReach.snoc hw hd he⟩
    | cons c2 w2 =>
      have hsplit : (c2 :: w2) = (c2 :: w2).dropLast ++ [(c2 :: w2).getLast (by simp)] :=
        (List.dropLast_append_getLast (by simp)).symm
      rw [hsplit, ← List.append_assoc] at huw
      obtain ⟨h1, _⟩ := List.append_inj' huw (by simp)
      exact ih u (c2 :: w2).dropLast h1

theorem nfaReach_nil_inv {nfa : NFA} {v : List Char} {x : StName} (h : NfaReach nfa v x) :
    v = [] → EpsReach nfa {nfa.start} x := by
  cases h with
  | nil hx => exact fun _ => hx
  | snoc hw hd he => intro hc; exact absurd hc (by simp)

theorem nfaReach_snoc_inv {nfa : NFA} {v : List Char} {y : StName}
    (h : NfaReach nfa v y) :
    ∀ (u : List Char) (c : Char), v = u ++ [c] →
      ∃ x d, NfaReach nfa u x ∧ d ∈ symDests nfa x (Sym.ch c) ∧ EpsReach nfa {d} y := by
  cases h with
  | nil hx =>
    intro u c huc
    exact absurd huc (by simp)
  | @snoc w0 c0 x0 d y0 hw hd he =>
    intro u c huc
    obtain ⟨h1, h2⟩ := List.append_inj' huc (by simp)
    injection h2 with h3 _
    subst h1
    subst h3
    exact ⟨x0, d, hw, hd, he⟩

theorem mem_move (nfa : NFA) (T : Finset StName) (sym : Sym) (x : StName) :
    x ∈ move nfa T sym ↔ ∃ src ∈ T, x ∈ symDests nfa src sym := by
  simp [move, Finset.mem_biUnion, List.mem_toFinset]

theorem closure_step_bridge {nfa : NFA} {T U : Finset StName} {p : List Char} {c : Char}
    (hT : ∀ x, x ∈ T ↔ NfaReach nfa p x)
    (hU : ∀ x, x ∈ U ↔ EpsReach nfa (move nfa T (Sym.ch c)) x) :
    ∀ x, x ∈ U ↔ NfaReach nfa (p ++ [c]) x := by
  intro x
  rw [hU]
  constructor
  · intro h
    induction h with
    | base hx =>
      obtain ⟨src, hsrc, hxs⟩ := (mem_move nfa T (Sym.ch c) _).mp hx
      exact NfaReach.snoc ((hT src).mp hsrc) hxs (EpsReach.base (Finset.mem_singleton_self _))
    | step _ hy ih => exact nfaReach_eps_extend ih hy
  · intro h
    obtain ⟨src, d, hsrc, hd, he⟩ := nfaReach_snoc_inv h p c rfl
    have hdm : d ∈ move nfa T (Sym.ch c) :=
      (mem_move nfa T (Sym.ch c) d).mpr ⟨src, (hT src).mpr hsrc, hd⟩
    exact epsReach_mono (Finset.singleton_subset_iff.mpr hdm) he

/-! ### Subset-construction transition tracking (towards C1) -/

theorem RowInv.mono {nfa : NFA} {alpha : List Char}
    {m1 m2 : List (Finset StName × StName)} {T : Finset StName}
    {row : List (Char × StName)}
    (h : RowInv nfa alpha m1 T row) (hm : ∀ pr ∈ m1, pr ∈ m2) :
    RowInv nfa alpha m2 T row := by
  refine ⟨?_, h.2⟩
  intro a n2 ha
  obtain ⟨hal, U, hU, hchar⟩ := h.1 a n2 ha
  exact ⟨hal, U, hm _ hU, hchar⟩

theorem alookup_append_left {α β : Type} [DecidableEq α] {k : α} {v : β}
    {l1 : List (α × β)} (l2 : List (α × β)) (h : alookup k l1 = some v) :
    alookup k (l1 ++ l2) = some v := by
  induction l1 with
  | nil => exact absurd h (by simp [alookup])
  | cons p t ih =>
    simp only [List.cons_append, alookup] at h ⊢
    by_cases hp : p.1 = k
    · rw [if_pos hp] at h ⊢
      exact h
    · rw [if_neg hp] at h ⊢
      exact ih h

theorem alookup_append_right {α β : Type} [DecidableEq α] {k : α}
    {l1 : List (α × β)} (l2 : List (α × β)) (h : alookup k l1 = none) :
    alookup k (l1 ++ l2) = alookup k l2 := by
  induction l1 with
  | nil => rfl
  | cons p t ih =>
    simp only [List.cons_append, alookup] at h ⊢
    by_cases hp : p.1 = k
    · rw [if_pos hp] at h
      exact absurd h (by simp)
    · rw [if_neg hp] at h ⊢
      exact ih h

theorem alookup_append_some {α β : Type} [DecidableEq α] {k : α} {v : β}
    {l1 l2 : List (α × β)} (h : alookup k (l1 ++ l2) = some v) :
    alookup k l1 = some v ∨ (alookup k l1 = none ∧ alookup k l2 = some v) := by
  cases h1 : alookup k l1 with
  | some w =>
    have h2 := alookup_append_left l2 h1
    rw [h2] at h
    exact Or.inl h
  | none =>
    have h2 := alookup_append_right l2 h1
    rw [h2] at h
    exact Or.inr ⟨rfl, h⟩

theorem mem_nfaAlphabet (nfa : NFA) (c : Char) :
    c ∈ nfaAlphabet nfa ↔
    ∃ p ∈ nfa.states, ∃ qq ∈ p.2, qq.1 = Sym.ch c := by
  unfold nfaAlphabet
  rw [List.mem_toFinset]
  simp only [List.mem_flatten, List.mem_map]
  constructor
  · rintro ⟨l1, ⟨l2, ⟨p, hp, rfl⟩, hl1⟩, hc⟩
    obtain ⟨qq, hqq, hqc⟩ := List.mem_map.mp hl1
    obtain ⟨sym, dl⟩ := qq
    cases sym with
    | eps =>
      have hqc2 : ([] : List Char) = l1 := hqc
      subst hqc2
      exact absurd hc (by simp)
    | ch c2 =>
      have hqc2 : [c2] = l1 := hqc
      subst hqc2
      rw [List.mem_singleton] at hc
      exact ⟨p, hp, (Sym.ch c2, dl), hqq, by rw [hc]⟩
  · rintro ⟨p, hp, qq, hqq, hqc⟩
    refine ⟨[c], ⟨p.2.map (fun qq2 =>
      match qq2.1 with
      | .ch c2 => [c2]
      | .eps => []), ⟨p, hp, rfl⟩, ?_⟩, by simp⟩
    refine List.mem_map.mpr ⟨qq, hqq, ?_⟩
    rw [hqc]

theorem move_empty_of_not_alpha (nfa : NFA) (T : Finset StName) (c : Char)
    (h : c ∉ nfaAlphabet nfa) : move nfa T (Sym.ch c) = ∅ := by
  rw [Finset.eq_empty_iff_forall_not_mem]
  intro x hx
  obtain ⟨src, _, hxs⟩ := (mem_move nfa T (Sym.ch c) x).mp hx
  apply h
  rw [mem_nfaAlphabet]
  unfold symDests at hxs
  cases hls : alookup src nfa.states with
  | none => rw [hls] at hxs; exact absurd hxs (by simp)
  | some tm =>
    rw [hls] at hxs
    have hxs2 : x ∈ (alookup (Sym.ch c) tm).getD [] := hxs
    cases hlc : alookup (Sym.ch c) tm with
    | none => rw [hlc] at hxs2; exact absurd hxs2 (by simp)
    | some dl =>
      exact ⟨(src, tm), alookup_mem hls, (Sym.ch c, dl), alookup_mem hlc, rfl⟩

theorem alookup_singleton {α β : Type} [DecidableEq α] (k k2 : α) (v : β) :
    alookup k2 [(k, v)] = if k = k2 then some v else none := by
  simp [alookup]

theorem subsetSymT (nfa : NFA) (alpha : List Char) (T : Finset StName) (fuel : Nat)
    (st : SubsetState) (row : List (Char × StName)) (a : Char)
    (st2 : SubsetState) (row2 : List (Char × StName))
    (hmid : MidInv nfa alpha T st)
    (ha : a ∈ alpha)
    (hri : ∀ (a2 : Char) (n2 : StName), alookup a2 row = some n2 →
      a2 ∈ alpha ∧ ∃ U, (U, n2) ∈ st.mapping ∧
        (∀ x, x ∈ U ↔ EpsReach nfa (move nfa T (Sym.ch a2)) x))
    (h : subsetSym nfa T fuel st row a = some (st2, row2)) :
    MidInv nfa alpha T st2 ∧
    (∀ pr ∈ st.mapping, pr ∈ st2.mapping) ∧
    (∀ U2 ∈ st2.queue, U2 ∈ st.queue ∨ U2 ∉ st.mapping.map (·.1)) ∧
    (∀ (a2 : Char) (n2 : StName), alookup a2 row2 = some n2 →
      a2 ∈ alpha ∧ ∃ U, (U, n2) ∈ st2.mapping ∧
        (∀ x, x ∈ U ↔ EpsReach nfa (move nfa T (Sym.ch a2)) x)) ∧
    (move nfa T (Sym.ch a) = ∅ ∨ (alookup a row2).isSome = true) ∧
    (∀ a2, (alookup a2 row).isSome = true → (alookup a2 row2).isSome = true) := by
  have hbase : SubInv nfa st2 := subsetSym_inv nfa T fuel st row a st2 row2 hmid.base h
  simp only [subsetSym] at h
  split at h
  · rename_i hmv
    simp only [Option.some.injEq, Prod.mk.injEq] at h
    obtain ⟨h1, h2⟩ := h
    subst h1
    subst h2
    exact ⟨hmid, fun pr hpr => hpr, fun U2 hU2 => Or.inl hU2, hri,
      Or.inl hmv, fun a2 h2 => h2⟩
  · rename_i hmv
    split at h
    · exact absurd h (by simp)
    · rename_i U hec
      have hUchar : ∀ x, x ∈ U ↔ EpsReach nfa (move nfa T (Sym.ch a)) x :=
        epsilon_closure_spec nfa fuel _ U hec
      have hsome_new : ∀ (name : StName),
          (alookup a (row ++ [(a, name)])).isSome = true := by
        intro name
        cases hrow : alookup a row with
        | some v => rw [alookup_append_left _ hrow]; rfl
        | none => rw [alookup_append_right _ hrow, alookup_singleton, if_pos rfl]; rfl
      have hsome_pres : ∀ (name : StName) (a2 : Char),
          (alookup a2 row).isSome = true →
          (alookup a2 (row ++ [(a, name)])).isSome = true := by
        intro name a2 h2
        cases hrow : alookup a2 row with
        | some v => rw [alookup_append_left _ hrow]; rfl
        | none => rw [hrow] at h2; exact absurd h2 (by simp)
      have hsingle : ∀ (name : StName) (a2 : Char) (n2 : StName),
          alookup a2 [(a, name)] = some n2 → a2 = a ∧ n2 = name := by
        intro name a2 n2 h4
        rw [alookup_singleton] at h4
        by_cases hx : a = a2
        · rw [if_pos hx] at h4
          injection h4 with h5
          exact ⟨hx.symm, h5.symm⟩
        · rw [if_neg hx] at h4
          exact absurd h4 (by simp)
      split at h
      · rename_i name hal
        simp only [Option.some.injEq, Prod.mk.injEq] at h
        obtain ⟨h1, h2⟩ := h
        subst h1
        subst h2
        refine ⟨hmid, fun pr hpr => hpr, fun U2 hU2 => Or.inl hU2, ?_, ?_, ?_⟩
        · intro a2 n2 hl
          rcases alookup_append_some hl with h3 | ⟨h3, h4⟩
          · exact hri a2 n2 h3
          · obtain ⟨h5, h6⟩ := hsingle name a2 n2 h4
            subst h5
            subst h6
            exact ⟨ha, U, alookup_mem hal, hUchar⟩
        · exact Or.inr (hsome_new name)
        · exact hsome_pres name
      · rename_i hal
        simp only [Option.some.injEq, Prod.mk.injEq] at h
        obtain ⟨h1, h2⟩ := h
        subst h1
        subst h2
        have hUnot : U ∉ st.mapping.map (·.1) := (alookup_eq_none_iff U st.mapping).mp hal
        refine ⟨?_, ?_, ?_, ?_, ?_, ?_⟩
        · refine ⟨hbase, hmid.hdkeys, ?_, ?_⟩
          · intro x hx
            obtain ⟨p, hp, hpx, hpq, hpT⟩ := hmid.hdproc x hx
            refine ⟨p, List.mem_append_left _ hp, hpx, ?_, hpT⟩
            intro hc
            rcases List.mem_append.mp hc with hcc | hcc
            · exact hpq hcc
            · rw [List.mem_singleton] at hcc
              exact hUnot (hcc ▸ List.mem_map_of_mem _ hp)
          · intro p hp hpq hpT
            rcases List.mem_append.mp hp with hh | hh
            · obtain ⟨row3, hrow3, hRI⟩ := hmid.hrows p hh
                (fun hc => hpq (List.mem_append_left _ hc)) hpT
              exact ⟨row3, hrow3, hRI.mono (fun pr hpr => List.mem_append_left _ hpr)⟩
            · rw [List.mem_singleton] at hh
              subst hh
              exact absurd (List.mem_append_right _ (by simp)) hpq
        · exact fun pr hpr => List.mem_append_left _ hpr
        · intro U2 hU2
          rcases List.mem_append.mp hU2 with hh | hh
          · exact Or.inl hh
          · rw [List.mem_singleton] at hh
            subst hh
            exact Or.inr hUnot
        · intro a2 n2 hl
          rcases alookup_append_some hl with h3 | ⟨h3, h4⟩
          · obtain ⟨hal2, U3, hU3, hch3⟩ := hri a2 n2 h3
            exact ⟨hal2, U3, List.mem_append_left _ hU3, hch3⟩
          · obtain ⟨h5, h6⟩ := hsingle (StName.d st.counter) a2 n2 h4
            subst h5
            subst h6
            exact ⟨ha, U, List.mem_append_right _ (by simp), hUchar⟩
        · exact Or.inr (hsome_new (StName.d st.counter))
        · exact hsome_pres (StName.d st.counter)

theorem subsetSymsT (nfa : NFA) (alpha : List Char) (T : Finset StName) (fuel : Nat) :
    ∀ (todo : List Char) (st : SubsetState) (row : List (Char × StName))
      (st2 : SubsetState) (row2 : List (Char × StName)),
      MidInv nfa alpha T st →
      (∀ a ∈ todo, a ∈ alpha) →
      (∀ (a2 : Char) (n2 : StName), alookup a2 row = some n2 →
        a2 ∈ alpha ∧ ∃ U, (U, n2) ∈ st.mapping ∧
          (∀ x, x ∈ U ↔ EpsReach nfa (move nfa T (Sym.ch a2)) x)) →
      (∀ a ∈ alpha, a ∉ todo → move nfa T (Sym.ch a) ≠ ∅ →
        (alookup a row).isSome = true) →
      subsetSyms nfa T fuel todo st row = some (st2, row2) →
      MidInv nfa alpha T st2 ∧
      (∀ pr ∈ st.mapping, pr ∈ st2.mapping) ∧
      (∀ U2 ∈ st2.queue, U2 ∈ st.queue ∨ U2 ∉ st.mapping.map (·.1)) ∧
      (∀ (a2 : Char) (n2 : StName), alookup a2 row2 = some n2 →
        a2 ∈ alpha ∧ ∃ U, (U, n2) ∈ st2.mapping ∧
          (∀ x, x ∈ U ↔ EpsReach nfa (move nfa T (Sym.ch a2)) x)) ∧
      (∀ a ∈ alpha, move nfa T (Sym.ch a) ≠ ∅ → (alookup a row2).isSome = true)
  | [], st, row, st2, row2, hmid, _, hri, hcov, h => by
    simp only [subsetSyms, Option.some.injEq, Prod.mk.injEq] at h
    obtain ⟨h1, h2⟩ := h
    subst h1
    subst h2
    exact ⟨hmid, fun pr hpr => hpr, fun U2 hU2 => Or.inl hU2, hri,
      fun a hal hmv => hcov a hal (List.not_mem_nil a) hmv⟩
  | a :: todo, st, row, st2, row2, hmid, htodo, hri, hcov, h => by
    simp only [subsetSyms] at h
    cases hs : subsetSym nfa T fuel st row a with
    | none => rw [hs] at h; exact absurd h (by simp)
    | some pr =>
      rw [hs] at h
      cases pr with
      | mk st3 row3 =>
        have ha : a ∈ alpha := htodo a (List.mem_cons_self a todo)
        obtain ⟨hmid3, hmono3, hqn3, hri3, hsome3, hpres3⟩ :=
          subsetSymT nfa alpha T fuel st row a st3 row3 hmid ha hri hs
        obtain ⟨hmidf, hmonof, hqnf, hrif, hcovf⟩ :=
          subsetSymsT nfa alpha T fuel todo st3 row3 st2 row2 hmid3
            (fun a2 ha2 => htodo a2 (List.mem_cons_of_mem a ha2))
            hri3
            (by
              intro a2 ha2 hnt hmv
              by_cases haa : a2 = a
              · subst haa
                rcases hsome3 with hh | hh
                · exact absurd hh hmv
                · exact hh
              · refine hpres3 a2 (hcov a2 ha2 ?_ hmv)
                intro hc
                rcases List.mem_cons.mp hc with he | he
                · exact haa he
                · exact hnt he)
            h
        refine ⟨hmidf, fun pr2 hpr2 => hmonof pr2 (hmono3 pr2 hpr2), ?_, hrif, hcovf⟩
        intro U2 hU2
        rcases hqnf U2 hU2 with hh | hh
        · exact hqn3 U2 hh
        · refine Or.inr ?_
          intro hc
          apply hh
          obtain ⟨p, hp, hpx⟩ := List.mem_map.mp hc
          exact hpx ▸ List.mem_map_of_mem _ (hmono3 p hp)

theorem midInv_pop (nfa : NFA) (alpha : List Char) (st : SubsetState) (T : Finset StName)
    (rest : List (Finset StName)) (Td : StName)
    (hinv : SubInvT nfa alpha st) (hq : st.queue = T :: rest)
    (hTd : alookup T st.mapping = some Td) :
    MidInv nfa alpha T
      { st with
        queue := rest
        dfinal := if nfa.accept ∈ T then insert Td st.dfinal else st.dfinal } := by
  refine ⟨subInv_pop nfa st T rest Td hinv.base hq hTd, hinv.hdkeys, ?_, ?_⟩
  · intro x hx
    obtain ⟨p, hp, hpx, hpq⟩ := hinv.hdproc x hx
    rw [hq] at hpq
    refine ⟨p, hp, hpx, ?_, ?_⟩
    · exact fun hc => hpq (List.mem_cons_of_mem T hc)
    · exact fun hc => hpq (hc ▸ List.mem_cons_self T rest)
  · intro p hp hpq hpT
    have hpq2 : p.1 ∉ st.queue := by
      rw [hq]
      intro hc
      rcases List.mem_cons.mp hc with he | he
      · exact hpT he
      · exact hpq he
    exact hinv.hrows p hp hpq2

theorem subInvT_finish (nfa : NFA) (alpha : List Char) (st3 : SubsetState)
    (T : Finset StName) (Td : StName) (row : List (Char × StName))
    (hmid : MidInv nfa alpha T st3)
    (hTd : (T, Td) ∈ st3.mapping)
    (hTq : T ∉ st3.queue)
    (hri : ∀ (a2 : Char) (n2 : StName), alookup a2 row = some n2 →
      a2 ∈ alpha ∧ ∃ U, (U, n2) ∈ st3.mapping ∧
        (∀ x, x ∈ U ↔ EpsReach nfa (move nfa T (Sym.ch a2)) x))
    (hcov : ∀ a ∈ alpha, move nfa T (Sym.ch a) ≠ ∅ → (alookup a row).isSome = true) :
    SubInvT nfa alpha { st3 with dtrans := st3.dtrans ++ [(Td, row)] } := by
  have hTdnot : Td ∉ st3.dtrans.map (·.1) := by
    intro hc
    obtain ⟨p, hp, hpx, _, hpT⟩ := hmid.hdproc Td hc
    have hpe : p = (T, Td) :=
      List.inj_on_of_nodup_map hmid.base.hvals hp hTd (by rw [hpx])
    exact hpT (by rw [hpe])
  refine ⟨subInv_dtrans nfa st3 _ hmid.base, ?_, ?_, ?_⟩
  · simp only [List.map_append, List.map_cons, List.map_nil]
    rw [List.nodup_append]
    refine ⟨hmid.hdkeys, List.nodup_singleton _, ?_⟩
    intro x hx hx2
    rw [List.mem_singleton] at hx2
    subst hx2
    exact hTdnot hx
  · intro x hx
    simp only [List.map_append, List.map_cons, List.map_nil] at hx
    rcases List.mem_append.mp hx with hh | hh
    · obtain ⟨p, hp, hpx, hpq, _⟩ := hmid.hdproc x hh
      exact ⟨p, hp, hpx, hpq⟩
    · rw [List.mem_singleton] at hh
      rw [hh]
      exact ⟨(T, Td), hTd, rfl, hTq⟩
  · intro p hp hpq
    by_cases hpT : p.1 = T
    · have hpe : p = (T, Td) :=
        List.inj_on_of_nodup_map hmid.base.hkeys hp hTd (by rw [hpT])
      rw [hpe]
      exact ⟨row, List.mem_append_right _ (by simp), hri, hcov⟩
    · obtain ⟨row3, hrow3, hRI⟩ := hmid.hrows p hp hpq hpT
      exact ⟨row3, List.mem_append_left _ hrow3, hRI⟩

theorem subsetLoopT (nfa : NFA) (alpha : List Char) (fuel : Nat)
    (halpha : ∀ a ∈ alpha, a ∈ alpha) :
    ∀ (lf : Nat) (st stf : SubsetState),
      SubInvT nfa alpha st → subsetLoop nfa alpha fuel lf st = some stf →
      SubInvT nfa alpha stf ∧ stf.queue = [] ∧
      (∀ pr ∈ st.mapping, pr ∈ stf.mapping)
  | 0, st, stf, _, h => absurd h (by simp [subsetLoop])
  | lf + 1, st, stf, hinv, h => by
    simp only [subsetLoop] at h
    split at h
    · rename_i hq
      simp only [Option.some.injEq] at h
      exact ⟨h ▸ hinv, h ▸ hq, fun pr hpr => h ▸ hpr⟩
    · rename_i T rest hq
      split at h
      · exact absurd h (by simp)
      · rename_i Td hTd
        split at h
        · exact absurd h (by simp)
        · rename_i st3 row3 hss
          have hmid2 := midInv_pop nfa alpha st T rest Td hinv hq hTd
          obtain ⟨hmid3, hmono3, hqn3, hri3, hcov3⟩ :=
            subsetSymsT nfa alpha T fuel alpha _ [] st3 row3 hmid2
              (fun a ha => ha)
              (by intro a2 n2 hl; exact absurd hl (by simp [alookup]))
              (by intro a ha hna _; exact absurd ha hna)
              hss
          have hTd3 : (T, Td) ∈ st3.mapping := hmono3 (T, Td) (alookup_mem hTd)
          have hTq3 : T ∉ st3.queue := by
            intro hc
            rcases hqn3 T hc with hh | hh
            · have hnd := hinv.base.hqnodup
              rw [hq] at hnd
              exact (List.nodup_cons.mp hnd).1 hh
            · exact hh (List.mem_map_of_mem _ (alookup_mem hTd))
          have hfin := subInvT_finish nfa alpha st3 T Td row3 hmid3 hTd3 hTq3 hri3 hcov3
          obtain ⟨hinvf, hqf, hmonof⟩ := subsetLoopT nfa alpha fuel halpha lf _ stf hfin h
          exact ⟨hinvf, hqf, fun pr hpr => hmonof pr (hmono3 pr hpr)⟩

/-! ### The DFA language bridge (towards C1) -/

theorem alookup_none_of_not_mem {α β : Type} [DecidableEq α] {k : α} :
    ∀ l : List (α × β), k ∉ l.map (·.1) → alookup k l = none
  | [], _ => rfl
  | p :: t, h => by
    rw [List.map_cons, List.mem_cons] at h
    push_neg at h
    rw [alookup, if_neg (fun hc => h.1 hc.symm)]
    exact alookup_none_of_not_mem t h.2

theorem epsReach_empty (nfa : NFA) (x : StName) : ¬ EpsReach nfa ∅ x := by
  intro h
  induction h with
  | base hx => exact absurd hx (Finset.not_mem_empty _)
  | step _ _ ih => exact ih

theorem nfaReach_nil_iff (nfa : NFA) (x : StName) :
    NfaReach nfa [] x ↔ EpsReach nfa {nfa.start} x :=
  ⟨fun h => nfaReach_nil_inv h rfl, NfaReach.nil⟩

theorem subInvT_init (nfa : NFA) (alpha : List Char) (sc : Finset StName) (dcnt : Nat) :
    SubInvT nfa alpha
      { mapping := [(sc, StName.d dcnt)], dstates := [(StName.d dcnt, sc)], dtrans := [],
        dfinal := ∅, queue := [sc], counter := dcnt + 1 } := by
  refine ⟨⟨rfl, ?_, ?_, ?_, ?_, ?_, ?_, ?_⟩, ?_, ?_, ?_⟩
  · show ([(sc, StName.d dcnt)].map (·.1)).Nodup
    simp
  · show ([(sc, StName.d dcnt)].map (·.2)).Nodup
    simp
  · intro name hname
    simp only [List.map_cons, List.map_nil, List.mem_singleton] at hname
    refine ⟨dcnt, ?_, hname⟩
    show dcnt < dcnt + 1
    omega
  · show ([sc] : List (Finset StName)).Nodup
    simp
  · intro U hU
    show U ∈ [(sc, StName.d dcnt)].map (·.1)
    simpa using hU
  · intro p hp
    rw [List.mem_singleton] at hp
    subst hp
    exact Or.inl ⟨List.mem_singleton_self _, Finset.not_mem_empty _⟩
  · intro x hx
    exact absurd hx (Finset.not_mem_empty x)
  · show (([] : List (StName × List (Char × StName))).map (·.1)).Nodup
    simp
  · intro x hx
    simp only [List.map_nil] at hx
    exact absurd hx (List.not_mem_nil x)
  · intro p hp hpq
    rw [List.mem_singleton] at hp
    refine absurd ?_ hpq
    show p.1 ∈ [sc]
    rw [hp]
    exact List.mem_singleton_self _

theorem dfaDeltaStar_snoc (dfa : DFA) (c : Char) :
    ∀ (w : List Char) (q : StName),
      dfaDeltaStar dfa q (w ++ [c]) =
        (dfaDeltaStar dfa q w).bind
          (fun n => (alookup n dfa.transitions).bind (alookup c))
  | [], q => by
    cases h : (alookup q dfa.transitions).bind (alookup c) <;>
      simp [dfaDeltaStar, h]
  | a :: as, q => by
    cases h : (alookup q dfa.transitions).bind (alookup a) with
    | none => simp [List.cons_append, dfaDeltaStar, h]
    | some nxt =>
      simp only [List.cons_append, dfaDeltaStar, h]
      exact dfaDeltaStar_snoc dfa c as nxt

theorem dfaRun_bridge (nfa : NFA) (alpha : List Char) (stf : SubsetState) (dfa : DFA)
    (hinv : SubInvT nfa alpha stf) (hq : stf.queue = [])
    (htr : dfa.transitions = stf.dtrans)
    (U0 : Finset StName) (n0 : StName) (hmem0 : (U0, n0) ∈ stf.mapping)
    (hchar0 : ∀ x, x ∈ U0 ↔ NfaReach nfa [] x) :
    ∀ (s : List Char), (∀ c ∈ s, c ∈ alpha) →
      (∃ n U, dfaDeltaStar dfa n0 s = some n ∧ (U, n) ∈ stf.mapping ∧
        (∀ x, x ∈ U ↔ NfaReach nfa s x)) ∨
      (dfaDeltaStar dfa n0 s = none ∧ ∀ x, ¬ NfaReach nfa s x) := by
  intro s
  induction s using List.reverseRecOn with
  | nil =>
    intro _
    exact Or.inl ⟨n0, U0, rfl, hmem0, hchar0⟩
  | append_singleton w c ih =>
    intro hchars
    have hw : ∀ c2 ∈ w, c2 ∈ alpha :=
      fun c2 hc2 => hchars c2 (List.mem_append_left _ hc2)
    have hc : c ∈ alpha := hchars c (List.mem_append_right _ (List.mem_singleton_self c))
    rcases ih hw with ⟨n, U, hrun, hmem, hchar⟩ | ⟨hrun, hempty⟩
    · have hnq : (U, n).1 ∉ stf.queue := by rw [hq]; exact List.not_mem_nil U
      obtain ⟨row, hrowmem, hRI⟩ := hinv.hrows (U, n) hmem hnq
      have hrowlk : alookup n dfa.transitions = some row := by
        rw [htr]
        exact alookup_of_mem_nodup hrowmem hinv.hdkeys
      by_cases hmv : move nfa U (Sym.ch c) = ∅
      · have hempty2 : ∀ x, ¬ NfaReach nfa (w ++ [c]) x := by
          intro x hx
          obtain ⟨x2, d, hx2, hd, _⟩ := nfaReach_snoc_inv hx w c rfl
          have hdm : d ∈ move nfa U (Sym.ch c) :=
            (mem_move nfa U (Sym.ch c) d).mpr ⟨x2, (hchar x2).mpr hx2, hd⟩
          rw [hmv] at hdm
          exact absurd hdm (Finset.not_mem_empty d)
        cases hlk : alookup c row with
        | none =>
          refine Or.inr ⟨?_, hempty2⟩
          rw [dfaDeltaStar_snoc dfa c w n0, hrun, Option.some_bind, hrowlk,
            Option.some_bind, hlk]
        | some n2 =>
          obtain ⟨_, U2, hU2mem, hU2char⟩ := hRI.1 c n2 hlk
          refine Or.inl ⟨n2, U2, ?_, hU2mem, ?_⟩
          · rw [dfaDeltaStar_snoc dfa c w n0, hrun, Option.some_bind, hrowlk,
              Option.some_bind, hlk]
          · intro x
            rw [hU2char x, hmv]
            exact ⟨fun hx => absurd hx (epsReach_empty nfa x),
              fun hx => absurd hx (hempty2 x)⟩
      · have hsome := hRI.2 c hc hmv
        cases hlk : alookup c row with
        | none => rw [hlk] at hsome; exact absurd hsome (by simp)
        | some n2 =>
          obtain ⟨_, U2, hU2mem, hU2char⟩ := hRI.1 c n2 hlk
          refine Or.inl ⟨n2, U2, ?_, hU2mem, closure_step_bridge hchar hU2char⟩
          rw [dfaDeltaStar_snoc dfa c w n0, hrun, Option.some_bind, hrowlk,
            Option.some_bind, hlk]
    · refine Or.inr ⟨?_, ?_⟩
      · rw [dfaDeltaStar_snoc dfa c w n0, hrun, Option.none_bind]
      · intro x hx
        obtain ⟨x2, _, hx2, _, _⟩ := nfaReach_snoc_inv hx w c rfl
        exact hempty x2 hx2

theorem nfa_to_dfa_spec (nfa : NFA) (fuel dcnt : Nat) (dfa : DFA) (cnt2 : Nat)
    (h : nfa_to_dfa nfa fuel dcnt = some (dfa, cnt2)) :
    DfaWF dfa ∧ dfa.alphabet = nfaAlphabet nfa ∧
    (∀ s : List Char, (∀ c ∈ s, c ∈ dfa.alphabet) →
      (dfaAccepts dfa s = true ↔ nfaAccepts nfa s)) := by
  simp only [nfa_to_dfa] at h
  split at h
  · exact absurd h (by simp)
  · rename_i sc hsc
    split at h
    · exact absurd h (by simp)
    · rename_i stf hloop
      simp only [Option.some.injEq, Prod.mk.injEq] at h
      obtain ⟨hdfa, hcnt⟩ := h
      have htin := subInvT_init nfa (sortFinset (nfaAlphabet nfa)) sc dcnt
      obtain ⟨hinvf, hqf, hmono⟩ := subsetLoopT nfa (sortFinset (nfaAlphabet nfa)) fuel
        (fun a ha => ha) fuel _ stf htin hloop
      subst hdfa
      have hstart : (sc, StName.d dcnt) ∈ stf.mapping :=
        hmono (sc, StName.d dcnt) (List.mem_singleton_self _)
      have hchar0 : ∀ x, x ∈ sc ↔ NfaReach nfa [] x := by
        intro x
        rw [nfaReach_nil_iff]
        exact epsilon_closure_spec nfa fuel {nfa.start} sc hsc x
      have hvset : ∀ x, x ∈ stf.mapping.map (·.2) →
          x ∈ (stf.dstates.map (·.1)).toFinset := by
        intro x hx
        rw [hinvf.base.hflip, List.map_map, List.mem_toFinset]
        exact hx
      have hrow : ∀ pr ∈ stf.dtrans,
          ∃ T, RowInv nfa (sortFinset (nfaAlphabet nfa)) stf.mapping T pr.2 := by
        intro pr hpr
        have hkey : pr.1 ∈ stf.dtrans.map (·.1) := List.mem_map_of_mem _ hpr
        obtain ⟨p, hp, hpx, _⟩ := hinvf.hdproc pr.1 hkey
        have hnq : p.1 ∉ stf.queue := by
          rw [hqf]
          exact List.not_mem_nil _
        obtain ⟨row, hrowmem, hRI⟩ := hinvf.hrows p hp hnq
        have heq : pr = (p.2, row) :=
          List.inj_on_of_nodup_map hinvf.hdkeys hpr hrowmem (by rw [hpx])
        rw [heq]
        exact ⟨p.1, hRI⟩
      refine ⟨⟨hinvf.hdkeys, ?_, ?_, ?_, ?_, ?_, ?_⟩, rfl, ?_⟩
      · intro x hx
        exact hvset x (hinvf.base.hfsub x hx)
      · intro hc
        rw [dfaStateSet] at hc
        show False
        have hc2 : StName.dead ∈ stf.dstates.map (·.1) := List.mem_toFinset.mp hc
        rw [hinvf.base.hflip, List.map_map] at hc2
        obtain ⟨k, _, hk⟩ := hinvf.base.hbound StName.dead hc2
        exact absurd hk (by intro hcc; cases hcc)
      · refine alookup_none_of_not_mem stf.dtrans ?_
        intro hc
        obtain ⟨p, hp, hpx, _⟩ := hinvf.hdproc StName.dead hc
        obtain ⟨k, _, hk⟩ := hinvf.base.hbound StName.dead
          (hpx ▸ List.mem_map_of_mem _ hp)
        exact absurd hk (by intro hcc; cases hcc)
      · intro pr hpr a n2 hlk
        obtain ⟨T, hRI⟩ := hrow pr hpr
        obtain ⟨ha, _⟩ := hRI.1 a n2 hlk
        show a ∈ nfaAlphabet nfa
        exact (mem_sortFinset (nfaAlphabet nfa) a).mp ha
      · intro pr hpr a n2 hlk
        obtain ⟨T, hRI⟩ := hrow pr hpr
        obtain ⟨_, U2, hU2, _⟩ := hRI.1 a n2 hlk
        exact hvset n2 (List.mem_map_of_mem _ hU2)
      · exact hvset (StName.d dcnt) (List.mem_map_of_mem _ hstart)
      · intro s hs
        have hs2 : ∀ c ∈ s, c ∈ sortFinset (nfaAlphabet nfa) :=
          fun c hc => (mem_sortFinset (nfaAlphabet nfa) c).mpr (hs c hc)
        rcases dfaRun_bridge nfa (sortFinset (nfaAlphabet nfa)) stf
            { start := StName.d dcnt, states := stf.dstates, transitions := stf.dtrans,
              final_states := stf.dfinal, alphabet := nfaAlphabet nfa }
            hinvf hqf rfl sc (StName.d dcnt) hstart hchar0 s hs2 with
          ⟨n, U, hrun, hmem, hchar⟩ | ⟨hrun, hempty⟩
        · show (match dfaDeltaStar _ (StName.d dcnt) s with
            | some qq => decide (qq ∈ stf.dfinal)
            | none => false) = true ↔ nfaAccepts nfa s
          rw [hrun]
          simp only [decide_eq_true_eq]
          rcases hinvf.base.hfin (U, n) hmem with ⟨hq2, _⟩ | ⟨_, hf⟩
          · rw [hqf] at hq2
            exact absurd hq2 (List.not_mem_nil _)
          · show n ∈ stf.dfinal ↔ NfaReach nfa s nfa.accept
            rw [hf]
            show nfa.accept ∈ U ↔ _
            exact hchar nfa.accept
        · show (match dfaDeltaStar _ (StName.d dcnt) s with
            | some qq => decide (qq ∈ stf.dfinal)
            | none => false) = true ↔ nfaAccepts nfa s
          rw [hrun]
          simp only [Bool.false_eq_true, false_iff]
          exact hempty nfa.accept

/-! ### Hopcroft refinement stability (towards C1) -/

theorem sep_symm {W : List (Finset StName)} {u v : StName} (h : Sep W u v) : Sep W v u := by
  obtain ⟨S, hS, hsep⟩ := h
  exact ⟨S, hS, hsep.symm⟩

theorem mem_eraseFirst_of_ne {α : Type} [DecidableEq α] (a S : α) :
    ∀ w : List α, S ∈ w → S ≠ a → S ∈ eraseFirst a w
  | [], h, _ => absurd h (List.not_mem_nil S)
  | x :: xs, h, hne => by
    rw [eraseFirst]
    by_cases hx : x = a
    · rw [if_pos hx]
      rcases List.mem_cons.mp h with he | he
      · exact absurd (he.trans hx) hne
      · exact he
    · rw [if_neg hx]
      rcases List.mem_cons.mp h with he | he
      · rw [he]
        exact List.mem_cons_self _ _
      · exact List.mem_cons_of_mem x (mem_eraseFirst_of_ne a S xs he hne)

theorem sep_split {y X : Finset StName} {u v : StName} (hu : u ∈ y) (hv : v ∉ y)
    (W2 : List (Finset StName)) (hin : y ∩ X ∈ W2) (hdi : y \ X ∈ W2) : Sep W2 u v := by
  have hu2 : u ∈ y ∩ X ∪ y \ X := by
    rw [finset_inter_union_sdiff]
    exact hu
  rcases Finset.mem_union.mp hu2 with h2 | h2
  · exact ⟨y ∩ X, hin, Or.inl ⟨h2, fun hvc => hv (Finset.mem_inter.mp hvc).1⟩⟩
  · exact ⟨y \ X, hdi, Or.inl ⟨h2, fun hvc => hv (Finset.mem_sdiff.mp hvc).1⟩⟩

theorem refineBlocks_sep_preserve (X : Finset StName) :
    ∀ (P W : List (Finset StName)) (u v : StName),
      Sep W u v → Sep (refineBlocks X P W).2 u v
  | [], W, u, v, h => h
  | y :: ys, W, u, v, h => by
    show Sep (refineBlocks X (y :: ys) W).2 u v
    simp only [refineBlocks]
    by_cases hc : (y ∩ X ≠ ∅ ∧ y \ X ≠ ∅)
    · rw [if_pos hc]
      refine refineBlocks_sep_preserve X ys _ u v ?_
      by_cases hyw : y ∈ W
      · rw [if_pos hyw]
        obtain ⟨S, hS, hsep⟩ := h
        by_cases hSy : S = y
        · have hin : y ∩ X ∈ eraseFirst y W ++ [y ∩ X, y \ X] :=
            List.mem_append_right _ (List.mem_cons_self _ _)
          have hdi : y \ X ∈ eraseFirst y W ++ [y ∩ X, y \ X] :=
            List.mem_append_right _ (List.mem_cons_of_mem _ (List.mem_singleton_self _))
          rw [hSy] at hsep
          rcases hsep with ⟨hu, hv⟩ | ⟨hv, hu⟩
          · exact sep_split hu hv _ hin hdi
          · exact sep_symm (sep_split hv hu _ hin hdi)
        · exact ⟨S, List.mem_append_left _ (mem_eraseFirst_of_ne y S W hS hSy), hsep⟩
      · rw [if_neg hyw]
        obtain ⟨S, hS, hsep⟩ := h
        split
        · exact ⟨S, List.mem_append_left _ hS, hsep⟩
        · exact ⟨S, List.mem_append_left _ hS, hsep⟩
    · rw [if_neg hc]
      exact refineBlocks_sep_preserve X ys W u v h

theorem refineBlocks_no_common (X : Finset StName) (P W : List (Finset StName))
    (u v : StName) (hno : ∀ Z ∈ P, ¬(u ∈ Z ∧ v ∈ Z)) :
    ∀ Z ∈ (refineBlocks X P W).1, ¬(u ∈ Z ∧ v ∈ Z) := by
  intro Z hZ hc
  obtain ⟨y, hy, hsub⟩ := refineBlocks_subset X P W Z hZ
  exact hno y hy ⟨hsub hc.1, hsub hc.2⟩

theorem refineBlocks_capture (X : Finset StName) :
    ∀ (P W : List (Finset StName)) (Y : Finset StName) (u v : StName),
      Y ∈ P → u ∈ Y → v ∈ Y →
      (∀ Z ∈ (refineBlocks X P W).1, ¬(u ∈ Z ∧ v ∈ Z)) →
      Sep (refineBlocks X P W).2 u v
  | [], W, Y, u, v, hY, _, _, _ => absurd hY (List.not_mem_nil Y)
  | y :: ys, W, Y, u, v, hY, hu, hv, hno => by
    simp only [refineBlocks] at hno ⊢
    by_cases hc : (y ∩ X ≠ ∅ ∧ y \ X ≠ ∅)
    · rw [if_pos hc] at hno ⊢
      rcases List.mem_cons.mp hY with hYy | hYtail
      · rw [hYy] at hu hv
        have hnin : ¬(u ∈ y ∩ X ∧ v ∈ y ∩ X) := hno _ (List.mem_cons_self _ _)
        have hndf : ¬(u ∈ y \ X ∧ v ∈ y \ X) :=
          hno _ (List.mem_cons_of_mem _ (List.mem_cons_self _ _))
        by_cases hux : u ∈ X
        · by_cases hvx : v ∈ X
          · exact absurd ⟨Finset.mem_inter.mpr ⟨hu, hux⟩,
              Finset.mem_inter.mpr ⟨hv, hvx⟩⟩ hnin
          · refine refineBlocks_sep_preserve X ys _ u v ?_
            by_cases hyw : y ∈ W
            · rw [if_pos hyw]
              exact ⟨y ∩ X, List.mem_append_right _ (List.mem_cons_self _ _),
                Or.inl ⟨Finset.mem_inter.mpr ⟨hu, hux⟩,
                  fun hvc => hvx (Finset.mem_inter.mp hvc).2⟩⟩
            · rw [if_neg hyw]
              split
              · exact ⟨y ∩ X, List.mem_append_right _ (List.mem_singleton_self _),
                  Or.inl ⟨Finset.mem_inter.mpr ⟨hu, hux⟩,
                    fun hvc => hvx (Finset.mem_inter.mp hvc).2⟩⟩
              · exact ⟨y \ X, List.mem_append_right _ (List.mem_singleton_self _),
                  Or.inr ⟨Finset.mem_sdiff.mpr ⟨hv, hvx⟩,
                    fun huc => (Finset.mem_sdiff.mp huc).2 hux⟩⟩
        · by_cases hvx : v ∈ X
          · refine refineBlocks_sep_preserve X ys _ u v ?_
            by_cases hyw : y ∈ W
            · rw [if_pos hyw]
              exact ⟨y ∩ X, List.mem_append_right _ (List.mem_cons_self _ _),
                Or.inr ⟨Finset.mem_inter.mpr ⟨hv, hvx⟩,
                  fun huc => hux (Finset.mem_inter.mp huc).2⟩⟩
            · rw [if_neg hyw]
              split
              · exact ⟨y ∩ X, List.mem_append_right _ (List.mem_singleton_self _),
                  Or.inr ⟨Finset.mem_inter.mpr ⟨hv, hvx⟩,
                    fun huc => hux (Finset.mem_inter.mp huc).2⟩⟩
              · exact ⟨y \ X, List.mem_append_right _ (List.mem_singleton_self _),
                  Or.inl ⟨Finset.mem_sdiff.mpr ⟨hu, hux⟩,
                    fun hvc => (Finset.mem_sdiff.mp hvc).2 hvx⟩⟩
          · exact absurd ⟨Finset.mem_sdiff.mpr ⟨hu, hux⟩,
              Finset.mem_sdiff.mpr ⟨hv, hvx⟩⟩ hndf
      · refine refineBlocks_capture X ys _ Y u v hYtail hu hv ?_
        intro Z hZ
        exact hno Z (List.mem_cons_of_mem _ (List.mem_cons_of_mem _ hZ))
    · rw [if_neg hc] at hno ⊢
      rcases List.mem_cons.mp hY with hYy | hYtail
      · rw [hYy] at hu hv
        exact absurd ⟨hu, hv⟩ (hno _ (List.mem_cons_self _ _))
      · refine refineBlocks_capture X ys W Y u v hYtail hu hv ?_
        intro Z hZ
        exact hno Z (List.mem_cons_of_mem _ hZ)

theorem refineBlocks_split_separates (X : Finset StName) :
    ∀ (P W : List (Finset StName)) (Y : Finset StName) (u v : StName),
      List.Pairwise (fun a b => Disjoint a b) P →
      Y ∈ P → u ∈ Y → v ∈ Y → u ∈ X → v ∉ X →
      ∀ Z ∈ (refineBlocks X P W).1, ¬(u ∈ Z ∧ v ∈ Z)
  | [], W, Y, u, v, _, hY, _, _, _, _ => absurd hY (List.not_mem_nil Y)
  | y :: ys, W, Y, u, v, hpw, hY, hu, hv, hux, hvx => by
    rw [List.pairwise_cons] at hpw
    intro Z hZ
    simp only [refineBlocks] at hZ
    rcases List.mem_cons.mp hY with hYy | hYtail
    · have hc : (y ∩ X ≠ ∅ ∧ y \ X ≠ ∅) := by
        rw [hYy] at hu hv
        exact ⟨Finset.ne_empty_of_mem (Finset.mem_inter.mpr ⟨hu, hux⟩),
          Finset.ne_empty_of_mem (Finset.mem_sdiff.mpr ⟨hv, hvx⟩)⟩
      rw [if_pos hc] at hZ
      rw [hYy] at hu hv
      rcases List.mem_cons.mp hZ with hZa | hZb
      · rintro ⟨_, hvc⟩
        rw [hZa] at hvc
        exact hvx (Finset.mem_inter.mp hvc).2
      · rcases List.mem_cons.mp hZb with hZa | hZc
        · rintro ⟨huc, _⟩
          rw [hZa] at huc
          exact (Finset.mem_sdiff.mp huc).2 hux
        · rintro ⟨huc, _⟩
          obtain ⟨y2, hy2, hsub⟩ := refineBlocks_subset X ys _ Z hZc
          exact Finset.disjoint_left.mp (hpw.1 y2 hy2) hu (hsub huc)
    · have huy : u ∉ y := fun hcc => Finset.disjoint_left.mp (hpw.1 Y hYtail) hcc hu
      by_cases hc : (y ∩ X ≠ ∅ ∧ y \ X ≠ ∅)
      · rw [if_pos hc] at hZ
        rcases List.mem_cons.mp hZ with hZa | hZb
        · rintro ⟨huc, _⟩
          rw [hZa] at huc
          exact huy (Finset.mem_inter.mp huc).1
        · rcases List.mem_cons.mp hZb with hZa | hZc
          · rintro ⟨huc, _⟩
            rw [hZa] at huc
            exact huy (Finset.mem_sdiff.mp huc).1
          · exact refineBlocks_split_separates X ys _ Y u v hpw.2 hYtail hu hv hux hvx Z hZc
      · rw [if_neg hc] at hZ
        rcases List.mem_cons.mp hZ with hZa | hZc
        · rintro ⟨huc, _⟩
          rw [hZa] at huc
          exact huy huc
        · exact refineBlocks_split_separates X ys W Y u v hpw.2 hYtail hu hv hux hvx Z hZc

theorem refineSym_eq (states : Finset StName) (tt : StName → Char → StName)
    (A : Finset StName) (c : Char) (P W : List (Finset StName))
    (steps : List (String × List (Finset StName))) :
    (refineSym states tt A c P W steps).1 =
      (refineBlocks (states.filter (fun qq => tt qq c ∈ A)) P W).1 ∧
    (refineSym states tt A c P W steps).2.1 =
      (refineBlocks (states.filter (fun qq => tt qq c ∈ A)) P W).2 := by
  simp only [refineSym]
  by_cases hne : (refineBlocks (states.filter (fun qq => tt qq c ∈ A)) P W).1 ≠ P
  · rw [if_pos hne]
    exact ⟨rfl, rfl⟩
  · rw [if_neg hne]
    push_neg at hne
    exact ⟨hne.symm, rfl⟩

theorem blockIdx_eq_of_common {P : List (Finset StName)} {Z : Finset StName} {q1 q2 : StName}
    (hpw : List.Pairwise (fun a b => Disjoint a b) P)
    (hZ : Z ∈ P) (h1 : q1 ∈ Z) (h2 : q2 ∈ Z) : blockIdx P q1 = blockIdx P q2 := by
  obtain ⟨i, hi⟩ := List.getElem?_of_mem hZ
  rw [blockIdx_of_mem_get q1 P i Z hpw hi h1, blockIdx_of_mem_get q2 P i Z hpw hi h2]

theorem refineSym_midpop (states : Finset StName) (tt : StName → Char → StName)
    (alpha : List Char) (A : Finset StName) (c : Char) (pending : List Char)
    (P W : List (Finset StName)) (steps : List (String × List (Finset StName)))
    (hpart : isPartitionOf P states)
    (hclosed : ∀ s ∈ states, ∀ a ∈ alpha, tt s a ∈ states)
    (hmid : MidPop tt alpha A (c :: pending) P W) :
    MidPop tt alpha A pending (refineSym states tt A c P W steps).1
      (refineSym states tt A c P W steps).2.1 := by
  obtain ⟨hP2, hW2⟩ := refineSym_eq states tt A c P W steps
  rw [hP2, hW2]
  intro a ha Y2 hY2 p1 hp1 p2 hp2 hne
  set X := states.filter (fun qq => tt qq c ∈ A) with hX
  obtain ⟨Y, hY, hsub⟩ := refineBlocks_subset X P W Y2 hY2
  have hp1Y : p1 ∈ Y := hsub hp1
  have hp2Y : p2 ∈ Y := hsub hp2
  have hp1s : p1 ∈ states := by
    rw [← hpart.2]
    exact (mem_foldr_union p1 P).mpr ⟨Y, hY, hp1Y⟩
  have hp2s : p2 ∈ states := by
    rw [← hpart.2]
    exact (mem_foldr_union p2 P).mpr ⟨Y, hY, hp2Y⟩
  have hq1s : tt p1 a ∈ states := hclosed p1 hp1s a ha
  have hq2s : tt p2 a ∈ states := hclosed p2 hp2s a ha
  by_cases heq : blockIdx P (tt p1 a) = blockIdx P (tt p2 a)
  · obtain ⟨B1, hB1, hq1⟩ := (mem_foldr_union (tt p1 a) P).mp
      (by rw [hpart.2]; exact hq1s)
    obtain ⟨B2, hB2, hq2⟩ := (mem_foldr_union (tt p2 a) P).mp
      (by rw [hpart.2]; exact hq2s)
    obtain ⟨i1, hi1⟩ := List.getElem?_of_mem hB1
    obtain ⟨i2, hi2⟩ := List.getElem?_of_mem hB2
    have e1 := blockIdx_of_mem_get (tt p1 a) P i1 B1 hpart.1 hi1 hq1
    have e2 := blockIdx_of_mem_get (tt p2 a) P i2 B2 hpart.1 hi2 hq2
    rw [e1, e2] at heq
    injection heq with hii
    subst hii
    rw [hi1] at hi2
    injection hi2 with hBB
    subst hBB
    refine Or.inl (refineBlocks_capture X P W B1 (tt p1 a) (tt p2 a) hB1 hq1 hq2 ?_)
    intro Z hZ hcom
    exact hne (blockIdx_eq_of_common (refineBlocks_pairwise X P W hpart.1) hZ hcom.1 hcom.2)
  · rcases hmid a ha Y hY p1 hp1Y p2 hp2Y heq with hsep | ⟨hpend, hAsep⟩
    · exact Or.inl (refineBlocks_sep_preserve X P W _ _ hsep)
    · rcases List.mem_cons.mp hpend with hac | hap
      · subst hac
        exfalso
        rcases hAsep with ⟨h1A, h2A⟩ | ⟨h2A, h1A⟩
        · have h1X : p1 ∈ X := Finset.mem_filter.mpr ⟨hp1s, h1A⟩
          have h2X : p2 ∉ X := fun hcc => h2A (Finset.mem_filter.mp hcc).2
          exact refineBlocks_split_separates X P W Y p1 p2 hpart.1 hY hp1Y hp2Y h1X h2X
            Y2 hY2 ⟨hp1, hp2⟩
        · have h2X : p2 ∈ X := Finset.mem_filter.mpr ⟨hp2s, h2A⟩
          have h1X : p1 ∉ X := fun hcc => h1A (Finset.mem_filter.mp hcc).2
          exact refineBlocks_split_separates X P W Y p2 p1 hpart.1 hY hp2Y hp1Y h2X h1X
            Y2 hY2 ⟨hp2, hp1⟩
      · exact Or.inr ⟨hap, hAsep⟩

theorem refineSyms_partition (states : Finset StName) (tt : StName → Char → StName)
    (A : Finset StName) (u : Finset StName) :
    ∀ (cs : List Char) (P W : List (Finset StName))
      (steps : List (String × List (Finset StName))),
      isPartitionOf P u →
      isPartitionOf (refineSyms states tt A cs P W steps).1 u
  | [], _, _, _, hP => hP
  | c :: cs, P, W, steps, hP => by
    simp only [refineSyms]
    refine refineSyms_partition states tt A u cs _ _ _ ?_
    rw [(refineSym_eq states tt A c P W steps).1]
    exact ⟨refineBlocks_pairwise _ P W hP.1, (refineBlocks_union _ P W).trans hP.2⟩

theorem refineSyms_midpop (states : Finset StName) (tt : StName → Char → StName)
    (alpha : List Char) (A : Finset StName)
    (hclosed : ∀ s ∈ states, ∀ a ∈ alpha, tt s a ∈ states) :
    ∀ (pending : List Char) (P W : List (Finset StName))
      (steps : List (String × List (Finset StName))),
      isPartitionOf P states →
      MidPop tt alpha A pending P W →
      MidPop tt alpha A []
        (refineSyms states tt A pending P W steps).1
        (refineSyms states tt A pending P W steps).2.1
  | [], _, _, _, _, hmid => hmid
  | c :: cs, P, W, steps, hpart, hmid => by
    simp only [refineSyms]
    have h1 := refineSym_midpop states tt alpha A c cs P W steps hpart hclosed hmid
    have hpart2 : isPartitionOf (refineSym states tt A c P W steps).1 states := by
      rw [(refineSym_eq states tt A c P W steps).1]
      exact ⟨refineBlocks_pairwise _ P W hpart.1, (refineBlocks_union _ P W).trans hpart.2⟩
    exact refineSyms_midpop states tt alpha A hclosed cs _ _ _ hpart2 h1

theorem hopinv_pop {tt : StName → Char → StName} {alpha : List Char}
    {A : Finset StName} {P Wrest : List (Finset StName)}
    (h : HopInv tt alpha P (A :: Wrest)) : MidPop tt alpha A alpha P Wrest := by
  intro a ha Y hY p1 hp1 p2 hp2 hne
  obtain ⟨S, hS, hsep⟩ := h a ha Y hY p1 hp1 p2 hp2 hne
  rcases List.mem_cons.mp hS with hSA | hSW
  · refine Or.inr ⟨ha, ?_⟩
    rw [hSA] at hsep
    exact hsep
  · exact Or.inl ⟨S, hSW, hsep⟩

theorem midPop_nil_hopinv {tt : StName → Char → StName} {alpha : List Char}
    {A : Finset StName} {P W : List (Finset StName)}
    (h : MidPop tt alpha A [] P W) : HopInv tt alpha P W := by
  intro a ha Y hY p1 hp1 p2 hp2 hne
  rcases h a ha Y hY p1 hp1 p2 hp2 hne with hsep | ⟨hpend, _⟩
  · exact hsep
  · exact absurd hpend (List.not_mem_nil a)

theorem hopInv_init (tt : StName → Char → StName) (alpha : List Char)
    (P : List (Finset StName)) (u : Finset StName)
    (hpart : isPartitionOf P u)
    (hclosed : ∀ s ∈ u, ∀ a ∈ alpha, tt s a ∈ u) :
    HopInv tt alpha P P := by
  intro a ha Y hY p1 hp1 p2 hp2 hne
  have hp1u : p1 ∈ u := by
    rw [← hpart.2]
    exact (mem_foldr_union p1 P).mpr ⟨Y, hY, hp1⟩
  have hq1u : tt p1 a ∈ u := hclosed p1 hp1u a ha
  obtain ⟨B1, hB1, hq1⟩ := (mem_foldr_union (tt p1 a) P).mp (by rw [hpart.2]; exact hq1u)
  refine ⟨B1, hB1, Or.inl ⟨hq1, ?_⟩⟩
  intro hq2B1
  exact hne (blockIdx_eq_of_common hpart.1 hB1 hq1 hq2B1)

theorem hopLoop_stable (states : Finset StName) (tt : StName → Char → StName)
    (alpha : List Char)
    (hclosed : ∀ s ∈ states, ∀ a ∈ alpha, tt s a ∈ states) :
    ∀ (fuel : Nat) (P W : List (Finset StName))
      (steps : List (String × List (Finset StName)))
      (Pf : List (Finset StName)) (stepsf : List (String × List (Finset StName))),
      isPartitionOf P states → HopInv tt alpha P W →
      hopLoop states tt alpha fuel P W steps = some (Pf, stepsf) →
      StableP tt alpha Pf
  | 0, P, W, steps, Pf, stepsf, _, _, h => absurd h (by simp [hopLoop])
  | fuel + 1, P, W, steps, Pf, stepsf, hpart, hinv, h => by
    simp only [hopLoop] at h
    split at h
    · simp only [Option.some.injEq, Prod.mk.injEq] at h
      obtain ⟨h1, _⟩ := h
      subst h1
      intro a ha Y hY p1 hp1 p2 hp2
      by_contra hne
      obtain ⟨S, hS, _⟩ := hinv a ha Y hY p1 hp1 p2 hp2 hne
      exact absurd hS (List.not_mem_nil S)
    · rename_i A Wrest
      have hmid0 := hopinv_pop hinv
      have hmidf := refineSyms_midpop states tt alpha A hclosed alpha P Wrest steps
        hpart hmid0
      exact hopLoop_stable states tt alpha hclosed fuel _ _ _ Pf stepsf
        (refineSyms_partition states tt A states alpha P Wrest steps hpart)
        (midPop_nil_hopinv hmidf) h

/-! ### Quotient simulation of the minimal DFA (towards C1) -/

theorem refineSyms_refines (states : Finset StName) (tt : StName → Char → StName)
    (A : Finset StName) :
    ∀ (cs : List Char) (P W : List (Finset StName))
      (steps : List (String × List (Finset StName))) (B : Finset StName),
      B ∈ (refineSyms states tt A cs P W steps).1 → ∃ B0 ∈ P, B ⊆ B0
  | [], P, _, _, B, h => ⟨B, h, subset_rfl⟩
  | c :: cs, P, W, steps, B, h => by
    simp only [refineSyms] at h
    obtain ⟨B1, hB1, hsub1⟩ := refineSyms_refines states tt A cs _ _ _ B h
    rw [(refineSym_eq states tt A c P W steps).1] at hB1
    obtain ⟨B0, hB0, hsub0⟩ := refineBlocks_subset _ P W B1 hB1
    exact ⟨B0, hB0, hsub1.trans hsub0⟩

theorem hopLoop_refines (states : Finset StName) (tt : StName → Char → StName)
    (alpha : List Char) :
    ∀ (fuel : Nat) (P W : List (Finset StName))
      (steps : List (String × List (Finset StName)))
      (Pf : List (Finset StName)) (stepsf : List (String × List (Finset StName))),
      hopLoop states tt alpha fuel P W steps = some (Pf, stepsf) →
      ∀ B ∈ Pf, ∃ B0 ∈ P, B ⊆ B0
  | 0, P, W, steps, Pf, stepsf, h => absurd h (by simp [hopLoop])
  | fuel + 1, P, W, steps, Pf, stepsf, h => by
    simp only [hopLoop] at h
    split at h
    · simp only [Option.some.injEq, Prod.mk.injEq] at h
      obtain ⟨h1, _⟩ := h
      subst h1
      exact fun B hB => ⟨B, hB, subset_rfl⟩
    · rename_i A Wrest
      intro B hB
      obtain ⟨B1, hB1, hsub1⟩ :=
        hopLoop_refines states tt alpha fuel _ _ _ Pf stepsf h B hB
      obtain ⟨B0, hB0, hsub0⟩ := refineSyms_refines states tt A alpha P Wrest steps B1 hB1
      exact ⟨B0, hB0, hsub1.trans hsub0⟩

theorem pickRep_mem {b : Finset StName} {r : StName} (h : pickRep b = some r) : r ∈ b := by
  rw [pickRep] at h
  cases hs : sortFinset b with
  | nil => rw [hs] at h; exact absurd h (by simp)
  | cons x xs =>
    rw [hs] at h
    injection h with h2
    refine (mem_sortFinset b r).mp ?_
    rw [hs, h2]
    exact List.mem_cons_self _ _

theorem minRow_alookup (rep : StName → Option StName) (tt : StName → Char → StName)
    (r : StName) :
    ∀ (alpha : List Char) (row : List (Char × StName)),
      minRow rep tt r alpha = some row →
      ∀ c ∈ alpha, ∃ mt, rep (tt r c) = some mt ∧ alookup c row = some mt
  | [], row, h, c, hc => absurd hc (List.not_mem_nil c)
  | a :: as, row, h, c, hc => by
    simp only [minRow] at h
    split at h
    · exact absurd h (by simp)
    · rename_i mt hmt
      split at h
      · exact absurd h (by simp)
      · rename_i rest hrest
        simp only [Option.some.injEq] at h
        subst h
        by_cases hac : a = c
        · subst hac
          exact ⟨mt, hmt, by rw [alookup, if_pos rfl]⟩
        · rcases List.mem_cons.mp hc with he | he
          · exact absurd he.symm hac
          · obtain ⟨mt2, hmt2, hlk2⟩ := minRow_alookup rep tt r as rest hrest c he
            exact ⟨mt2, hmt2, by rw [alookup, if_neg hac]; exact hlk2⟩

theorem minTransBuild_alookup (rep : StName → Option StName) (tt : StName → Char → StName)
    (alpha : List Char) :
    ∀ (l : List (StName × Finset StName)) (out : List (StName × List (Char × StName))),
      minTransBuild rep tt alpha l = some out →
      (l.map (·.1)).Nodup →
      ∀ p ∈ l, ∃ r row, pickRep p.2 = some r ∧ minRow rep tt r alpha = some row ∧
        alookup p.1 out = some row
  | [], out, h, _, p, hp => absurd hp (List.not_mem_nil p)
  | (name, members) :: rest, out, h, hnd, p, hp => by
    simp only [minTransBuild] at h
    split at h
    · exact absurd h (by simp)
    · rename_i r hr
      split at h
      · exact absurd h (by simp)
      · rename_i row hrow
        split at h
        · exact absurd h (by simp)
        · rename_i rs hrs
          simp only [Option.some.injEq] at h
          subst h
          rw [List.map_cons, List.nodup_cons] at hnd
          rcases List.mem_cons.mp hp with he | he
          · subst he
            exact ⟨r, row, hr, hrow, by rw [alookup, if_pos rfl]⟩
          · obtain ⟨r2, row2, hr2, hrow2, hlk2⟩ :=
              minTransBuild_alookup rep tt alpha rest rs hrs hnd.2 p he
            refine ⟨r2, row2, hr2, hrow2, ?_⟩
            rw [alookup, if_neg ?_]
            · exact hlk2
            · intro hc
              exact hnd.1 (hc ▸ List.mem_map_of_mem _ he)

theorem totalTrans_dead (dfa : DFA) (dn : Bool) (a : Char)
    (hnk : alookup StName.dead dfa.transitions = none) :
    totalTrans dfa dn StName.dead a = StName.dead := by
  simp only [totalTrans]
  split
  · rfl
  · show (baseTrans dfa StName.dead a).getD StName.dead = StName.dead
    simp only [baseTrans, hnk, Option.none_bind]
    rfl

theorem ttStar_dead (dfa : DFA) (dn : Bool)
    (hnk : alookup StName.dead dfa.transitions = none) :
    ∀ s : List Char, ttStar (totalTrans dfa dn) StName.dead s = StName.dead
  | [] => rfl
  | c :: cs => by
    show ttStar (totalTrans dfa dn) (totalTrans dfa dn StName.dead c) cs = StName.dead
    rw [totalTrans_dead dfa dn c hnk]
    exact ttStar_dead dfa dn hnk cs

theorem baseTrans_some_facts {dfa : DFA} {q : StName} {c : Char} {nxt : StName}
    (hb : baseTrans dfa q c = some nxt) :
    ∃ row, alookup q dfa.transitions = some row ∧ alookup c row = some nxt := by
  simp only [baseTrans] at hb
  cases hlk : alookup q dfa.transitions with
  | none => rw [hlk] at hb; exact absurd hb (by simp)
  | some row =>
    rw [hlk, Option.some_bind] at hb
    exact ⟨row, rfl, hb⟩

theorem ttStar_agrees (dfa : DFA) (dn : Bool) (hwf : DfaWF dfa) :
    ∀ (s : List Char) (q : StName), q ∈ dfaStateSet dfa →
      (dfaDeltaStar dfa q s = some (ttStar (totalTrans dfa dn) q s) ∧
        ttStar (totalTrans dfa dn) q s ∈ dfaStateSet dfa) ∨
      (dfaDeltaStar dfa q s = none ∧ ttStar (totalTrans dfa dn) q s = StName.dead)
  | [], q, hq => Or.inl ⟨rfl, hq⟩
  | c :: cs, q, hq => by
    have hqd : q ≠ StName.dead := fun hcc => hwf.noDeadState (hcc ▸ hq)
    cases hb : baseTrans dfa q c with
    | some nxt =>
      have htt : totalTrans dfa dn q c = nxt := by
        simp only [totalTrans]
        rw [if_neg (fun hcc => hqd hcc.2), hb]
        rfl
      obtain ⟨row, hlk, hcrow⟩ := baseTrans_some_facts hb
      have hnxt : nxt ∈ dfaStateSet dfa :=
        hwf.targets (q, row) (alookup_mem hlk) c nxt hcrow
      have hstep : dfaDeltaStar dfa q (c :: cs) = dfaDeltaStar dfa nxt cs := by
        show (match (alookup q dfa.transitions).bind (alookup c) with
          | none => none
          | some n => dfaDeltaStar dfa n cs) = _
        have hbb : (alookup q dfa.transitions).bind (alookup c) = some nxt := hb
        rw [hbb]
      have htts : ttStar (totalTrans dfa dn) q (c :: cs) =
          ttStar (totalTrans dfa dn) nxt cs := by
        show ttStar (totalTrans dfa dn) (totalTrans dfa dn q c) cs = _
        rw [htt]
      rw [hstep, htts]
      exact ttStar_agrees dfa dn hwf cs nxt hnxt
    | none =>
      have htt : totalTrans dfa dn q c = StName.dead := by
        simp only [totalTrans]
        rw [if_neg (fun hcc => hqd hcc.2), hb]
        rfl
      refine Or.inr ⟨?_, ?_⟩
      · show (match (alookup q dfa.transitions).bind (alookup c) with
          | none => none
          | some n => dfaDeltaStar dfa n cs) = none
        have hbb : (alookup q dfa.transitions).bind (alookup c) = none := hb
        rw [hbb]
      · show ttStar (totalTrans dfa dn) (totalTrans dfa dn q c) cs = StName.dead
        rw [htt]
        exact ttStar_dead dfa dn hwf.noDeadKey cs

theorem totalStateSet_closed (dfa : DFA) (hwf : DfaWF dfa) :
    ∀ q ∈ totalStateSet dfa, ∀ a ∈ sortFinset dfa.alphabet,
      totalTrans dfa (deadNeeded dfa (sortFinset dfa.alphabet)) q a ∈ totalStateSet dfa := by
  intro q hq a ha
  have hbase : dfaStateSet dfa ⊆ totalStateSet dfa := by
    rw [totalStateSet]
    split
    · exact Finset.subset_insert _ _
    · exact subset_rfl
  by_cases hqd : q = StName.dead
  · subst hqd
    rw [totalTrans_dead dfa _ a hwf.noDeadKey]
    exact hq
  · have hqs : q ∈ dfaStateSet dfa := by
      rw [totalStateSet] at hq
      split at hq
      · rcases Finset.mem_insert.mp hq with he | he
        · exact absurd he hqd
        · exact he
      · exact hq
    have htt : totalTrans dfa (deadNeeded dfa (sortFinset dfa.alphabet)) q a =
        (baseTrans dfa q a).getD StName.dead := by
      simp only [totalTrans]
      rw [if_neg (fun hcc => hqd hcc.2)]
    rw [htt]
    cases hb : baseTrans dfa q a with
    | some nxt =>
      obtain ⟨row, hlk, hcrow⟩ := baseTrans_some_facts hb
      exact hbase (hwf.targets (q, row) (alookup_mem hlk) a nxt hcrow)
    | none =>
      have hdn : deadNeeded dfa (sortFinset dfa.alphabet) = true := by
        rw [deadNeeded, List.any_eq_true]
        refine ⟨q, List.mem_toFinset.mp hqs, ?_⟩
        rw [List.any_eq_true]
        exact ⟨a, ha, by rw [hb]; rfl⟩
      show StName.dead ∈ totalStateSet dfa
      rw [totalStateSet, if_pos hdn]
      exact Finset.mem_insert_self _ _

theorem ttStar_closed (tt : StName → Char → StName) (u : Finset StName) (alpha : List Char)
    (hclosed : ∀ s ∈ u, ∀ a ∈ alpha, tt s a ∈ u) :
    ∀ (s : List Char) (q : StName), (∀ c ∈ s, c ∈ alpha) → q ∈ u → ttStar tt q s ∈ u
  | [], _, _, hq => hq
  | c :: cs, q, hcs, hq => by
    show ttStar tt (tt q c) cs ∈ u
    exact ttStar_closed tt u alpha hclosed cs (tt q c)
      (fun c2 hc2 => hcs c2 (List.mem_cons_of_mem c hc2))
      (hclosed q hq c (hcs c (List.mem_cons_self c cs)))

theorem min_deltaStar_run (m : MinDFA) (P : List (Finset StName))
    (tt : StName → Char → StName) (alpha : List Char) (u : Finset StName)
    (hpart : isPartitionOf P u)
    (hclosed : ∀ s ∈ u, ∀ a ∈ alpha, tt s a ∈ u)
    (hstable : StableP tt alpha P)
    (htrans : ∀ (i : Nat) (B : Finset StName), P[i]? = some B →
      ∃ r row, r ∈ B ∧ minRow (repOf P) tt r alpha = some row ∧
        alookup (StName.m i) m.transitions = some row) :
    ∀ (s : List Char) (q : StName) (i : Nat), (∀ c ∈ s, c ∈ alpha) →
      q ∈ u → blockIdx P q = some i →
      deltaStar m (StName.m i) s = (blockIdx P (ttStar tt q s)).map StName.m
  | [], q, i, _, _, hidx => by
    show some (StName.m i) = (blockIdx P q).map StName.m
    rw [hidx]
    rfl
  | c :: cs, q, i, hcs, hqu, hidx => by
    obtain ⟨B, hBget, hqB⟩ := blockIdx_some_get q P i hidx
    obtain ⟨r, row, hrB, hminrow, hlk⟩ := htrans i B hBget
    have hcal : c ∈ alpha := hcs c (List.mem_cons_self c cs)
    obtain ⟨mt, hrep, hclk⟩ := minRow_alookup (repOf P) tt r alpha row hminrow c hcal
    have hBP : B ∈ P := by
      obtain ⟨hlt, hEq⟩ := List.getElem?_eq_some_iff.mp hBget
      exact hEq ▸ List.getElem_mem hlt
    have hstab : blockIdx P (tt r c) = blockIdx P (tt q c) :=
      hstable c hcal B hBP r hrB q hqB
    simp only [repOf] at hrep
    rw [hstab] at hrep
    obtain ⟨i2, hi2, hmt⟩ := Option.map_eq_some'.mp hrep
    have hstep : deltaStar m (StName.m i) (c :: cs) = deltaStar m mt cs := by
      show (match (alookup (StName.m i) m.transitions).bind (alookup c) with
        | none => none
        | some nxt => deltaStar m nxt cs) = _
      rw [hlk, Option.some_bind, hclk]
    rw [hstep, ← hmt]
    show deltaStar m (StName.m i2) cs = (blockIdx P (ttStar tt (tt q c) cs)).map StName.m
    exact min_deltaStar_run m P tt alpha u hpart hclosed hstable htrans cs (tt q c) i2
      (fun c2 hc2 => hcs c2 (List.mem_cons_of_mem c hc2))
      (hclosed q hqu c hcal) hi2

theorem min_accept_bridge (dfa : DFA) (m : MinDFA) (P : List (Finset StName))
    (l : List StName) (tt : StName → Char → StName) (dn : Bool) (alphaL : List Char)
    (hwf : DfaWF dfa)
    (hdn : dn = deadNeeded dfa (sortFinset dfa.alphabet))
    (httdef : tt = totalTrans dfa dn)
    (halphaL : alphaL = sortFinset dfa.alphabet)
    (hpartF : isPartitionOf P (totalStateSet dfa))
    (hstable : StableP tt alphaL P)
    (hfincon : ∀ B ∈ P, B ⊆ dfa.final_states ∨ Disjoint B dfa.final_states)
    (htrans : ∀ (i : Nat) (B : Finset StName), P[i]? = some B →
      ∃ r row, r ∈ B ∧ minRow (repOf P) tt r alphaL = some row ∧
        alookup (StName.m i) m.transitions = some row)
    (hstart : repOf P dfa.start = some m.start)
    (hl : mapOption (repOf P) (sortFinset dfa.final_states) = some l)
    (hfin : m.final_states = l.toFinset) :
    ∀ s : List Char, (∀ c ∈ s, c ∈ dfa.alphabet) →
      (minAccepts m s = true ↔ dfaAccepts dfa s = true) := by
  have hclosed : ∀ q ∈ totalStateSet dfa, ∀ a ∈ alphaL, tt q a ∈ totalStateSet dfa := by
    rw [httdef, hdn, halphaL]
    exact totalStateSet_closed dfa hwf
  have hbase : dfaStateSet dfa ⊆ totalStateSet dfa := by
    simp only [totalStateSet]
    split
    · exact Finset.subset_insert _ _
    · exact subset_rfl
  intro s hs
  have hs2 : ∀ c ∈ s, c ∈ alphaL := by
    rw [halphaL]
    exact fun c hc => (mem_sortFinset _ _).mpr (hs c hc)
  have hstartmem : dfa.start ∈ totalStateSet dfa := hbase hwf.startMem
  have hstart2 := hstart
  simp only [repOf] at hstart2
  obtain ⟨i0, hidx0, hmst⟩ := Option.map_eq_some'.mp hstart2
  have hrunmin := min_deltaStar_run m P tt alphaL (totalStateSet dfa) hpartF hclosed
    hstable htrans s dfa.start i0 hs2 hstartmem hidx0
  have hqfmem : ttStar tt dfa.start s ∈ totalStateSet dfa :=
    ttStar_closed tt (totalStateSet dfa) alphaL hclosed s dfa.start hs2 hstartmem
  obtain ⟨Bf, hBf, hqBf⟩ := (mem_foldr_union _ P).mp (by rw [hpartF.2]; exact hqfmem)
  obtain ⟨ifin, hifin⟩ := List.getElem?_of_mem hBf
  have hidxf : blockIdx P (ttStar tt dfa.start s) = some ifin :=
    blockIdx_of_mem_get _ P ifin Bf hpartF.1 hifin hqBf
  have hms : deltaStar m m.start s = some (StName.m ifin) := by
    rw [← hmst, hrunmin, hidxf]
    rfl
  have hminacc : minAccepts m s = decide (StName.m ifin ∈ m.final_states) := by
    show (match deltaStar m m.start s with
      | some qq => decide (qq ∈ m.final_states)
      | none => false) = _
    rw [hms]
  have hfinchar : (StName.m ifin ∈ m.final_states) ↔
      ttStar tt dfa.start s ∈ dfa.final_states := by
    rw [hfin, List.mem_toFinset, mapOption_mem (repOf P) _ l hl]
    constructor
    · rintro ⟨sfin, hsfin, hrep⟩
      simp only [repOf] at hrep
      obtain ⟨j, hj, hmj⟩ := Option.map_eq_some'.mp hrep
      injection hmj with hji
      subst hji
      obtain ⟨Bj, hBjget, hsfinB⟩ := blockIdx_some_get sfin P j hj
      rw [hifin] at hBjget
      injection hBjget with hBB
      have hsfinBf : sfin ∈ Bf := by
        rw [hBB]
        exact hsfinB
      rcases hfincon Bf hBf with hsubf | hdisj
      · exact hsubf hqBf
      · exact absurd ((mem_sortFinset _ _).mp hsfin)
          (Finset.disjoint_left.mp hdisj hsfinBf)
    · intro hqff
      refine ⟨ttStar tt dfa.start s, (mem_sortFinset _ _).mpr hqff, ?_⟩
      simp only [repOf]
      rw [hidxf]
      rfl
  have hdfacc : dfaAccepts dfa s = true ↔ ttStar tt dfa.start s ∈ dfa.final_states := by
    have hag := ttStar_agrees dfa dn hwf s dfa.start hwf.startMem
    rw [← httdef] at hag
    rcases hag with ⟨hrun, _⟩ | ⟨hrun, hdead⟩
    · show (match dfaDeltaStar dfa dfa.start s with
        | some qq => decide (qq ∈ dfa.final_states)
        | none => false) = true ↔ _
      rw [hrun]
      simp only [decide_eq_true_eq]
    · show (match dfaDeltaStar dfa dfa.start s with
        | some qq => decide (qq ∈ dfa.final_states)
        | none => false) = true ↔ _
      rw [hrun]
      simp only [Bool.false_eq_true, false_iff]
      intro hc
      rw [hdead] at hc
      exact hwf.noDeadState (hwf.finSub hc)
  rw [hminacc, decide_eq_true_eq, hfinchar, hdfacc]

theorem hopcroft_minimize_spec (dfa : DFA) (fuel : Nat) (m : MinDFA)
    (tr : List (String × List (Finset StName)))
    (hwf : DfaWF dfa)
    (h : hopcroft_minimize dfa fuel = some (m, tr)) :
    m.alphabet = dfa.alphabet ∧
    ∀ s : List Char, (∀ c ∈ s, c ∈ dfa.alphabet) →
      (minAccepts m s = true ↔ dfaAccepts dfa s = true) := by
  simp only [hopcroft_minimize] at h
  split at h
  · exact absurd h (by simp)
  · rename_i P steps hloop
    split at h
    · exact absurd h (by simp)
    · rename_i mtrans hmtb
      split at h
      · exact absurd h (by simp)
      · rename_i mstart hstart
        split at h
        · exact absurd h (by simp)
        · rename_i mfin hfin
          simp only [Option.some.injEq, Prod.mk.injEq] at h
          obtain ⟨hm, htr2⟩ := h
          subst hm
          have hTSS : (if deadNeeded dfa (sortFinset dfa.alphabet) then
              insert StName.dead (dfaStateSet dfa) else dfaStateSet dfa) =
              totalStateSet dfa := rfl
          rw [hTSS] at hloop
          have hbase : dfaStateSet dfa ⊆ totalStateSet dfa := by
            simp only [totalStateSet]
            split
            · exact Finset.subset_insert _ _
            · exact subset_rfl
          have hfinsubs : dfa.final_states ⊆ totalStateSet dfa :=
            hwf.finSub.trans hbase
          have hpart0 := initial_partition (totalStateSet dfa) dfa.final_states hfinsubs
          have hclosed := totalStateSet_closed dfa hwf
          have hinv0 := hopInv_init
            (totalTrans dfa (deadNeeded dfa (sortFinset dfa.alphabet)))
            (sortFinset dfa.alphabet) _ (totalStateSet dfa) hpart0 hclosed
          have hstable := hopLoop_stable (totalStateSet dfa)
            (totalTrans dfa (deadNeeded dfa (sortFinset dfa.alphabet)))
            (sortFinset dfa.alphabet) hclosed fuel _ _ _ P steps hpart0 hinv0 hloop
          have hpartF := (hopLoop_inv (totalStateSet dfa)
            (totalTrans dfa (deadNeeded dfa (sortFinset dfa.alphabet)))
            (sortFinset dfa.alphabet) (totalStateSet dfa) fuel _ _ _ P steps hpart0
            (by
              intro sn hsn
              rw [List.mem_singleton] at hsn
              rw [hsn]
              exact hpart0)
            hloop).1
          have hrefines := hopLoop_refines (totalStateSet dfa)
            (totalTrans dfa (deadNeeded dfa (sortFinset dfa.alphabet)))
            (sortFinset dfa.alphabet) fuel _ _ _ P steps hloop
          have hfincon : ∀ B ∈ P, B ⊆ dfa.final_states ∨ Disjoint B dfa.final_states := by
            intro B hB
            obtain ⟨B0, hB0, hsub⟩ := hrefines B hB
            have hB0m := List.mem_filter.mp hB0
            rcases List.mem_cons.mp hB0m.1 with he | he
            · exact Or.inl (he ▸ hsub)
            · rw [List.mem_singleton] at he
              refine Or.inr (Finset.disjoint_left.mpr ?_)
              intro x hx hxf
              have hx2 := hsub hx
              rw [he] at hx2
              exact (Finset.mem_sdiff.mp hx2).2 hxf
          have minj : Function.Injective StName.m := fun a b hab => by injection hab
          have hnames : ((P.enum.map (fun p => (StName.m p.1, p.2))).map (·.1)).Nodup := by
            rw [List.map_map]
            have hcomp : ((·.1) ∘ fun p : Nat × Finset StName => (StName.m p.1, p.2)) =
                StName.m ∘ Prod.fst := rfl
            rw [hcomp, ← List.map_map, List.enum_map_fst]
            exact (List.nodup_range _).map minj
          have htrans : ∀ (i : Nat) (B : Finset StName), P[i]? = some B →
              ∃ r row, r ∈ B ∧
                minRow (repOf P)
                  (totalTrans dfa (deadNeeded dfa (sortFinset dfa.alphabet)))
                  r (sortFinset dfa.alphabet) = some row ∧
                alookup (StName.m i) mtrans = some row := by
            intro i B hiB
            have hmem : (StName.m i, B) ∈ P.enum.map (fun p => (StName.m p.1, p.2)) :=
              List.mem_map_of_mem _ (List.mk_mem_enum_iff_getElem?.mpr hiB)
            obtain ⟨r, row, hr, hrow, hlk⟩ := minTransBuild_alookup (repOf P)
              (totalTrans dfa (deadNeeded dfa (sortFinset dfa.alphabet)))
              (sortFinset dfa.alphabet) _ mtrans hmtb hnames (StName.m i, B) hmem
            exact ⟨r, row, pickRep_mem hr, hrow, hlk⟩
          simp only [minFinals] at hfin
          split at hfin
          · exact absurd hfin (by simp)
          · rename_i l hl
            simp only [Option.some.injEq] at hfin
            refine ⟨rfl, ?_⟩
            exact min_accept_bridge dfa
              { start := mstart, states := P.enum.map (fun p => (StName.m p.1, p.2)),
                transitions := mtrans, final_states := mfin, alphabet := dfa.alphabet }
              P l (totalTrans dfa (deadNeeded dfa (sortFinset dfa.alphabet)))
              (deadNeeded dfa (sortFinset dfa.alphabet)) (sortFinset dfa.alphabet)
              hwf rfl rfl rfl hpartF hstable hfincon htrans hstart hl hfin.symm

/-- C1: language preservation across the pipeline.  For every regex the
validator accepts (`to_postfix` succeeds) whose postfix builds an NFA,
whose NFA converts to a DFA and whose DFA minimizes, and for every test
string over the DFA alphabet, the minimal DFA accepts the string (by
deterministic simulation) iff the DFA accepts it (by deterministic
simulation) iff the NFA accepts it (by epsilon-closure reachability). -/
theorem c1_language_preservation (regex pf : List Char) (nfa : NFA) (cnt : Nat)
    (fuel : Nat) (dfa : DFA) (cnt2 : Nat) (m : MinDFA)
    (tr : List (String × List (Finset StName)))
    (h1 : to_postfix regex = Except.ok pf)
    (h2 : build_from_postfix pf 0 = Except.ok (nfa, cnt))
    (h3 : nfa_to_dfa nfa fuel 0 = some (dfa, cnt2))
    (h4 : hopcroft_minimize dfa fuel = some (m, tr)) :
    ∀ s : List Char, (∀ c ∈ s, c ∈ dfa.alphabet) →
      ((minAccepts m s = true ↔ dfaAccepts dfa s = true) ∧
       (dfaAccepts dfa s = true ↔ nfaAccepts nfa s)) := by
  obtain ⟨hwf, _, hlang⟩ := nfa_to_dfa_spec nfa fuel 0 dfa cnt2 h3
  obtain ⟨_, hminlang⟩ := hopcroft_minimize_spec dfa fuel m tr hwf h4
  intro s hs
  exact ⟨hminlang s hs, hlang s hs⟩

set_option maxRecDepth 1000000 in
/-- Witness for C1 at the regex `a*` and the test string `"a"`: the
pipeline hypotheses hold by computation, so the acceptance equivalences
are obtained for the concrete NFA, DFA and minimal DFA. -/
theorem c1_language_preservation_witness :
    (minAccepts minStarA ['a'] = true ↔ dfaAccepts dfaStarA ['a'] = true) ∧
    (dfaAccepts dfaStarA ['a'] = true ↔ nfaAccepts nfaStarA ['a']) :=
  c1_language_preservation ("a*".toList) ['a', '*'] nfaStarA 4 50 dfaStarA 2
    minStarA traceStarA (by decide) (by decide) (by rfl) (by rfl)
    ['a'] (by decide)

end TOA
